import Mathlib

/-!
# Station management of the rtl8723bs driver (`core/rtw_sta_mgt.c`)

A shallow embedding of the station pool: the fixed array of `sta_info`
records, the free queue, the hash buckets, the membership lists and the
access-control list, together with the functions of `rtw_sta_mgt.c` that
operate on them.

Modelling decisions.

* A pointer to a station record is the index of the record in
  `pstainfo_buf`; `NULL` is `none`.
* The intrusive circular doubly linked lists are modelled at the level of
  their `next`/`prev` pointers (`Links`), with the primitives of the kernel
  list API (`INIT_LIST_HEAD`, `list_add_tail`, `list_del_init`,
  `list_empty`) acting on single link cells.  The abstract content of a list
  is recovered by the predicate `IsList`.
* Loops that follow `next` pointers take a fuel argument; running out of fuel
  and applying `LIST_CONTAINOR` to a cell that is not embedded in a station
  record both yield `none` (no defined result).
* Spin locks, tracing, the transmit side (`xmit_priv`), MAC-id management and
  the HAL are collaborators outside this file and do not touch the modelled
  fields; the code is read sequentially.
-/

namespace RtwStaMgt

/-! ## Hardware addresses -/

/-- A 6-byte hardware address (`u8 hwaddr[ETH_ALEN]`). -/
structure Addr where
  b0 : Fin 256
  b1 : Fin 256
  b2 : Fin 256
  b3 : Fin 256
  b4 : Fin 256
  b5 : Fin 256
  deriving DecidableEq

/-- The all-ones address `{0xff, 0xff, 0xff, 0xff, 0xff, 0xff}` (`bc_addr`). -/
def bc_addr : Addr := ⟨255, 255, 255, 255, 255, 255⟩

/-- What `memset(.., 0, ..)` leaves in an address field. -/
def Addr.zero : Addr := ⟨0, 0, 0, 0, 0, 0⟩

/-- Modelled from the spec: the macro `IS_MCAST` is declared in a header that
is not part of the sources; a hardware address is a group (multicast) address
when the least significant bit of its first byte is set. -/
def IS_MCAST (da : Addr) : Bool := da.b0.val % 2 == 1

/-- Build-time parameters declared in headers outside the sources: the pool
capacity `NUM_STA` (also the number of hash buckets), the hash
`wifi_mac_hash` of a hardware address and the state bit `_FW_LINKED`; the
size `sizeof(struct sta_info)` of a record and the width `ptr_bits` of a
pointer (and of `size_t`); and the address `vzalloc` hands out when it has
memory. -/
structure Cfg where
  NUM_STA : Nat
  wifi_mac_hash : Addr → Nat
  _FW_LINKED : Nat
  sizeof_sta_info : Nat
  ptr_bits : Nat
  vzalloc : Nat

/-! ## Link cells and the list primitives -/

/-- The `struct list_head` cells of the pool: the list heads owned by
`sta_priv` and the four link fields embedded in every station record. -/
inductive Node where
  /-- `pstapriv->free_sta_queue.queue` -/
  | free_sta_queue : Node
  /-- `pstapriv->sta_hash[i]` -/
  | sta_hash (i : Nat) : Node
  /-- `pstapriv->auth_list` -/
  | auth_list_head : Node
  /-- `pstapriv->asoc_list` -/
  | asoc_list_head : Node
  /-- `psta->list` -/
  | list (r : Nat) : Node
  /-- `psta->hash_list` -/
  | hash_list (r : Nat) : Node
  /-- `psta->auth_list` -/
  | auth_list (r : Nat) : Node
  /-- `psta->asoc_list` -/
  | asoc_list (r : Nat) : Node
  deriving DecidableEq

/-- The `next` and `prev` pointers of every link cell. -/
structure Links where
  next : Node → Node
  prev : Node → Node

/-- Pointwise update of a map. -/
def upd {α β : Type} [DecidableEq α] (f : α → β) (a : α) (b : β) : α → β :=
  fun x => if x = a then b else f x

/-- `INIT_LIST_HEAD(l)`: `l->next = l; l->prev = l`. -/
def INIT_LIST_HEAD (h : Links) (l : Node) : Links :=
  { next := upd h.next l l, prev := upd h.prev l l }

/-- `__list_add(new, prev, next)`:
`next->prev = new; new->next = next; new->prev = prev; prev->next = new`. -/
def __list_add (h : Links) (new prev next : Node) : Links :=
  let h1 : Links := { h with prev := upd h.prev next new }
  let h2 : Links := { h1 with next := upd h1.next new next }
  let h3 : Links := { h2 with prev := upd h2.prev new prev }
  { h3 with next := upd h3.next prev new }

/-- `list_add_tail(new, head)` is `__list_add(new, head->prev, head)`. -/
def list_add_tail (h : Links) (new head : Node) : Links :=
  __list_add h new (h.prev head) head

/-- `__list_del(prev, next)`: `next->prev = prev; prev->next = next`. -/
def __list_del (h : Links) (prev next : Node) : Links :=
  let h1 : Links := { h with prev := upd h.prev next prev }
  { h1 with next := upd h1.next prev next }

/-- `list_del_init(entry)`: unlink `entry` from its neighbours, then
`INIT_LIST_HEAD(entry)`. -/
def list_del_init (h : Links) (entry : Node) : Links :=
  INIT_LIST_HEAD (__list_del h (h.prev entry) (h.next entry)) entry

/-- `list_empty(head)`: `head->next == head`. -/
def list_empty (h : Links) (head : Node) : Bool :=
  h.next head == head

/-- `LIST_CONTAINOR(p, struct sta_info, list)`; defined only on a `list`
cell of a record. -/
def containor_list : Node → Option Nat
  | .list r => some r
  | _ => none

/-- `LIST_CONTAINOR(p, struct sta_info, hash_list)`; defined only on a
`hash_list` cell of a record. -/
def containor_hash_list : Node → Option Nat
  | .hash_list r => some r
  | _ => none

/-! ## Station records -/

/-- One A-MPDU reorder controller (`struct recv_reorder_ctrl`).  The pending
queue holds frames of the receive pipeline, which is outside the sources: it
is represented by the sequence of its frames, and `none` stands for a queue
head that is still zero-filled (never passed to `_rtw_init_queue`).  The timer
is represented by whether it is pending. -/
structure recv_reorder_ctrl where
  enable : Bool
  indicate_seq : Nat
  wend_b : Nat
  wsize_b : Nat
  pending_recvframe_queue : Option (List Nat)
  reordering_ctrl_timer : Bool

/-- A zero-filled reorder controller. -/
def recv_reorder_ctrl.zero : recv_reorder_ctrl :=
  { enable := false, indicate_seq := 0, wend_b := 0, wsize_b := 0,
    pending_recvframe_queue := none, reordering_ctrl_timer := false }

/-- The fields of `struct sta_info` that this file reads or writes (the four
link fields live in `Links`). -/
structure sta_info where
  hwaddr : Addr
  aid : Nat
  mac_id : Nat
  state : Nat
  sleepq_len : Nat
  expire_to : Nat
  flags : Nat
  capability : Nat
  bpairwise_key_installed : Bool
  nonerp_set : Nat
  no_short_slot_time_set : Nat
  no_short_preamble_set : Nat
  no_ht_gf_set : Nat
  no_ht_set : Nat
  ht_20mhz_set : Nat
  under_exist_checking : Nat
  keep_alive_trycnt : Nat
  sleepq_ac_len : Nat
  qos_info : Nat
  max_sp_len : Nat
  uapsd_bk : Nat
  uapsd_be : Nat
  uapsd_vi : Nat
  uapsd_vo : Nat
  has_legacy_ac : Nat
  tid_rxseq : Nat → Nat
  recvreorder_ctrl : Nat → recv_reorder_ctrl
  UndecoratedSmoothedPWDB : Int
  UndecoratedSmoothedCCK : Int
  RxMgmtFrameSeqNum : Nat

/-- The record left by `memset((u8 *)psta, 0, sizeof (struct sta_info))`. -/
def sta_info.zero : sta_info :=
  { hwaddr := Addr.zero, aid := 0, mac_id := 0, state := 0, sleepq_len := 0,
    expire_to := 0, flags := 0, capability := 0,
    bpairwise_key_installed := false, nonerp_set := 0,
    no_short_slot_time_set := 0, no_short_preamble_set := 0, no_ht_gf_set := 0,
    no_ht_set := 0, ht_20mhz_set := 0, under_exist_checking := 0,
    keep_alive_trycnt := 0, sleepq_ac_len := 0, qos_info := 0, max_sp_len := 0,
    uapsd_bk := 0, uapsd_be := 0, uapsd_vi := 0, uapsd_vo := 0,
    has_legacy_ac := 0, tid_rxseq := fun _ => 0,
    recvreorder_ctrl := fun _ => recv_reorder_ctrl.zero,
    UndecoratedSmoothedPWDB := 0, UndecoratedSmoothedCCK := 0,
    RxMgmtFrameSeqNum := 0 }

/-- One entry of the access-control list (`struct rtw_wlan_acl_node`). -/
structure rtw_wlan_acl_node where
  addr : Addr
  valid : Bool
  deriving DecidableEq

/-- The access-control structure (`struct wlan_acl_pool`); the node queue is
only read here and is represented by the sequence of its entries. -/
structure wlan_acl_pool where
  mode : Nat
  acl_node_q : List rtw_wlan_acl_node

/-- The station pool (`struct sta_priv`).  `pallocated_stainfo_buf` and
`pstainfo_buf` are byte addresses (`0` is `NULL`); `sta r` is record `r` of
`pstainfo_buf`; `sta_aid` is the association-ID table.  The counters and the
bit maps have C types declared in headers outside the sources; they are
modelled as unbounded integers and naturals. -/
structure sta_priv where
  pallocated_stainfo_buf : Nat
  pstainfo_buf : Nat
  links : Links
  sta : Nat → sta_info
  asoc_sta_count : Int
  sta_dz_bitmap : Nat
  tim_bitmap : Nat
  asoc_list_cnt : Int
  auth_list_cnt : Int
  auth_to : Nat
  assoc_to : Nat
  expire_to : Nat
  max_num_sta : Nat
  sta_aid : Nat → Option Nat
  acl_list : wlan_acl_pool

/-- Result codes `_SUCCESS` and `_FAIL`. -/
inductive Status where
  | _SUCCESS : Status
  | _FAIL : Status
  deriving DecidableEq

/-- `x &= ~m` on a bit mask. -/
def clear_bits (x m : Nat) : Nat := x ^^^ (x &&& m)

/-- `BIT(n)`. -/
def BIT (n : Nat) : Nat := 1 <<< n

/-! ## The functions of `rtw_sta_mgt.c` -/

/-- `_rtw_init_stainfo(psta)`: zero-fills record `r` and re-initialises its
link cells; the remaining assignments store zeros again. -/
def _rtw_init_stainfo (s : sta_priv) (r : Nat) : sta_priv :=
  let p : sta_info := sta_info.zero
  let l := INIT_LIST_HEAD s.links (.list r)
  let l := INIT_LIST_HEAD l (.hash_list r)
  let p := { p with sleepq_len := 0 }
  let l := INIT_LIST_HEAD l (.asoc_list r)
  let l := INIT_LIST_HEAD l (.auth_list r)
  let p := { p with expire_to := 0, flags := 0, capability := 0,
                    bpairwise_key_installed := false,
                    nonerp_set := 0, no_short_slot_time_set := 0,
                    no_short_preamble_set := 0, no_ht_gf_set := 0,
                    no_ht_set := 0, ht_20mhz_set := 0,
                    under_exist_checking := 0, keep_alive_trycnt := 0 }
  { s with links := l, sta := upd s.sta r p }

/-- One round of the loop of `_rtw_init_sta_priv`: initialise record `i`,
initialise bucket `i`, append the record to the free queue. -/
def init_step (s : sta_priv) (i : Nat) : sta_priv :=
  let s := _rtw_init_stainfo s i
  let l := INIT_LIST_HEAD s.links (.sta_hash i)
  let l := list_add_tail l (.list i) .free_sta_queue
  { s with links := l }

/-- `_rtw_init_sta_priv(pstapriv)`; `mem` tells whether `vzalloc` returned a
buffer (at address `c.vzalloc`) or `NULL`. -/
def _rtw_init_sta_priv (c : Cfg) (mem : Bool) (s : sta_priv) : sta_priv × Status :=
  let s := { s with pallocated_stainfo_buf := if mem then c.vzalloc else 0 }
  if !mem then (s, Status._FAIL)
  else
    let s := { s with pstainfo_buf :=
      s.pallocated_stainfo_buf + 4 - (s.pallocated_stainfo_buf &&& 3) }
    let s := { s with links := INIT_LIST_HEAD s.links .free_sta_queue }
    let s := { s with asoc_sta_count := 0 }
    let s := (List.range c.NUM_STA).foldl init_step s
    let s := { s with sta_dz_bitmap := 0, tim_bitmap := 0 }
    let l := INIT_LIST_HEAD s.links .asoc_list_head
    let l := INIT_LIST_HEAD l .auth_list_head
    let s := { s with links := l, asoc_list_cnt := 0, auth_list_cnt := 0 }
    ({ s with auth_to := 3, assoc_to := 3, expire_to := 3, max_num_sta := c.NUM_STA },
      Status._SUCCESS)

/-- Conversion of an integer to `size_t`. -/
def to_size_t (c : Cfg) (x : Int) : Nat := (x % 2 ^ c.ptr_bits).toNat

/-- Conversion of an integer to the 32-bit `int`. -/
def to_int (x : Int) : Int := (x + 2 ^ 31) % 2 ^ 32 - 2 ^ 31

/-- The address of record `r`: the loop of `_rtw_init_sta_priv` starts with
`psta` at `pstainfo_buf` and advances it by one record per round. -/
def sta_ptr (c : Cfg) (s : sta_priv) (r : Nat) : Nat :=
  s.pstainfo_buf + r * c.sizeof_sta_info

/-- `rtw_stainfo_offset(stapriv, sta)` on the address `sta`: the pointer
difference is converted to `size_t` by the division and the quotient to
`int` by the assignment; the range check only prints a debug line. -/
def rtw_stainfo_offset (c : Cfg) (s : sta_priv) (sta : Nat) : Int :=
  let diff : Int := (sta : Int) - (s.pstainfo_buf : Int)
  to_int ((to_size_t c diff / c.sizeof_sta_info : Nat) : Int)

/-- `rtw_get_stainfo_by_offset(stapriv, offset)`: the address of the slot;
the range check only prints a debug line. -/
def rtw_get_stainfo_by_offset (c : Cfg) (s : sta_priv) (offset : Int) : Nat :=
  (s.pstainfo_buf + to_size_t c offset * c.sizeof_sta_info) % 2 ^ c.ptr_bits

/-- The reorder controller written by the second loop of
`rtw_alloc_stainfo`. -/
def alloc_reorder_ctrl (rc : recv_reorder_ctrl) : recv_reorder_ctrl :=
  { rc with enable := false, indicate_seq := 0xffff, wend_b := 0xffff,
            wsize_b := 64, pending_recvframe_queue := some [],
            reordering_ctrl_timer := false }

/-- The `else` branch of `rtw_alloc_stainfo`, from `list_del_init` on, for the
record `psta` found at the front of the free queue.  `init_addba_retry_timer`
and `rtw_alloc_macid` act outside the modelled fields; `rtw_init_recv_timer`
leaves the reorder timer not pending. -/
def alloc_body (c : Cfg) (s : sta_priv) (hwaddr : Addr) (psta : Nat) :
    sta_priv × Option Nat :=
  let s := { s with links := list_del_init s.links (.list psta) }
  let s := _rtw_init_stainfo s psta
  let s := { s with sta := upd s.sta psta { s.sta psta with hwaddr := hwaddr } }
  let index := c.wifi_mac_hash hwaddr
  if index ≥ c.NUM_STA then (s, none)
  else
    let s := { s with links := list_add_tail s.links (.hash_list psta) (.sta_hash index) }
    let s := { s with asoc_sta_count := s.asoc_sta_count + 1 }
    let p := s.sta psta
    let p := (List.range 16).foldl
      (fun p i => { p with tid_rxseq := upd p.tid_rxseq i 0xffff }) p
    let p := (List.range 16).foldl
      (fun p i => { p with
        recvreorder_ctrl := upd p.recvreorder_ctrl i (alloc_reorder_ctrl (p.recvreorder_ctrl i)) })
      p
    let p := { p with UndecoratedSmoothedPWDB := -1, UndecoratedSmoothedCCK := -1 }
    let p := { p with RxMgmtFrameSeqNum := 0xffff }
    ({ s with sta := upd s.sta psta p }, some psta)

/-- `rtw_alloc_stainfo(pstapriv, hwaddr)`.  The result is `none` when
`LIST_CONTAINOR` is applied to a cell that is not the `list` field of a
record. -/
def rtw_alloc_stainfo (c : Cfg) (s : sta_priv) (hwaddr : Addr) :
    Option (sta_priv × Option Nat) :=
  if list_empty s.links .free_sta_queue then some (s, none)
  else
    match containor_list (s.links.next .free_sta_queue) with
    | none => none
    | some psta => some (alloc_body c s hwaddr psta)

/-- The loop `while (!list_empty(phead))` of `rtw_free_stainfo`: every round
unlinks the first frame of the pending queue and hands it back to the free
receive queue. -/
def drain_pending : List Nat → List Nat
  | [] => []
  | _ :: fs => drain_pending fs

/-- One round of the reorder loop of `rtw_free_stainfo`: cancel the timer and
drain the pending queue of controller `i`.  A zero-filled queue head has
`next == NULL`, so the loop dereferences a null pointer: no result. -/
def free_reorder_ctrl (p : Option sta_info) (i : Nat) : Option sta_info :=
  match p with
  | none => none
  | some p =>
    let rc := p.recvreorder_ctrl i
    let rc := { rc with reordering_ctrl_timer := false }
    match rc.pending_recvframe_queue with
    | none => none
    | some q =>
      let rc := { rc with pending_recvframe_queue := some (drain_pending q) }
      some { p with recvreorder_ctrl := upd p.recvreorder_ctrl i rc }

/-- The part of `rtw_free_stainfo` after the reorder loop, `p` being the
contents of the record at that point. -/
def free_tail (s : sta_priv) (psta : Nat) (p : sta_info) : sta_priv :=
  let s :=
    if !list_empty s.links (.auth_list psta) then
      { s with links := list_del_init s.links (.auth_list psta),
               auth_list_cnt := s.auth_list_cnt - 1 }
    else s
  let p := { p with expire_to := 0, sleepq_ac_len := 0, qos_info := 0,
                    max_sp_len := 0, uapsd_bk := 0, uapsd_be := 0,
                    uapsd_vi := 0, uapsd_vo := 0, has_legacy_ac := 0 }
  let s := { s with sta_dz_bitmap := clear_bits s.sta_dz_bitmap (BIT p.aid) }
  let s := { s with tim_bitmap := clear_bits s.tim_bitmap (BIT p.aid) }
  let hit : Bool := decide (p.aid > 0 ∧ s.sta_aid (p.aid - 1) = some psta)
  let s := if hit then { s with sta_aid := upd s.sta_aid (p.aid - 1) none } else s
  let p := if hit then { p with aid := 0 } else p
  let p := { p with under_exist_checking := 0 }
  let s := { s with sta := upd s.sta psta p }
  { s with links := list_add_tail s.links (.list psta) .free_sta_queue }

/-- `rtw_free_stainfo(padapter, psta)` on the pool of `padapter`.  The
bookkeeping of the transmit queues at the head of the function (`sleep_q`, the
four `tx_servq` queues, the `hwxmits` counters) acts on `xmit_priv` and on
transmit fields of the record that nothing else in this file reads; of that
part only `sleepq_len = 0` is kept.  `del_timer_sync`, `rtw_hal_set_odm_var`
and `rtw_release_macid` act outside the pool. -/
def rtw_free_stainfo (c : Cfg) (s : sta_priv) (psta : Option Nat) :
    Option (sta_priv × Status) :=
  match psta with
  | none => some (s, Status._SUCCESS)
  | some psta =>
    let p := s.sta psta
    let p := { p with state := clear_bits p.state c._FW_LINKED }
    let p := { p with sleepq_len := 0 }
    let s := { s with links := list_del_init s.links (.hash_list psta) }
    let s := { s with asoc_sta_count := s.asoc_sta_count - 1 }
    match (List.range 16).foldl free_reorder_ctrl (some p) with
    | none => none
    | some p => some (free_tail s psta p, Status._SUCCESS)

/-- The search loop of `rtw_get_stainfo`, started at `plist`. -/
def get_stainfo_loop (s : sta_priv) (phead : Node) (addr : Addr) :
    Nat → Node → Option (Option Nat)
  | 0, _ => none
  | fuel + 1, plist =>
    if plist = phead then some none
    else
      match containor_hash_list plist with
      | none => none
      | some psta =>
        if (s.sta psta).hwaddr = addr then some (some psta)
        else get_stainfo_loop s phead addr fuel (s.links.next plist)

/-- `rtw_get_stainfo(pstapriv, hwaddr)`.  An index outside the bucket array
has no defined result. -/
def rtw_get_stainfo (c : Cfg) (fuel : Nat) (s : sta_priv) (hwaddr : Option Addr) :
    Option (Option Nat) :=
  match hwaddr with
  | none => some none
  | some hwaddr =>
    let addr := if IS_MCAST hwaddr then bc_addr else hwaddr
    let index := c.wifi_mac_hash addr
    if index < c.NUM_STA then
      let phead := Node.sta_hash index
      get_stainfo_loop s phead addr fuel (s.links.next phead)
    else none

/-- `rtw_get_bcmc_stainfo(padapter)`. -/
def rtw_get_bcmc_stainfo (c : Cfg) (fuel : Nat) (s : sta_priv) : Option (Option Nat) :=
  rtw_get_stainfo c fuel s (some bc_addr)

/-- `rtw_init_bcmc_stainfo(padapter)`: the result code is `_SUCCESS` on both
paths. -/
def rtw_init_bcmc_stainfo (c : Cfg) (s : sta_priv) : Option (sta_priv × Status) :=
  match rtw_alloc_stainfo c s bc_addr with
  | none => none
  | some (s, none) => some (s, Status._SUCCESS)
  | some (s, some psta) =>
    some ({ s with sta := upd s.sta psta { s.sta psta with mac_id := 1 } }, Status._SUCCESS)

/-- The inner `while (phead != plist)` loop of `rtw_free_all_stainfo`. -/
def free_all_loop (c : Cfg) (phead : Node) (pbcmc_stainfo : Option Nat) :
    Nat → sta_priv → Node → Option sta_priv
  | 0, _, _ => none
  | fuel + 1, s, plist =>
    if plist = phead then some s
    else
      match containor_hash_list plist with
      | none => none
      | some psta =>
        let plist := s.links.next plist
        if pbcmc_stainfo ≠ some psta then
          match rtw_free_stainfo c s (some psta) with
          | none => none
          | some (s, _) => free_all_loop c phead pbcmc_stainfo fuel s plist
        else free_all_loop c phead pbcmc_stainfo fuel s plist

/-- The outer `for (index = 0; index < NUM_STA; index++)` loop of
`rtw_free_all_stainfo`, with `n` rounds left. -/
def free_all_buckets (c : Cfg) (fuel : Nat) (pbcmc_stainfo : Option Nat) :
    Nat → sta_priv → Option sta_priv
  | 0, s => some s
  | n + 1, s =>
    let index := c.NUM_STA - (n + 1)
    let phead := Node.sta_hash index
    match free_all_loop c phead pbcmc_stainfo fuel s (s.links.next phead) with
    | none => none
    | some s => free_all_buckets c fuel pbcmc_stainfo n s

/-- `rtw_free_all_stainfo(padapter)`. -/
def rtw_free_all_stainfo (c : Cfg) (fuel : Nat) (s : sta_priv) : Option sta_priv :=
  match rtw_get_bcmc_stainfo c fuel s with
  | none => none
  | some pbcmc_stainfo =>
    if s.asoc_sta_count = 1 then some s
    else free_all_buckets c fuel pbcmc_stainfo c.NUM_STA s

/-- The scan of `rtw_access_ctrl` over the node queue: `match` becomes true at
the first entry with the address and a set valid flag. -/
def acl_match (mac_addr : Addr) : List rtw_wlan_acl_node → Bool
  | [] => false
  | paclnode :: rest =>
    if paclnode.addr = mac_addr then
      if paclnode.valid = true then true else acl_match mac_addr rest
    else acl_match mac_addr rest

/-- `rtw_access_ctrl(padapter, mac_addr)`. -/
def rtw_access_ctrl (s : sta_priv) (mac_addr : Addr) : Bool :=
  let mtch := acl_match mac_addr s.acl_list.acl_node_q
  if s.acl_list.mode = 1 then (if mtch = true then false else true)
  else if s.acl_list.mode = 2 then (if mtch = true then true else false)
  else true

/-! ## Specification vocabulary -/

/-- `Path h a xs e`: following `next` from `a` visits the cells `xs` in order
and stops at `e`, the last cell visited, every step being mirrored by
`prev`. -/
def Path (h : Links) : Node → List Node → Node → Prop
  | a, [], e => a = e
  | a, x :: xs, e => h.next a = x ∧ h.prev x = a ∧ Path h x xs e

/-- `IsList h hd xs`: the cells `xs` form a well-formed circular doubly
linked list with head `hd`. -/
def IsList (h : Links) (hd : Node) (xs : List Node) : Prop :=
  Path h hd xs (h.prev hd) ∧ h.next (h.prev hd) = hd ∧ (hd :: xs).Nodup

/-- A cell that points to itself in both directions. -/
def SelfLinked (h : Links) (n : Node) : Prop :=
  h.next n = n ∧ h.prev n = n

/-- The list family a link cell belongs to: `0` free queue, `1` hash buckets,
`2` authentication list, `3` association list. -/
def Node.kind : Node → Nat
  | .free_sta_queue => 0
  | .list _ => 0
  | .sta_hash _ => 1
  | .hash_list _ => 1
  | .auth_list_head => 2
  | .auth_list _ => 2
  | .asoc_list_head => 3
  | .asoc_list _ => 3

/-- The cells that exist in a pool of `NUM_STA` records and buckets. -/
def Node.valid (c : Cfg) : Node → Prop
  | .free_sta_queue => True
  | .auth_list_head => True
  | .asoc_list_head => True
  | .sta_hash i => i < c.NUM_STA
  | .list r => r < c.NUM_STA
  | .hash_list r => r < c.NUM_STA
  | .auth_list r => r < c.NUM_STA
  | .asoc_list r => r < c.NUM_STA

/-- Every cell of the pool is linked to cells of its own list family only. -/
def Closed (c : Cfg) (h : Links) : Prop :=
  ∀ x, x.valid c → (h.next x).kind = x.kind ∧ (h.prev x).kind = x.kind

/-- The cells of the free queue holding the records `fl`. -/
def free_cells (fl : List Nat) : List Node :=
  Node.free_sta_queue :: fl.map Node.list

/-- The cells of bucket `i` holding the records `b`. -/
def bucket_cells (i : Nat) (b : List Nat) : List Node :=
  Node.sta_hash i :: b.map Node.hash_list

/-- `LShape c h fl bk`: in the links `h` the free queue holds the records
`fl` in this order, bucket `i` holds the records `bk i` in this order, and
the `list` and `hash_list` cells of all other records point to themselves. -/
structure LShape (c : Cfg) (h : Links) (fl : List Nat) (bk : Nat → List Nat) : Prop where
  closed : Closed c h
  free_lt : ∀ r, r ∈ fl → r < c.NUM_STA
  hash_lt : ∀ i, i < c.NUM_STA → ∀ r, r ∈ bk i → r < c.NUM_STA
  free : IsList h .free_sta_queue (fl.map .list)
  hash : ∀ i, i < c.NUM_STA → IsList h (.sta_hash i) ((bk i).map .hash_list)
  list_self : ∀ r, r < c.NUM_STA → r ∉ fl → SelfLinked h (.list r)
  hash_self : ∀ r, r < c.NUM_STA → (∀ i, i < c.NUM_STA → r ∉ bk i) →
    SelfLinked h (.hash_list r)
  bk_disj : ∀ i j, i < c.NUM_STA → j < c.NUM_STA → i ≠ j → ∀ r, r ∈ bk i → r ∉ bk j

/-- The reorder controller left by one round of the release loop. -/
def freed_reorder_ctrl (rc : recv_reorder_ctrl) : recv_reorder_ctrl :=
  { rc with reordering_ctrl_timer := false, pending_recvframe_queue := some [] }

/-- The record written by a successful `rtw_alloc_stainfo`. -/
def fresh_sta (hwaddr : Addr) : sta_info :=
  { sta_info.zero with
    hwaddr := hwaddr
    tid_rxseq := fun t => if t < 16 then 0xffff else 0
    recvreorder_ctrl := fun t =>
      if t < 16 then alloc_reorder_ctrl recv_reorder_ctrl.zero else recv_reorder_ctrl.zero
    UndecoratedSmoothedPWDB := -1
    UndecoratedSmoothedCCK := -1
    RxMgmtFrameSeqNum := 0xffff }

/-- The links left by `_rtw_init_stainfo` after `list_del_init(&psta->list)`. -/
def alloc_links0 (h : Links) (r : Nat) : Links :=
  INIT_LIST_HEAD (INIT_LIST_HEAD (INIT_LIST_HEAD (INIT_LIST_HEAD
    (list_del_init h (.list r)) (.list r)) (.hash_list r)) (.asoc_list r)) (.auth_list r)

/-- Every record held in a bucket has its sixteen pending queues
initialised. -/
def QueuesInit (c : Cfg) (s : sta_priv) (bk : Nat → List Nat) : Prop :=
  ∀ i, i < c.NUM_STA → ∀ r, r ∈ bk i → ∀ t, t < 16 →
    ((s.sta r).recvreorder_ctrl t).pending_recvframe_queue ≠ none

/-- `Shape c s fl bk`: the pool `s` is well formed, its free queue holds the
records `fl` and its bucket `i` the records `bk i`, in list order. -/
structure Shape (c : Cfg) (s : sta_priv) (fl : List Nat) (bk : Nat → List Nat) : Prop where
  links : LShape c s.links fl bk
  queues : QueuesInit c s bk

/-- The contents of record `psta` when `rtw_free_stainfo` reaches the code
after the reorder loop. -/
def freed_sta (c : Cfg) (p : sta_info) : sta_info :=
  { p with
    state := clear_bits p.state c._FW_LINKED
    sleepq_len := 0
    recvreorder_ctrl := fun t =>
      if t < 16 then freed_reorder_ctrl (p.recvreorder_ctrl t) else p.recvreorder_ctrl t }

/-- The pool handed to the code after the reorder loop. -/
def free_head_state (s : sta_priv) (r : Nat) : sta_priv :=
  { s with links := list_del_init s.links (.hash_list r),
           asoc_sta_count := s.asoc_sta_count - 1 }

/-- The pool after `k` rounds of the loop of `_rtw_init_sta_priv`. -/
structure InitInv (k : Nat) (s : sta_priv) : Prop where
  free : IsList s.links .free_sta_queue ((List.range k).map .list)
  heads : ∀ i, i < k → SelfLinked s.links (.sta_hash i)
  hash : ∀ r, r < k → SelfLinked s.links (.hash_list r)
  asoc : ∀ r, r < k → SelfLinked s.links (.asoc_list r)
  auth : ∀ r, r < k → SelfLinked s.links (.auth_list r)
  sta : ∀ r, r < k → s.sta r = sta_info.zero

/-- The links written by one round of the initialisation loop, before the
record is queued. -/
def init_links (h : Links) (k : Nat) : Links :=
  INIT_LIST_HEAD (INIT_LIST_HEAD (INIT_LIST_HEAD (INIT_LIST_HEAD (INIT_LIST_HEAD h
    (.list k)) (.hash_list k)) (.asoc_list k)) (.auth_list k)) (.sta_hash k)

/-- The pool returned by a successful `_rtw_init_sta_priv`. -/
def init_pool (c : Cfg) (s : sta_priv) : sta_priv := (_rtw_init_sta_priv c true s).1

/-- The pool at the end of the loop of `_rtw_init_sta_priv`. -/
def init_loop_state (c : Cfg) (s : sta_priv) : sta_priv :=
  (List.range c.NUM_STA).foldl init_step
    { s with
      pallocated_stainfo_buf := c.vzalloc
      pstainfo_buf := c.vzalloc + 4 - (c.vzalloc &&& 3)
      links := INIT_LIST_HEAD s.links .free_sta_queue
      asoc_sta_count := 0 }

/-- The address `rtw_get_stainfo` searches for: the all-ones address for a
group address, the address itself otherwise. -/
def norm_addr (hwaddr : Addr) : Addr :=
  if IS_MCAST hwaddr then bc_addr else hwaddr

/-- The first record of `b` whose hardware address is `addr`. -/
def first_match (s : sta_priv) (addr : Addr) (b : List Nat) : Option Nat :=
  b.find? (fun r => decide ((s.sta r).hwaddr = addr))

/-- No record is both on the free queue and in a bucket. -/
def Part (c : Cfg) (fl : List Nat) (bk : Nat → List Nat) : Prop :=
  ∀ r, r ∈ fl → ∀ i, i < c.NUM_STA → r ∉ bk i

/-- Record `r` is live in `s`: it is held in one of the buckets. -/
def Live (c : Cfg) (s : sta_priv) (r : Nat) : Prop :=
  ∃ fl bk, Shape c s fl bk ∧ ∃ i, i < c.NUM_STA ∧ r ∈ bk i

/-- `Others c r s t`: the pool `t` arises from `s` by calls of
`rtw_alloc_stainfo` and by calls of `rtw_free_stainfo` on live records other
than `r`. -/
inductive Others (c : Cfg) (r : Nat) : sta_priv → sta_priv → Prop where
  | refl (s : sta_priv) : Others c r s s
  | alloc {s t t' : sta_priv} (a : Addr) (res : Option Nat) :
      Others c r s t → rtw_alloc_stainfo c t a = some (t', res) → Others c r s t'
  | free {s t t' : sta_priv} (q : Nat) (st : Status) :
      Others c r s t → q ≠ r → Live c t q →
      rtw_free_stainfo c t (some q) = some (t', st) → Others c r s t'

/-- The cell that follows the records already visited in bucket `i`, `rest`
being the records still to visit. -/
def cell_after (i : Nat) : List Nat → Node
  | [] => .sta_hash i
  | r :: _ => .hash_list r

/-- The records of `b` that `rtw_free_all_stainfo` releases: all but the
record `pb` found for the all-ones address. -/
def released (pb : Option Nat) (b : List Nat) : List Nat :=
  b.filter (fun r => !decide (pb = some r))

/-- The records of `b` that `rtw_free_all_stainfo` skips. -/
def skipped (pb : Option Nat) (b : List Nat) : List Nat :=
  b.filter (fun r => decide (pb = some r))

/-- The buckets after the first `k` buckets have been swept. -/
def swept (pb : Option Nat) (bk : Nat → List Nat) (k : Nat) : Nat → List Nat :=
  fun j => if j < k then skipped pb (bk j) else bk j

/-- The records released by sweeping the first `k` buckets, in the order of
their release. -/
def released_upto (pb : Option Nat) (bk : Nat → List Nat) (k : Nat) : List Nat :=
  (List.range k).foldl (fun acc j => acc ++ released pb (bk j)) []

/-- `Reach c s`: the pool `s` arises from a successful `_rtw_init_sta_priv` by
calls of `rtw_alloc_stainfo`, calls of `rtw_free_stainfo` on live records and
calls of `rtw_free_all_stainfo` (run with more fuel than there are records).
A call of `rtw_free_stainfo` with a NULL handle leaves the pool as it is and
needs no rule of its own. -/
inductive Reach (c : Cfg) : sta_priv → Prop where
  | init (s0 : sta_priv) : Reach c (init_pool c s0)
  | alloc {s s' : sta_priv} (a : Addr) (res : Option Nat) :
      Reach c s → rtw_alloc_stainfo c s a = some (s', res) → Reach c s'
  | free {s s' : sta_priv} (r : Nat) (st : Status) :
      Reach c s → Live c s r → rtw_free_stainfo c s (some r) = some (s', st) → Reach c s'
  | free_all {s s' : sta_priv} (fuel : Nat) :
      Reach c s → c.NUM_STA < fuel → rtw_free_all_stainfo c fuel s = some s' → Reach c s'

/-- Every record of the pool is on the free queue or in a bucket. -/
def Cover (c : Cfg) (fl : List Nat) (bk : Nat → List Nat) : Prop :=
  ∀ r, r < c.NUM_STA → r ∈ fl ∨ ∃ i, i < c.NUM_STA ∧ r ∈ bk i

/-- Every record held in a bucket is held in the bucket of its address. -/
def HashOk (c : Cfg) (s : sta_priv) (bk : Nat → List Nat) : Prop :=
  ∀ i, i < c.NUM_STA → ∀ r, r ∈ bk i → c.wifi_mac_hash (s.sta r).hwaddr = i

/-- The invariant of the reachable pools. -/
def Inv (c : Cfg) (s : sta_priv) : Prop :=
  ∃ fl bk, Shape c s fl bk ∧ Part c fl bk ∧ Cover c fl bk ∧ HashOk c s bk

/-- `ReachU c s`: the pool `s` arises from a successful `_rtw_init_sta_priv`
by calls of `rtw_alloc_stainfo` for addresses that no live record holds and
calls of `rtw_free_stainfo` on live records. -/
inductive ReachU (c : Cfg) : sta_priv → Prop where
  | init (s0 : sta_priv) : ReachU c (init_pool c s0)
  | alloc {s s' : sta_priv} (a : Addr) (res : Option Nat) :
      ReachU c s → (∀ r, Live c s r → (s.sta r).hwaddr ≠ a) →
      rtw_alloc_stainfo c s a = some (s', res) → ReachU c s'
  | free {s s' : sta_priv} (r : Nat) (st : Status) :
      ReachU c s → Live c s r → rtw_free_stainfo c s (some r) = some (s', st) → ReachU c s'

/-- No two records held in buckets have the same hardware address. -/
def UniqAddr (c : Cfg) (s : sta_priv) (bk : Nat → List Nat) : Prop :=
  ∀ i j r q, i < c.NUM_STA → j < c.NUM_STA → r ∈ bk i → q ∈ bk j →
    (s.sta r).hwaddr = (s.sta q).hwaddr → r = q

/-- The invariant of the pools reached with allocations of fresh addresses. -/
def InvU (c : Cfg) (s : sta_priv) : Prop :=
  ∃ fl bk, Shape c s fl bk ∧ Part c fl bk ∧ UniqAddr c s bk ∧
    ∀ r, r < c.NUM_STA → (s.sta r).aid = 0

/-- `MShape c h au asl`: in the links `h` the authentication-pending list
holds the records `au` and the associated list the records `asl`, in list
order, and the `auth_list` and `asoc_list` cells of all other records point
to themselves. -/
structure MShape (c : Cfg) (h : Links) (au asl : List Nat) : Prop where
  auth : IsList h .auth_list_head (au.map .auth_list)
  asoc : IsList h .asoc_list_head (asl.map .asoc_list)
  auth_self : ∀ r, r < c.NUM_STA → r ∉ au → SelfLinked h (.auth_list r)
  asoc_self : ∀ r, r < c.NUM_STA → r ∉ asl → SelfLinked h (.asoc_list r)

/-- The number of records held in the hash buckets. -/
def live_count (c : Cfg) (bk : Nat → List Nat) : Nat :=
  ((List.range c.NUM_STA).map (fun i => (bk i).length)).sum

/-- `FreeSteps c s s'`: the pool `s'` arises from `s` by calls of
`rtw_free_stainfo` on live records. -/
inductive FreeSteps (c : Cfg) : sta_priv → sta_priv → Prop where
  | refl (s : sta_priv) : FreeSteps c s s
  | step {s s1 s2 : sta_priv} (r : Nat) (st : Status) :
      Live c s r → rtw_free_stainfo c s (some r) = some (s1, st) → FreeSteps c s1 s2 →
      FreeSteps c s s2

/-- The frames buffered in the pending queue of a reorder controller; a
zero-filled queue head links no frame. -/
def buffered (rc : recv_reorder_ctrl) : List Nat :=
  rc.pending_recvframe_queue.getD []

/-- All sixteen reorder controllers of the record hold no frame and have no
armed timer. -/
def Quiet (p : sta_info) : Prop :=
  ∀ t, t < 16 → buffered (p.recvreorder_ctrl t) = [] ∧
    (p.recvreorder_ctrl t).reordering_ctrl_timer = false

/-- The invariant of the free queue: the pool is well formed and every record
on the free queue is at rest. -/
def RestInv (c : Cfg) (s : sta_priv) : Prop :=
  ∃ fl bk, Shape c s fl bk ∧ Part c fl bk ∧ ∀ r, r ∈ fl → Quiet (s.sta r)

/-- Modelled from the spec: `wifi_mac_hash` is declared in a header that is
not part of the sources; a XOR fold of the six address bytes into the bucket
index space of a pool with 32 buckets. -/
def wifi_mac_hash32 (mac : Addr) : Nat :=
  let x := mac.b0.val
  let x := (x <<< 2) ^^^ mac.b1.val
  let x := (x <<< 2) ^^^ mac.b2.val
  let x := (x <<< 2) ^^^ mac.b3.val
  let x := (x <<< 2) ^^^ mac.b4.val
  let x := (x <<< 2) ^^^ mac.b5.val
  let x := x ^^^ (x >>> 8)
  x &&& 31

/-- A pool configuration with 32 records and buckets. -/
def cfg32 : Cfg :=
  { NUM_STA := 32, wifi_mac_hash := wifi_mac_hash32, _FW_LINKED := 1,
    sizeof_sta_info := 1024, ptr_bits := 64, vzalloc := 4096 }

/-- Memory before initialisation: every cell points to itself, every field is
zero. -/
def blank : sta_priv :=
  { pallocated_stainfo_buf := 0, pstainfo_buf := 0,
    links := { next := fun n => n, prev := fun n => n }, sta := fun _ => sta_info.zero,
    asoc_sta_count := 0, sta_dz_bitmap := 0, tim_bitmap := 0, asoc_list_cnt := 0,
    auth_list_cnt := 0, auth_to := 0, assoc_to := 0, expire_to := 0, max_num_sta := 0,
    sta_aid := fun _ => none, acl_list := { mode := 0, acl_node_q := [] } }

/-- The freshly initialised pool of 32 records. -/
def pool32 : sta_priv := init_pool cfg32 blank

/-- A unicast address. -/
def addrA : Addr := ⟨0x00, 0x11, 0x22, 0x33, 0x44, 0x55⟩

/-- A second unicast address. -/
def addrB : Addr := ⟨0x02, 0x00, 0x00, 0x00, 0x00, 0x01⟩

/-- A group address that is not the all-ones address. -/
def addrM : Addr := ⟨0x01, 0x00, 0x5e, 0x00, 0x00, 0x01⟩

/-- Following `next` from `p` until the head `hd` comes back: the cells
visited, or `none` when the fuel runs out first. -/
def walk (h : Links) (hd : Node) : Nat → Node → Option (List Node)
  | 0, _ => none
  | fuel + 1, p => if p = hd then some [] else (walk h hd fuel (h.next p)).map (p :: ·)

/-- The cells reached from the head of the free queue. -/
def free_queue_view (fuel : Nat) (s : sta_priv) : Option (List Node) :=
  walk s.links .free_sta_queue fuel (s.links.next .free_sta_queue)

/-- The cells reached from the head of bucket `i`. -/
def bucket_view (fuel : Nat) (s : sta_priv) (i : Nat) : Option (List Node) :=
  walk s.links (.sta_hash i) fuel (s.links.next (.sta_hash i))

/-- The fresh 32-record pool after `rtw_alloc_stainfo(addrA)`, which hands
out record 0. -/
def pool32_A : sta_priv := (alloc_body cfg32 pool32 addrA 0).1

/-- The fresh 32-record pool after `rtw_alloc_stainfo(addrA)` and
`rtw_free_stainfo` of the record it returned. -/
def once_released : Option sta_priv :=
  (rtw_alloc_stainfo cfg32 pool32 addrA).bind
    (fun x => (rtw_free_stainfo cfg32 x.1 x.2).map (·.1))

/-- The pool `once_released` after a second `rtw_free_stainfo` on record 0. -/
def twice_released : Option sta_priv :=
  once_released.bind (fun s => (rtw_free_stainfo cfg32 s (some 0)).map (·.1))

/-- The fresh 32-record pool after two calls of `rtw_alloc_stainfo(addrA)`,
with the two handles returned. -/
def twice_allocated : Option (sta_priv × Option Nat × Option Nat) :=
  (rtw_alloc_stainfo cfg32 pool32 addrA).bind
    (fun x => (rtw_alloc_stainfo cfg32 x.1 addrA).map (fun y => (y.1, x.2, y.2)))

/-- Successive calls of `rtw_alloc_stainfo`, one for each address of the
list, with the list of the returned handles. -/
def alloc_many (c : Cfg) : sta_priv → List Addr → Option (sta_priv × List (Option Nat))
  | s, [] => some (s, [])
  | s, a :: rest =>
    match rtw_alloc_stainfo c s a with
    | none => none
    | some (s', r) =>
      match alloc_many c s' rest with
      | none => none
      | some (s'', rs) => some (s'', r :: rs)

/-- Thirty-two unicast addresses `02:00:00:00:00:i`. -/
def addrs32 : List Addr :=
  (List.range 32).map (fun i => ⟨2, 0, 0, 0, 0, Fin.ofNat i⟩)

/-- The fresh 32-record pool after `rtw_init_bcmc_stainfo`-style allocation of
the all-ones address (record 0) and the allocation of `addrA` (record 1). -/
def pool32_bc_A : sta_priv :=
  (alloc_body cfg32 (alloc_body cfg32 pool32 bc_addr 0).1 addrA 1).1

/-- The 32-record pool after thirty-two allocations (all records live), two
calls of `rtw_free_stainfo` on record 0, and `rtw_alloc_stainfo(addrA)`. -/
def corrupted : Option sta_priv :=
  (alloc_many cfg32 pool32 addrs32).bind (fun x =>
    (rtw_free_stainfo cfg32 x.1 (some 0)).bind (fun y =>
      (rtw_free_stainfo cfg32 y.1 (some 0)).bind (fun z =>
        (rtw_alloc_stainfo cfg32 z.1 addrA).map (·.1))))

/-- The cells reached from the head of the authentication-pending list. -/
def auth_list_view (fuel : Nat) (s : sta_priv) : Option (List Node) :=
  walk s.links .auth_list_head fuel (s.links.next .auth_list_head)

/-- The cells reached from the head of the associated list. -/
def asoc_list_view (fuel : Nat) (s : sta_priv) : Option (List Node) :=
  walk s.links .asoc_list_head fuel (s.links.next .asoc_list_head)

/-- The pool `pool32_A` after record 0 was given the association ID 5 without
an entry in `sta_aid`. -/
def pool32_A_unlisted : sta_priv :=
  { pool32_A with sta := upd pool32_A.sta 0 { pool32_A.sta 0 with aid := 5 } }

/-- The pool `pool32_A` after record 0 was given the association ID 1, entered
in `sta_aid[0]`, with bits 0 and 1 set in both bit maps. -/
def pool32_A_aid1 : sta_priv :=
  { pool32_A with
    sta := upd pool32_A.sta 0 { pool32_A.sta 0 with aid := 1 }
    sta_aid := upd pool32_A.sta_aid 0 (some 0)
    sta_dz_bitmap := 3
    tim_bitmap := 3 }

/-- The pool `pool32_A` after
`list_add_tail(&psta->auth_list, &pstapriv->auth_list)` and
`auth_list_cnt++` for record 0. -/
def pool32_A_auth : sta_priv :=
  { pool32_A with
    links := list_add_tail pool32_A.links (.auth_list 0) .auth_list_head
    auth_list_cnt := pool32_A.auth_list_cnt + 1 }

/-- The pool `pool32_A` after
`list_add_tail(&psta->asoc_list, &pstapriv->asoc_list)` and
`asoc_list_cnt++` for record 0. -/
def pool32_A_asoc : sta_priv :=
  { pool32_A with
    links := list_add_tail pool32_A.links (.asoc_list 0) .asoc_list_head
    asoc_list_cnt := pool32_A.asoc_list_cnt + 1 }

/-! ## Theorems -/

theorem upd_same {α β : Type} [DecidableEq α] (f : α → β) (a : α) (b : β) :
    upd f a b a = b := by simp [upd]

theorem upd_other {α β : Type} [DecidableEq α] (f : α → β) (a : α) (b : β) (x : α)
    (hx : x ≠ a) : upd f a b x = f x := by simp [upd, hx]

theorem list_add_tail_next (h : Links) (n hd x : Node) :
    (list_add_tail h n hd).next x =
      if x = h.prev hd then n else if x = n then hd else h.next x := rfl

theorem list_add_tail_prev (h : Links) (n hd x : Node) :
    (list_add_tail h n hd).prev x =
      if x = n then h.prev hd else if x = hd then n else h.prev x := rfl

theorem list_del_init_next (h : Links) (n x : Node) :
    (list_del_init h n).next x =
      if x = n then n else if x = h.prev n then h.next n else h.next x := rfl

theorem list_del_init_prev (h : Links) (n x : Node) :
    (list_del_init h n).prev x =
      if x = n then n else if x = h.next n then h.prev n else h.prev x := rfl

theorem INIT_LIST_HEAD_next (h : Links) (n x : Node) :
    (INIT_LIST_HEAD h n).next x = if x = n then n else h.next x := rfl

theorem INIT_LIST_HEAD_prev (h : Links) (n x : Node) :
    (INIT_LIST_HEAD h n).prev x = if x = n then n else h.prev x := rfl

theorem Links.ext_fun {h h' : Links} (hn : ∀ x, h'.next x = h.next x)
    (hp : ∀ x, h'.prev x = h.prev x) : h' = h := by
  cases h; cases h'
  simp only [Links.mk.injEq]
  exact ⟨funext hn, funext hp⟩

theorem list_del_init_self (h : Links) (n : Node) (hs : SelfLinked h n) :
    list_del_init h n = h := by
  obtain ⟨h1, h2⟩ := hs
  apply Links.ext_fun
  · intro x
    rw [list_del_init_next]
    by_cases hx : x = n
    · subst hx; simp [h1]
    · simp [hx, h2]
  · intro x
    rw [list_del_init_prev]
    by_cases hx : x = n
    · subst hx; simp [h2]
    · simp [hx, h1]

theorem INIT_LIST_HEAD_self (h : Links) (n : Node) (hs : SelfLinked h n) :
    INIT_LIST_HEAD h n = h := by
  obtain ⟨h1, h2⟩ := hs
  apply Links.ext_fun
  · intro x
    rw [INIT_LIST_HEAD_next]
    by_cases hx : x = n
    · subst hx; simp [h1]
    · simp [hx]
  · intro x
    rw [INIT_LIST_HEAD_prev]
    by_cases hx : x = n
    · subst hx; simp [h2]
    · simp [hx]

theorem Path.end_mem {h : Links} {xs : List Node} :
    ∀ {a e : Node}, Path h a xs e → e ∈ a :: xs := by
  induction xs with
  | nil => intro a e hp; simp [Path] at hp; simp [hp]
  | cons x xs ih =>
    intro a e hp
    obtain ⟨_, _, hp⟩ := hp
    exact List.mem_cons_of_mem _ (ih hp)

theorem Path.path_frame {h h' : Links} {xs : List Node} :
    ∀ {a e : Node}, Path h a xs e → (a :: xs).Nodup →
      (∀ x ∈ a :: xs, x ≠ e → h'.next x = h.next x) →
      (∀ x ∈ xs, h'.prev x = h.prev x) → Path h' a xs e := by
  induction xs with
  | nil => intro a e hp _ _ _; exact hp
  | cons x xs ih =>
    intro a e hp hnd hn hpv
    obtain ⟨h1, h2, hp⟩ := hp
    have hae : a ≠ e := by
      intro hae
      have := hp.end_mem
      rw [← hae] at this
      exact (List.nodup_cons.mp hnd).1 this
    refine ⟨?_, ?_, ?_⟩
    · rw [hn a (List.mem_cons_self _ _) hae]; exact h1
    · rw [hpv x (List.mem_cons_self _ _)]; exact h2
    · apply ih hp (List.nodup_cons.mp hnd).2
      · intro y hy hye; exact hn y (List.mem_cons_of_mem _ hy) hye
      · intro y hy; exact hpv y (List.mem_cons_of_mem _ hy)

theorem Path.snoc {h : Links} {xs : List Node} {n : Node} :
    ∀ {a e : Node}, Path h a xs e → h.next e = n → h.prev n = e →
      Path h a (xs ++ [n]) n := by
  induction xs with
  | nil =>
    intro a e hp h1 h2
    simp only [Path] at hp
    subst hp
    exact ⟨h1, h2, rfl⟩
  | cons x xs ih =>
    intro a e hp h1 h2
    obtain ⟨h3, h4, hp⟩ := hp
    exact ⟨h3, h4, ih hp h1 h2⟩

theorem Path.append_iff {h : Links} {xs ys : List Node} {y : Node} :
    ∀ {a e : Node}, Path h a (xs ++ y :: ys) e ↔
      ∃ m, Path h a xs m ∧ h.next m = y ∧ h.prev y = m ∧ Path h y ys e := by
  induction xs with
  | nil =>
    intro a e
    constructor
    · rintro ⟨h1, h2, hp⟩
      exact ⟨a, rfl, h1, h2, hp⟩
    · rintro ⟨m, hm, h1, h2, hp⟩
      simp only [Path] at hm
      subst hm
      exact ⟨h1, h2, hp⟩
  | cons x xs ih =>
    intro a e
    constructor
    · rintro ⟨h1, h2, hp⟩
      obtain ⟨m, hm, h3, h4, hq⟩ := ih.mp hp
      exact ⟨m, ⟨h1, h2, hm⟩, h3, h4, hq⟩
    · rintro ⟨m, ⟨h1, h2, hm⟩, h3, h4, hq⟩
      exact ⟨h1, h2, ih.mpr ⟨m, hm, h3, h4, hq⟩⟩

theorem IsList.isList_frame {h h' : Links} {hd : Node} {xs : List Node} (hl : IsList h hd xs)
    (hf : ∀ x ∈ hd :: xs, h'.next x = h.next x ∧ h'.prev x = h.prev x) :
    IsList h' hd xs := by
  obtain ⟨hp, hc, hnd⟩ := hl
  have hpe : h'.prev hd = h.prev hd := (hf hd (List.mem_cons_self _ _)).2
  refine ⟨?_, ?_, hnd⟩
  · rw [hpe]
    exact hp.path_frame hnd (fun x hx _ => (hf x hx).1)
      (fun x hx => (hf x (List.mem_cons_of_mem _ hx)).2)
  · rw [hpe, (hf _ hp.end_mem).1]; exact hc

theorem IsList.nil_iff {h : Links} {hd : Node} : IsList h hd [] ↔ SelfLinked h hd := by
  constructor
  · rintro ⟨hp, hc, _⟩
    simp only [Path] at hp
    rw [← hp] at hc
    exact ⟨hc, hp.symm⟩
  · rintro ⟨h1, h2⟩
    refine ⟨?_, ?_, by simp⟩
    · simp [Path, h2]
    · rw [h2]; exact h1

theorem IsList.next_head {h : Links} {hd x : Node} {xs : List Node}
    (hl : IsList h hd (x :: xs)) : h.next hd = x := hl.1.1

theorem IsList.list_empty_iff {h : Links} {hd : Node} {xs : List Node}
    (hl : IsList h hd xs) : list_empty h hd = true ↔ xs = [] := by
  cases xs with
  | nil =>
    have := (IsList.nil_iff.mp hl).1
    simp [list_empty, this]
  | cons x xs =>
    have h1 := hl.next_head
    have h2 : x ≠ hd := by
      have := hl.2.2
      simp only [List.nodup_cons, List.mem_cons, not_or] at this
      exact fun e => this.1.1 e.symm
    simp [list_empty, h1, h2]

theorem IsList.isList_add_tail {h : Links} {hd n : Node} {xs : List Node}
    (hl : IsList h hd xs) (hn : n ∉ hd :: xs) :
    IsList (list_add_tail h n hd) hd (xs ++ [n]) := by
  obtain ⟨hp, hc, hnd⟩ := hl
  have hpm : h.prev hd ∈ hd :: xs := hp.end_mem
  have hnp : n ≠ h.prev hd := fun e => hn (e ▸ hpm)
  have hnh : hd ≠ n := fun e => hn (e ▸ List.mem_cons_self _ _)
  have hprev : (list_add_tail h n hd).prev hd = n := by
    rw [list_add_tail_prev]; simp [hnh]
  have hpath : Path (list_add_tail h n hd) hd xs (h.prev hd) := by
    apply hp.path_frame hnd
    · intro x hx hxe
      have hxn : x ≠ n := fun e => hn (e ▸ hx)
      rw [list_add_tail_next]; simp [hxe, hxn]
    · intro x hx
      have hxn : x ≠ n := fun e => hn (e ▸ List.mem_cons_of_mem _ hx)
      have hxh : x ≠ hd := fun e => (List.nodup_cons.mp hnd).1 (e ▸ hx)
      rw [list_add_tail_prev]; simp [hxn, hxh]
  refine ⟨?_, ?_, ?_⟩
  · rw [hprev]
    apply hpath.snoc
    · rw [list_add_tail_next]; simp
    · rw [list_add_tail_prev]; simp
  · rw [hprev, list_add_tail_next]; simp [hnp]
  · have : (hd :: xs ++ [n]).Nodup := by
      rw [List.nodup_append]
      refine ⟨hnd, by simp, ?_⟩
      intro a ha hb
      simp only [List.mem_singleton] at hb
      exact hn (hb ▸ ha)
    simpa using this

theorem IsList.isList_del_init {h : Links} {hd n : Node} {l1 l2 : List Node}
    (hl : IsList h hd (l1 ++ n :: l2)) :
    IsList (list_del_init h n) hd (l1 ++ l2) := by
  obtain ⟨hp, hc, hnd⟩ := hl
  obtain ⟨m, hp1, hmn, hnm, hp2⟩ := Path.append_iff.mp hp
  have hnd' : (hd :: l1 ++ n :: l2).Nodup := by simpa using hnd
  rw [List.nodup_append] at hnd'
  obtain ⟨hnd1, hnd2, hdisj⟩ := hnd'
  have hmm : m ∈ hd :: l1 := hp1.end_mem
  have hn1 : n ∉ hd :: l1 := fun hx => hdisj hx (List.mem_cons_self _ _)
  have hmn' : m ≠ n := fun e => hn1 (e ▸ hmm)
  have hhn : hd ≠ n := fun e => hn1 (e ▸ List.mem_cons_self _ _)
  have hn2 : n ∉ l2 := (List.nodup_cons.mp hnd2).1
  have hnd12 : (hd :: (l1 ++ l2)).Nodup := by
    have : (hd :: l1 ++ l2).Nodup := by
      rw [List.nodup_append]
      exact ⟨hnd1, (List.nodup_cons.mp hnd2).2,
        fun a ha hb => hdisj ha (List.mem_cons_of_mem _ hb)⟩
    simpa using this
  -- the first part of the list is unchanged
  have hpath1 : Path (list_del_init h n) hd l1 m := by
    apply hp1.path_frame hnd1
    · intro x hx hxm
      have hxn : x ≠ n := fun e => hn1 (e ▸ hx)
      rw [list_del_init_next, hnm]; simp [hxn, hxm]
    · intro x hx
      have hxn : x ≠ n := fun e => hn1 (e ▸ List.mem_cons_of_mem _ hx)
      have hxq : x ≠ h.next n := by
        intro e
        cases l2 with
        | nil =>
          simp only [Path] at hp2
          rw [hp2, hc] at e
          exact (List.nodup_cons.mp hnd1).1 (e ▸ hx)
        | cons y l2 =>
          rw [hp2.1] at e
          exact hdisj (List.mem_cons_of_mem _ hx) (e ▸ List.mem_cons_of_mem _ (List.mem_cons_self _ _))
      rw [list_del_init_prev]; simp [hxn, hxq]
  cases l2 with
  | nil =>
    simp only [Path] at hp2
    have hq : h.next n = hd := by rw [hp2]; exact hc
    have hprev : (list_del_init h n).prev hd = m := by
      rw [list_del_init_prev, hq, hnm]; simp [hhn]
    refine ⟨?_, ?_, hnd12⟩
    · rw [hprev]; simpa using hpath1
    · rw [hprev, list_del_init_next, hnm, hq]; simp [hmn']
  | cons y l2 =>
    obtain ⟨hq, hyn, hp3⟩ := hp2
    have hy2 : y ∉ l2 := (List.nodup_cons.mp (List.nodup_cons.mp hnd2).2).1
    have hyn' : y ≠ n := fun e => hn2 (e ▸ List.mem_cons_self _ _)
    have hhy : hd ≠ y := fun e =>
      hdisj (List.mem_cons_self _ _) (e ▸ List.mem_cons_of_mem _ (List.mem_cons_self _ _))
    have hem : h.prev hd ∈ y :: l2 := hp3.end_mem
    have hen : h.prev hd ≠ n := fun e => hn2 (e ▸ hem)
    have hemm : h.prev hd ≠ m := fun e =>
      hdisj hmm (e ▸ List.mem_cons_of_mem _ hem)
    have hprev : (list_del_init h n).prev hd = h.prev hd := by
      rw [list_del_init_prev, hq]; simp [hhn, hhy]
    have hpath3 : Path (list_del_init h n) y l2 (h.prev hd) := by
      apply hp3.path_frame (List.nodup_cons.mp hnd2).2
      · intro x hx _
        have hxn : x ≠ n := fun e => hn2 (e ▸ hx)
        have hxm : x ≠ m := fun e => hdisj hmm (e ▸ List.mem_cons_of_mem _ hx)
        rw [list_del_init_next, hnm]; simp [hxn, hxm]
      · intro x hx
        have hxn : x ≠ n := fun e => hn2 (e ▸ List.mem_cons_of_mem _ hx)
        have hxy : x ≠ y := fun e => hy2 (e ▸ hx)
        rw [list_del_init_prev, hq]; simp [hxn, hxy]
    refine ⟨?_, ?_, hnd12⟩
    · rw [hprev]
      apply Path.append_iff.mpr
      refine ⟨m, hpath1, ?_, ?_, hpath3⟩
      · rw [list_del_init_next, hnm, hq]; simp [hmn']
      · rw [list_del_init_prev, hq, hnm]; simp [hyn']
    · rw [hprev, list_del_init_next, hnm]; simp [hen, hemm]; exact hc

theorem list_del_init_selfLinked (h : Links) (n : Node) :
    SelfLinked (list_del_init h n) n := by
  constructor
  · rw [list_del_init_next]; simp
  · rw [list_del_init_prev]; simp

/-- The neighbours of a member of a list are cells of the same list. -/
theorem IsList.neighbours_mem {h : Links} {hd n : Node} {xs : List Node}
    (hl : IsList h hd xs) (hn : n ∈ hd :: xs) :
    h.next n ∈ hd :: xs ∧ h.prev n ∈ hd :: xs := by
  obtain ⟨hp, hc, hnd⟩ := hl
  have key : ∀ (ys : List Node) (a e : Node), Path h a ys e → ∀ x ∈ a :: ys,
      (x = e ∨ h.next x ∈ ys) ∧ (x = a ∨ h.prev x ∈ a :: ys) := by
    intro ys
    induction ys with
    | nil =>
      intro a e hp x hx
      simp only [Path] at hp
      simp only [List.mem_singleton] at hx
      subst hx; subst hp
      exact ⟨Or.inl rfl, Or.inl rfl⟩
    | cons y ys ih =>
      intro a e hp x hx
      obtain ⟨h1, h2, hp⟩ := hp
      rcases List.mem_cons.mp hx with hxa | hxy
      · subst hxa
        exact ⟨Or.inr (h1 ▸ List.mem_cons_self _ _), Or.inl rfl⟩
      · obtain ⟨i1, i2⟩ := ih y e hp x hxy
        constructor
        · rcases i1 with i1 | i1
          · exact Or.inl i1
          · exact Or.inr (List.mem_cons_of_mem _ i1)
        · rcases i2 with i2 | i2
          · subst i2
            exact Or.inr (h2 ▸ List.mem_cons_self _ _)
          · exact Or.inr (List.mem_cons_of_mem _ i2)
  obtain ⟨k1, k2⟩ := key xs hd _ hp n hn
  constructor
  · rcases k1 with k1 | k1
    · rw [k1, hc]; exact List.mem_cons_self _ _
    · exact List.mem_cons_of_mem _ k1
  · rcases k2 with k2 | k2
    · rw [k2]; exact hp.end_mem
    · exact k2

theorem Closed.closed_INIT {c : Cfg} {h : Links} (hc : Closed c h) (n : Node) :
    Closed c (INIT_LIST_HEAD h n) := by
  intro x hv
  rw [INIT_LIST_HEAD_next, INIT_LIST_HEAD_prev]
  by_cases hx : x = n
  · simp [hx]
  · simp [hx, hc x hv]

theorem Closed.closed_del_init {c : Cfg} {h : Links} (hc : Closed c h) (n : Node) (hn : n.valid c) :
    Closed c (list_del_init h n) := by
  intro x hv
  have h1 := hc n hn
  have h2 := hc x hv
  rw [list_del_init_next, list_del_init_prev]
  constructor
  · split_ifs with a b
    · rw [a]
    · rw [b, h1.1, h1.2]
    · exact h2.1
  · split_ifs with a b
    · rw [a]
    · rw [b, h1.1, h1.2]
    · exact h2.2

theorem Closed.closed_add_tail {c : Cfg} {h : Links} (hc : Closed c h) (n hd : Node)
    (hv : hd.valid c) (hk : n.kind = hd.kind) :
    Closed c (list_add_tail h n hd) := by
  intro x hx
  have h1 := hc hd hv
  have h2 := hc x hx
  rw [list_add_tail_next, list_add_tail_prev]
  constructor
  · split_ifs with a b
    · rw [a, h1.2, hk]
    · rw [b, hk]
    · exact h2.1
  · split_ifs with a b
    · rw [a, h1.2, hk]
    · rw [b, hk]
    · exact h2.2

/-- `INIT_LIST_HEAD` touches one cell. -/
theorem INIT_other (h : Links) (n x : Node) (hx : x ≠ n) :
    (INIT_LIST_HEAD h n).next x = h.next x ∧ (INIT_LIST_HEAD h n).prev x = h.prev x := by
  rw [INIT_LIST_HEAD_next, INIT_LIST_HEAD_prev]; simp [hx]

/-- `list_del_init` leaves the cells of the other list families alone. -/
theorem del_init_other_kind {c : Cfg} {h : Links} (hc : Closed c h) (n x : Node)
    (hn : n.valid c) (hk : x.kind ≠ n.kind) :
    (list_del_init h n).next x = h.next x ∧ (list_del_init h n).prev x = h.prev x := by
  have h1 := hc n hn
  have hx : x ≠ n := fun e => hk (e ▸ rfl)
  have hp : x ≠ h.prev n := fun e => hk (by rw [e, h1.2])
  have hq : x ≠ h.next n := fun e => hk (by rw [e, h1.1])
  rw [list_del_init_next, list_del_init_prev]; simp [hx, hp, hq]

/-- `list_add_tail` leaves the cells of the other list families alone. -/
theorem add_tail_other_kind {c : Cfg} {h : Links} (hc : Closed c h) (n hd x : Node)
    (hv : hd.valid c) (hk : x.kind ≠ hd.kind) (hn : n.kind = hd.kind) :
    (list_add_tail h n hd).next x = h.next x ∧ (list_add_tail h n hd).prev x = h.prev x := by
  have h1 := hc hd hv
  have hx : x ≠ n := fun e => hk (by rw [e, hn])
  have hp : x ≠ h.prev hd := fun e => hk (by rw [e, h1.2])
  have hq : x ≠ hd := fun e => hk (e ▸ rfl)
  rw [list_add_tail_next, list_add_tail_prev]; simp [hx, hp, hq]

theorem mem_free_cells_kind {fl : List Nat} {x : Node} (hx : x ∈ free_cells fl) :
    x.kind = 0 := by
  simp only [free_cells, List.mem_cons, List.mem_map] at hx
  rcases hx with rfl | ⟨r, _, rfl⟩ <;> rfl

theorem mem_bucket_cells_kind {i : Nat} {b : List Nat} {x : Node}
    (hx : x ∈ bucket_cells i b) : x.kind = 1 := by
  simp only [bucket_cells, List.mem_cons, List.mem_map] at hx
  rcases hx with rfl | ⟨r, _, rfl⟩ <;> rfl

theorem list_mem_free_cells {fl : List Nat} {r : Nat} :
    Node.list r ∈ free_cells fl ↔ r ∈ fl := by
  simp [free_cells]

theorem hash_list_mem_bucket_cells {i : Nat} {b : List Nat} {r : Nat} :
    Node.hash_list r ∈ bucket_cells i b ↔ r ∈ b := by
  simp [bucket_cells]

theorem sta_hash_mem_bucket_cells {i j : Nat} {b : List Nat} :
    Node.sta_hash j ∈ bucket_cells i b ↔ j = i := by
  simp [bucket_cells]

/-- A change of the links that leaves the free-queue family and the bucket
family alone keeps the shape. -/
theorem LShape.lshape_frame {c : Cfg} {h h' : Links} {fl : List Nat} {bk : Nat → List Nat}
    (hs : LShape c h fl bk) (hc : Closed c h')
    (hf : ∀ x : Node, x.kind = 0 ∨ x.kind = 1 →
      h'.next x = h.next x ∧ h'.prev x = h.prev x) :
    LShape c h' fl bk := by
  refine ⟨hc, hs.free_lt, hs.hash_lt, ?_, ?_, ?_, ?_, hs.bk_disj⟩
  · exact hs.free.isList_frame (fun x hx => hf x (Or.inl (mem_free_cells_kind hx)))
  · intro i hi
    exact (hs.hash i hi).isList_frame (fun x hx => hf x (Or.inr (mem_bucket_cells_kind hx)))
  · intro r hlt hr
    have := hf (.list r) (Or.inl rfl)
    have hsl := hs.list_self r hlt hr
    exact ⟨by rw [this.1]; exact hsl.1, by rw [this.2]; exact hsl.2⟩
  · intro r hlt hr
    have := hf (.hash_list r) (Or.inr rfl)
    have hsl := hs.hash_self r hlt hr
    exact ⟨by rw [this.1]; exact hsl.1, by rw [this.2]; exact hsl.2⟩

/-- Unlinking the first record of the free queue. -/
theorem LShape.pop_free {c : Cfg} {h : Links} {r : Nat} {fl : List Nat} {bk : Nat → List Nat}
    (hs : LShape c h (r :: fl) bk) :
    LShape c (list_del_init h (.list r)) fl bk := by
  have hfree : IsList h .free_sta_queue ([] ++ Node.list r :: fl.map .list) := by
    simpa using hs.free
  have hnb := hs.free.neighbours_mem (n := .list r) (by simp)
  have hnd : (r :: fl).Nodup := by
    have := hs.free.2.2
    have := (List.nodup_cons.mp this).2
    exact (List.nodup_map_iff (f := Node.list) (fun a b e => by injection e)).mp this
  have hv : (Node.list r).valid c := hs.free_lt r (List.mem_cons_self _ _)
  refine ⟨hs.closed.closed_del_init _ hv, fun a ha => hs.free_lt a (List.mem_cons_of_mem _ ha),
    hs.hash_lt, ?_, ?_, ?_, ?_, hs.bk_disj⟩
  · simpa using hfree.isList_del_init
  · intro i hi
    exact (hs.hash i hi).isList_frame
      (fun x hx => del_init_other_kind hs.closed _ x hv
        (by rw [mem_bucket_cells_kind hx]; simp [Node.kind]))
  · intro r' hlt' hr'
    by_cases e : r' = r
    · subst e; exact list_del_init_selfLinked _ _
    · have hr2 : r' ∉ r :: fl := by simp [e, hr']
      have hsl := hs.list_self r' hlt' hr2
      have hx1 : Node.list r' ≠ Node.list r := by simp [e]
      have hx2 : Node.list r' ≠ h.prev (.list r) := by
        intro e2; rw [← e2] at hnb
        exact hr2 (list_mem_free_cells.mp hnb.2)
      have hx3 : Node.list r' ≠ h.next (.list r) := by
        intro e2; rw [← e2] at hnb
        exact hr2 (list_mem_free_cells.mp hnb.1)
      constructor
      · rw [list_del_init_next]; simp [hx1, hx2, hsl.1]
      · rw [list_del_init_prev]; simp [hx1, hx3, hsl.2]
  · intro r' hlt' hr'
    have := del_init_other_kind hs.closed (.list r) (.hash_list r') hv (by simp [Node.kind])
    have hsl := hs.hash_self r' hlt' hr'
    exact ⟨by rw [this.1]; exact hsl.1, by rw [this.2]; exact hsl.2⟩

/-- Appending a record that is on no list to the free queue. -/
theorem LShape.push_free {c : Cfg} {h : Links} {r : Nat} {fl : List Nat} {bk : Nat → List Nat}
    (hs : LShape c h fl bk) (hr : r ∉ fl) (hlt : r < c.NUM_STA) :
    LShape c (list_add_tail h (.list r) .free_sta_queue) (fl ++ [r]) bk := by
  have hpm : h.prev .free_sta_queue ∈ free_cells fl := hs.free.1.end_mem
  have hv : Node.free_sta_queue.valid c := trivial
  refine ⟨hs.closed.closed_add_tail _ _ hv rfl, ?_, hs.hash_lt, ?_, ?_, ?_, ?_, hs.bk_disj⟩
  · intro a ha
    rcases List.mem_append.mp ha with ha | ha
    · exact hs.free_lt a ha
    · simp only [List.mem_singleton] at ha; exact ha ▸ hlt
  · have := hs.free.isList_add_tail (n := .list r) (by simp [hr])
    simpa using this
  · intro i hi
    exact (hs.hash i hi).isList_frame
      (fun x hx => add_tail_other_kind hs.closed _ _ x hv
        (by rw [mem_bucket_cells_kind hx]; simp [Node.kind]) rfl)
  · intro r' hlt' hr'
    have hr2 : r' ∉ fl := fun e => hr' (List.mem_append_left _ e)
    have hne : r' ≠ r := fun e => hr' (by simp [e])
    have hsl := hs.list_self r' hlt' hr2
    have hx1 : Node.list r' ≠ Node.list r := by simp [hne]
    have hx2 : Node.list r' ≠ h.prev .free_sta_queue := by
      intro e2; rw [← e2] at hpm
      exact hr2 (list_mem_free_cells.mp hpm)
    constructor
    · rw [list_add_tail_next]; simp [hx1, hx2, hsl.1]
    · rw [list_add_tail_prev]; simp [hx1, hsl.2]
  · intro r' hlt' hr'
    have := add_tail_other_kind hs.closed (.list r) .free_sta_queue (.hash_list r') hv
      (by simp [Node.kind]) rfl
    have hsl := hs.hash_self r' hlt' hr'
    exact ⟨by rw [this.1]; exact hsl.1, by rw [this.2]; exact hsl.2⟩

theorem bucket_nodup {c : Cfg} {h : Links} {fl : List Nat} {bk : Nat → List Nat}
    (hs : LShape c h fl bk) {i : Nat} (hi : i < c.NUM_STA) : (bk i).Nodup := by
  have := (hs.hash i hi).2.2
  have := (List.nodup_cons.mp this).2
  exact (List.nodup_map_iff (f := Node.hash_list) (fun a b e => by injection e)).mp this

theorem free_nodup {c : Cfg} {h : Links} {fl : List Nat} {bk : Nat → List Nat}
    (hs : LShape c h fl bk) : fl.Nodup := by
  have := hs.free.2.2
  have := (List.nodup_cons.mp this).2
  exact (List.nodup_map_iff (f := Node.list) (fun a b e => by injection e)).mp this

/-- Appending a record that is in no bucket to bucket `idx`. -/
theorem LShape.push_hash {c : Cfg} {h : Links} {r idx : Nat} {fl : List Nat}
    {bk : Nat → List Nat} (hs : LShape c h fl bk) (hidx : idx < c.NUM_STA)
    (hr : ∀ i, i < c.NUM_STA → r ∉ bk i) (hlt : r < c.NUM_STA) :
    LShape c (list_add_tail h (.hash_list r) (.sta_hash idx)) fl
      (upd bk idx (bk idx ++ [r])) := by
  have hpm : h.prev (.sta_hash idx) ∈ bucket_cells idx (bk idx) := (hs.hash idx hidx).1.end_mem
  have hv : (Node.sta_hash idx).valid c := hidx
  refine ⟨hs.closed.closed_add_tail _ _ hv rfl, hs.free_lt, ?_, ?_, ?_, ?_, ?_, ?_⟩
  · intro i hi a ha
    by_cases e : i = idx
    · subst e
      rw [upd_same] at ha
      rcases List.mem_append.mp ha with ha | ha
      · exact hs.hash_lt i hi a ha
      · simp only [List.mem_singleton] at ha; exact ha ▸ hlt
    · rw [upd_other _ _ _ _ e] at ha; exact hs.hash_lt i hi a ha
  · exact hs.free.isList_frame
      (fun x hx => add_tail_other_kind hs.closed _ _ x hv
        (by rw [mem_free_cells_kind hx]; simp [Node.kind]) rfl)
  · intro i hi
    by_cases e : i = idx
    · subst e
      rw [upd_same]
      have := (hs.hash i hi).isList_add_tail (n := .hash_list r) (by simpa using hr i hi)
      simpa using this
    · rw [upd_other _ _ _ _ e]
      apply (hs.hash i hi).isList_frame
      intro x hx
      have hx' : x ∈ bucket_cells i (bk i) := hx
      have hx1 : x ≠ Node.hash_list r := by
        intro e1; rw [e1] at hx'
        exact hr i hi (hash_list_mem_bucket_cells.mp hx')
      have hx2 : x ≠ Node.sta_hash idx := by
        intro e1; rw [e1] at hx'
        exact e (sta_hash_mem_bucket_cells.mp hx').symm
      have hx3 : x ≠ h.prev (.sta_hash idx) := by
        intro e1; rw [← e1] at hpm
        simp only [bucket_cells, List.mem_cons, List.mem_map] at hx' hpm
        rcases hx' with rfl | ⟨a, ha, rfl⟩
        · rcases hpm with e2 | ⟨b, _, e2⟩
          · injection e2 with e2; exact e e2
          · cases e2
        · rcases hpm with e2 | ⟨b, hb, e2⟩
          · cases e2
          · injection e2 with e2; subst e2
            exact hs.bk_disj idx i hidx hi (Ne.symm e) b hb ha
      rw [list_add_tail_next, list_add_tail_prev]; simp [hx1, hx2, hx3]
  · intro r' hlt' hr'
    have := add_tail_other_kind hs.closed (.hash_list r) (.sta_hash idx) (.list r') hv
      (by simp [Node.kind]) rfl
    have hsl := hs.list_self r' hlt' hr'
    exact ⟨by rw [this.1]; exact hsl.1, by rw [this.2]; exact hsl.2⟩
  · intro r' hlt' hr'
    have hne : r' ≠ r := by
      intro e; have := hr' idx hidx; rw [upd_same] at this; exact this (by simp [e])
    have hr2 : ∀ i, i < c.NUM_STA → r' ∉ bk i := by
      intro i hi hm
      have := hr' i hi
      by_cases e : i = idx
      · subst e; rw [upd_same] at this; exact this (List.mem_append_left _ hm)
      · rw [upd_other _ _ _ _ e] at this; exact this hm
    have hsl := hs.hash_self r' hlt' hr2
    have hx1 : Node.hash_list r' ≠ Node.hash_list r := by simp [hne]
    have hx3 : Node.hash_list r' ≠ h.prev (.sta_hash idx) := by
      intro e1; rw [← e1] at hpm
      exact hr2 idx hidx (hash_list_mem_bucket_cells.mp hpm)
    constructor
    · rw [list_add_tail_next]; simp [hx1, hx3, hsl.1]
    · rw [list_add_tail_prev]; simp [hx1, hsl.2]
  · intro i j hi hj hij a ha hb
    by_cases ei : i = idx
    · subst ei
      rw [upd_same] at ha
      rw [upd_other _ _ _ _ (Ne.symm hij)] at hb
      rcases List.mem_append.mp ha with ha | ha
      · exact hs.bk_disj i j hi hj hij a ha hb
      · simp only [List.mem_singleton] at ha; subst ha; exact hr j hj hb
    · rw [upd_other _ _ _ _ ei] at ha
      by_cases ej : j = idx
      · subst ej
        rw [upd_same] at hb
        rcases List.mem_append.mp hb with hb | hb
        · exact hs.bk_disj i j hi hj hij a ha hb
        · simp only [List.mem_singleton] at hb; subst hb; exact hr i hi ha
      · rw [upd_other _ _ _ _ ej] at hb
        exact hs.bk_disj i j hi hj hij a ha hb

/-- Unlinking a record from the bucket that holds it. -/
theorem LShape.pop_hash {c : Cfg} {h : Links} {r i : Nat} {fl : List Nat}
    {bk : Nat → List Nat} (hs : LShape c h fl bk) (hi : i < c.NUM_STA) (hr : r ∈ bk i) :
    LShape c (list_del_init h (.hash_list r)) fl (upd bk i ((bk i).erase r)) := by
  obtain ⟨l1, l2, hsplit⟩ := List.append_of_mem hr
  have hnd := bucket_nodup hs hi
  have hr1 : r ∉ l1 := by
    rw [hsplit] at hnd
    have := (List.nodup_append.mp hnd).2.2
    exact fun hx => this hx (List.mem_cons_self _ _)
  have herase : (bk i).erase r = l1 ++ l2 := by
    rw [hsplit, List.erase_append_right _ hr1, List.erase_cons_head]
  have hl : IsList h (.sta_hash i) (l1.map .hash_list ++ Node.hash_list r :: l2.map .hash_list) := by
    have := hs.hash i hi
    rw [hsplit] at this
    simpa using this
  have hnb := (hs.hash i hi).neighbours_mem (n := .hash_list r) (by simp [hr])
  have hnb1 : h.next (.hash_list r) ∈ bucket_cells i (bk i) := hnb.1
  have hnb2 : h.prev (.hash_list r) ∈ bucket_cells i (bk i) := hnb.2
  -- cells outside bucket `i` are not neighbours of the unlinked cell
  have houtside : ∀ x : Node, x ∉ bucket_cells i (bk i) →
      (list_del_init h (.hash_list r)).next x = h.next x ∧
      (list_del_init h (.hash_list r)).prev x = h.prev x := by
    intro x hx
    have hx1 : x ≠ Node.hash_list r := fun e => hx (e ▸ hash_list_mem_bucket_cells.mpr hr)
    have hx2 : x ≠ h.prev (.hash_list r) := fun e => hx (e ▸ hnb2)
    have hx3 : x ≠ h.next (.hash_list r) := fun e => hx (e ▸ hnb1)
    rw [list_del_init_next, list_del_init_prev]; simp [hx1, hx2, hx3]
  have hv : (Node.hash_list r).valid c := hs.hash_lt i hi r hr
  refine ⟨hs.closed.closed_del_init _ hv, hs.free_lt, ?_, ?_, ?_, ?_, ?_, ?_⟩
  · intro j hj a ha
    by_cases e : j = i
    · subst e; rw [upd_same] at ha; exact hs.hash_lt j hj a (List.mem_of_mem_erase ha)
    · rw [upd_other _ _ _ _ e] at ha; exact hs.hash_lt j hj a ha
  · exact hs.free.isList_frame
      (fun x hx => del_init_other_kind hs.closed _ x hv
        (by rw [mem_free_cells_kind hx]; simp [Node.kind]))
  · intro j hj
    by_cases e : j = i
    · subst e
      rw [upd_same, herase]
      simpa using hl.isList_del_init
    · rw [upd_other _ _ _ _ e]
      apply (hs.hash j hj).isList_frame
      intro x hx
      apply houtside
      intro hx2
      have hx' : x ∈ bucket_cells j (bk j) := hx
      simp only [bucket_cells, List.mem_cons, List.mem_map] at hx' hx2
      rcases hx' with rfl | ⟨a, ha, rfl⟩
      · rcases hx2 with e2 | ⟨b, _, e2⟩
        · injection e2 with e2; exact e e2
        · cases e2
      · rcases hx2 with e2 | ⟨b, hb, e2⟩
        · cases e2
        · injection e2 with e2; subst e2
          exact hs.bk_disj i j hi hj (Ne.symm e) b hb ha
  · intro r' hlt' hr'
    have := del_init_other_kind hs.closed (.hash_list r) (.list r') hv (by simp [Node.kind])
    have hsl := hs.list_self r' hlt' hr'
    exact ⟨by rw [this.1]; exact hsl.1, by rw [this.2]; exact hsl.2⟩
  · intro r' hlt' hr'
    by_cases e : r' = r
    · subst e; exact list_del_init_selfLinked _ _
    · have hr2 : ∀ j, j < c.NUM_STA → r' ∉ bk j := by
        intro j hj hm
        have := hr' j hj
        by_cases ej : j = i
        · subst ej; rw [upd_same] at this
          exact this ((List.mem_erase_of_ne e).mpr hm)
        · rw [upd_other _ _ _ _ ej] at this; exact this hm
      have hsl := hs.hash_self r' hlt' hr2
      have := houtside (.hash_list r')
        (fun hx => hr2 i hi (hash_list_mem_bucket_cells.mp hx))
      exact ⟨by rw [this.1]; exact hsl.1, by rw [this.2]; exact hsl.2⟩
  · intro a b ha hb hab x hxa hxb
    have hsub : ∀ j, j < c.NUM_STA → x ∈ upd bk i ((bk i).erase r) j → x ∈ bk j := by
      intro j _ hm
      by_cases ej : j = i
      · subst ej; rw [upd_same] at hm; exact List.mem_of_mem_erase hm
      · rw [upd_other _ _ _ _ ej] at hm; exact hm
    exact hs.bk_disj a b ha hb hab x (hsub a ha hxa) (hsub b hb hxb)

/-- After unlinking, the record is in no bucket. -/
theorem LShape.pop_hash_not_mem {c : Cfg} {h : Links} {r i : Nat} {fl : List Nat}
    {bk : Nat → List Nat} (hs : LShape c h fl bk) (hi : i < c.NUM_STA) (hr : r ∈ bk i) :
    ∀ j, j < c.NUM_STA → r ∉ upd bk i ((bk i).erase r) j := by
  intro j hj hm
  by_cases ej : j = i
  · subst ej
    rw [upd_same] at hm
    exact ((bucket_nodup hs hj).mem_erase_iff.mp hm).1 rfl
  · rw [upd_other _ _ _ _ ej] at hm
    exact hs.bk_disj i j hi hj (Ne.symm ej) r hr hm

theorem fold_tid_rxseq (p : sta_info) (n : Nat) :
    (List.range n).foldl (fun p i => { p with tid_rxseq := upd p.tid_rxseq i 0xffff }) p
      = { p with tid_rxseq := fun t => if t < n then 0xffff else p.tid_rxseq t } := by
  induction n with
  | zero => simp
  | succ n ih =>
    rw [List.range_succ, List.foldl_append, ih]
    simp only [List.foldl_cons, List.foldl_nil]
    congr 1
    funext t
    simp only [upd]
    by_cases h1 : t = n
    · simp [h1]
    · by_cases h2 : t < n
      · simp [h1, h2, Nat.lt_succ_of_lt h2]
      · have : ¬ t < n + 1 := by omega
        simp [h1, h2, this]

theorem fold_alloc_reorder (p : sta_info) (n : Nat) :
    (List.range n).foldl
      (fun p i => { p with
        recvreorder_ctrl := upd p.recvreorder_ctrl i (alloc_reorder_ctrl (p.recvreorder_ctrl i)) })
      p
      = { p with recvreorder_ctrl := fun t =>
            if t < n then alloc_reorder_ctrl (p.recvreorder_ctrl t) else p.recvreorder_ctrl t } := by
  induction n with
  | zero => simp
  | succ n ih =>
    rw [List.range_succ, List.foldl_append, ih]
    simp only [List.foldl_cons, List.foldl_nil]
    congr 1
    funext t
    simp only [upd]
    by_cases h1 : t = n
    · simp [h1]
    · by_cases h2 : t < n
      · simp [h1, h2, Nat.lt_succ_of_lt h2]
      · have : ¬ t < n + 1 := by omega
        simp [h1, h2, this]

theorem drain_pending_eq (q : List Nat) : drain_pending q = [] := by
  induction q with
  | nil => rfl
  | cons _ _ ih => simpa [drain_pending] using ih

theorem fold_free_reorder (p : sta_info) (n : Nat)
    (hq : ∀ t, t < n → (p.recvreorder_ctrl t).pending_recvframe_queue ≠ none) :
    (List.range n).foldl free_reorder_ctrl (some p)
      = some { p with recvreorder_ctrl := fun t =>
            if t < n then freed_reorder_ctrl (p.recvreorder_ctrl t) else p.recvreorder_ctrl t } := by
  induction n with
  | zero => simp
  | succ n ih =>
    rw [List.range_succ, List.foldl_append, ih (fun t ht => hq t (Nat.lt_succ_of_lt ht))]
    simp only [List.foldl_cons, List.foldl_nil, free_reorder_ctrl, lt_self_iff_false, if_false]
    have hn := hq n (Nat.lt_succ_self n)
    cases hqn : (p.recvreorder_ctrl n).pending_recvframe_queue with
    | none => exact absurd hqn hn
    | some q =>
      simp only [drain_pending_eq]
      congr 2
      funext t
      simp only [upd]
      by_cases h1 : t = n
      · subst h1
        simp [freed_reorder_ctrl]
      · by_cases h2 : t < n
        · simp [h1, h2, Nat.lt_succ_of_lt h2]
        · have : ¬ t < n + 1 := by omega
          simp [h1, h2, this]

theorem alloc_body_fail (c : Cfg) (s : sta_priv) (hwaddr : Addr) (r : Nat)
    (hidx : c.NUM_STA ≤ c.wifi_mac_hash hwaddr) :
    alloc_body c s hwaddr r =
      ({ s with links := alloc_links0 s.links r,
                sta := upd s.sta r { sta_info.zero with hwaddr := hwaddr } }, none) := by
  unfold alloc_body
  simp only [ge_iff_le, hidx, if_true, _rtw_init_stainfo, alloc_links0, upd_same]
  congr 2
  funext x
  simp only [upd]
  by_cases hx : x = r
  · simp only [hx, if_true]
    rfl
  · simp [hx]

theorem alloc_body_ok (c : Cfg) (s : sta_priv) (hwaddr : Addr) (r : Nat)
    (hidx : c.wifi_mac_hash hwaddr < c.NUM_STA) :
    alloc_body c s hwaddr r =
      ({ s with links := list_add_tail (alloc_links0 s.links r) (.hash_list r)
                  (.sta_hash (c.wifi_mac_hash hwaddr)),
                sta := upd s.sta r (fresh_sta hwaddr),
                asoc_sta_count := s.asoc_sta_count + 1 }, some r) := by
  unfold alloc_body
  have hidx' : ¬ c.NUM_STA ≤ c.wifi_mac_hash hwaddr := Nat.not_le.mpr hidx
  simp only [ge_iff_le, hidx', if_false, _rtw_init_stainfo, alloc_links0, upd_same,
    fold_tid_rxseq, fold_alloc_reorder]
  congr 2
  funext x
  simp only [upd]
  by_cases hx : x = r
  · simp only [hx, if_true]
    rfl
  · simp [hx]

theorem LShape.alloc_links0 {c : Cfg} {h : Links} {r : Nat} {fl : List Nat}
    {bk : Nat → List Nat} (hs : LShape c h (r :: fl) bk)
    (hr : ∀ i, i < c.NUM_STA → r ∉ bk i) :
    LShape c (alloc_links0 h r) fl bk := by
  have h1 := hs.pop_free
  have hrfl : r ∉ fl := (List.nodup_cons.mp (free_nodup hs)).1
  have hlt : r < c.NUM_STA := hs.free_lt r (List.mem_cons_self _ _)
  have e1 : INIT_LIST_HEAD (list_del_init h (.list r)) (.list r) = list_del_init h (.list r) :=
    INIT_LIST_HEAD_self _ _ (h1.list_self r hlt hrfl)
  have e2 : INIT_LIST_HEAD (list_del_init h (.list r)) (.hash_list r)
      = list_del_init h (.list r) :=
    INIT_LIST_HEAD_self _ _ (h1.hash_self r hlt hr)
  unfold RtwStaMgt.alloc_links0
  rw [e1, e2]
  have h2 : LShape c (INIT_LIST_HEAD (list_del_init h (.list r)) (.asoc_list r)) fl bk := by
    apply h1.lshape_frame (h1.closed.closed_INIT _)
    intro x hx
    apply INIT_other
    rintro rfl
    simp [Node.kind] at hx
  apply h2.lshape_frame (h2.closed.closed_INIT _)
  intro x hx
  apply INIT_other
  rintro rfl
  simp [Node.kind] at hx

theorem alloc_nonempty {c : Cfg} {s : sta_priv} {r : Nat} {fl : List Nat}
    {bk : Nat → List Nat} (hs : LShape c s.links (r :: fl) bk) (hwaddr : Addr) :
    rtw_alloc_stainfo c s hwaddr = some (alloc_body c s hwaddr r) := by
  have h1 : list_empty s.links .free_sta_queue = false := by
    have := hs.free.list_empty_iff
    cases hle : list_empty s.links .free_sta_queue with
    | false => rfl
    | true => exact absurd (this.mp hle) (by simp)
  have h2 : s.links.next .free_sta_queue = .list r := hs.free.next_head
  unfold rtw_alloc_stainfo
  simp [h1, h2, containor_list]

theorem alloc_empty {c : Cfg} {s : sta_priv} {bk : Nat → List Nat}
    (hs : LShape c s.links [] bk) (hwaddr : Addr) :
    rtw_alloc_stainfo c s hwaddr = some (s, none) := by
  have h1 : list_empty s.links .free_sta_queue = true := hs.free.list_empty_iff.mpr rfl
  unfold rtw_alloc_stainfo
  simp [h1]

/-- A successful allocation moves the first free record to the end of the
bucket of its address. -/
theorem Shape.alloc_ok {c : Cfg} {s : sta_priv} {r : Nat} {fl : List Nat}
    {bk : Nat → List Nat} (hs : Shape c s (r :: fl) bk)
    (hr : ∀ i, i < c.NUM_STA → r ∉ bk i) (hwaddr : Addr)
    (hidx : c.wifi_mac_hash hwaddr < c.NUM_STA) :
    Shape c (alloc_body c s hwaddr r).1 fl
      (upd bk (c.wifi_mac_hash hwaddr) (bk (c.wifi_mac_hash hwaddr) ++ [r])) := by
  rw [alloc_body_ok c s hwaddr r hidx]
  constructor
  · exact (hs.links.alloc_links0 hr).push_hash hidx hr
      (hs.links.free_lt r (List.mem_cons_self _ _))
  · intro i hi r' hr' t ht
    by_cases e : r' = r
    · subst e
      simp [upd_same, fresh_sta, alloc_reorder_ctrl, ht]
    · simp only [upd_other _ _ _ _ e]
      have hm : r' ∈ bk i := by
        by_cases ei : i = c.wifi_mac_hash hwaddr
        · subst ei
          rw [upd_same] at hr'
          rcases List.mem_append.mp hr' with hm | hm
          · exact hm
          · simp only [List.mem_singleton] at hm; exact absurd hm e
        · rw [upd_other _ _ _ _ ei] at hr'; exact hr'
      exact hs.queues i hi r' hm t ht

/-- An allocation that fails on the bucket index has already taken the first
record off the free queue. -/
theorem Shape.alloc_fail {c : Cfg} {s : sta_priv} {r : Nat} {fl : List Nat}
    {bk : Nat → List Nat} (hs : Shape c s (r :: fl) bk)
    (hr : ∀ i, i < c.NUM_STA → r ∉ bk i) (hwaddr : Addr)
    (hidx : c.NUM_STA ≤ c.wifi_mac_hash hwaddr) :
    Shape c (alloc_body c s hwaddr r).1 fl bk := by
  rw [alloc_body_fail c s hwaddr r hidx]
  constructor
  · exact hs.links.alloc_links0 hr
  · intro i hi r' hr' t ht
    have e : r' ≠ r := fun e => hr i hi (e ▸ hr')
    simp only [upd_other _ _ _ _ e]
    exact hs.queues i hi r' hr' t ht

theorem free_tail_links (s : sta_priv) (r : Nat) (p : sta_info) :
    (free_tail s r p).links =
      list_add_tail
        (if list_empty s.links (.auth_list r) then s.links
          else list_del_init s.links (.auth_list r))
        (.list r) .free_sta_queue := by
  dsimp only [free_tail]
  cases h : list_empty s.links (.auth_list r) <;> simp only [Bool.not_true, Bool.not_false] <;>
    split_ifs <;> first | rfl | simp_all

theorem free_tail_asoc_sta_count (s : sta_priv) (r : Nat) (p : sta_info) :
    (free_tail s r p).asoc_sta_count = s.asoc_sta_count := by
  dsimp only [free_tail]
  split_ifs <;> rfl

theorem free_tail_sta_other (s : sta_priv) (r : Nat) (p : sta_info) (r' : Nat) (h : r' ≠ r) :
    (free_tail s r p).sta r' = s.sta r' := by
  dsimp only [free_tail]
  split_ifs <;> simp [upd, h]

theorem free_tail_hwaddr (s : sta_priv) (r : Nat) (p : sta_info) :
    ((free_tail s r p).sta r).hwaddr = p.hwaddr := by
  dsimp only [free_tail]
  split_ifs <;> simp [upd]

theorem free_tail_aid (s : sta_priv) (r : Nat) (p : sta_info) :
    ((free_tail s r p).sta r).aid = p.aid ∨ ((free_tail s r p).sta r).aid = 0 := by
  dsimp only [free_tail]
  split_ifs <;> simp [upd]

theorem free_eq (c : Cfg) (s : sta_priv) (r : Nat)
    (hq : ∀ t, t < 16 → ((s.sta r).recvreorder_ctrl t).pending_recvframe_queue ≠ none) :
    rtw_free_stainfo c s (some r) =
      some (free_tail (free_head_state s r) r (freed_sta c (s.sta r)), Status._SUCCESS) := by
  have hf := fold_free_reorder
    { s.sta r with state := clear_bits (s.sta r).state c._FW_LINKED, sleepq_len := 0 } 16 hq
  show (match (List.range 16).foldl free_reorder_ctrl
      (some { s.sta r with state := clear_bits (s.sta r).state c._FW_LINKED, sleepq_len := 0 }) with
    | none => none
    | some p => some (free_tail (free_head_state s r) r p, Status._SUCCESS)) = _
  rw [hf]
  rfl

/-- Releasing a record held in bucket `i` moves it to the end of the free
queue. -/
theorem Shape.free_live {c : Cfg} {s : sta_priv} {r i : Nat} {fl : List Nat}
    {bk : Nat → List Nat} (hs : Shape c s fl bk) (hi : i < c.NUM_STA) (hr : r ∈ bk i)
    (hfl : r ∉ fl) :
    Shape c (free_tail (free_head_state s r) r (freed_sta c (s.sta r)))
      (fl ++ [r]) (upd bk i ((bk i).erase r)) := by
  have h1 : LShape c (free_head_state s r).links fl (upd bk i ((bk i).erase r)) :=
    hs.links.pop_hash hi hr
  constructor
  · rw [free_tail_links]
    have h2 : LShape c
        (if list_empty (free_head_state s r).links (.auth_list r)
          then (free_head_state s r).links
          else list_del_init (free_head_state s r).links (.auth_list r))
        fl (upd bk i ((bk i).erase r)) := by
      split_ifs
      · exact h1
      · have hv : (Node.auth_list r).valid c := hs.links.hash_lt i hi r hr
        apply h1.lshape_frame (h1.closed.closed_del_init _ hv)
        intro x hx
        apply del_init_other_kind h1.closed _ _ hv
        have hk : (Node.auth_list r).kind = 2 := rfl
        rw [hk]
        rcases hx with hx | hx <;> rw [hx] <;> decide
    exact h2.push_free hfl (hs.links.hash_lt i hi r hr)
  · intro j hj r' hr' t ht
    have hne : r' ≠ r := fun e => hs.links.pop_hash_not_mem hi hr j hj (e ▸ hr')
    rw [free_tail_sta_other _ _ _ _ hne]
    have hm : r' ∈ bk j := by
      by_cases ej : j = i
      · subst ej; rw [upd_same] at hr'; exact List.mem_of_mem_erase hr'
      · rw [upd_other _ _ _ _ ej] at hr'; exact hr'
    exact hs.queues j hj r' hm t ht

theorem init_step_links (s : sta_priv) (k : Nat) :
    (init_step s k).links = list_add_tail (init_links s.links k) (.list k) .free_sta_queue :=
  rfl

theorem init_step_sta (s : sta_priv) (k : Nat) :
    (init_step s k).sta = upd s.sta k sta_info.zero := rfl

theorem init_links_other (h : Links) (k : Nat) (x : Node)
    (h1 : x ≠ .list k) (h2 : x ≠ .hash_list k) (h3 : x ≠ .asoc_list k)
    (h4 : x ≠ .auth_list k) (h5 : x ≠ .sta_hash k) :
    (init_links h k).next x = h.next x ∧ (init_links h k).prev x = h.prev x := by
  simp [init_links, INIT_LIST_HEAD_next, INIT_LIST_HEAD_prev, h1, h2, h3, h4, h5]

theorem InitInv.step {k : Nat} {s : sta_priv} (hi : InitInv k s) :
    InitInv (k + 1) (init_step s k) := by
  have hk : Node.list k ∉ free_cells (List.range k) := by
    simp [free_cells]
  have hfree5 : IsList (init_links s.links k) .free_sta_queue ((List.range k).map .list) := by
    apply hi.free.isList_frame
    intro x hx
    have hx' : x ∈ free_cells (List.range k) := hx
    apply init_links_other
    · rintro rfl; exact hk hx'
    all_goals
      rintro rfl
      have := mem_free_cells_kind hx'
      simp [Node.kind] at this
  have hpm : (init_links s.links k).prev .free_sta_queue ∈ free_cells (List.range k) :=
    hfree5.1.end_mem
  -- cells of the other families are not touched by the queueing
  have hother : ∀ x : Node, x.kind ≠ 0 →
      (init_step s k).links.next x = (init_links s.links k).next x ∧
      (init_step s k).links.prev x = (init_links s.links k).prev x := by
    intro x hx
    have hx1 : x ≠ Node.list k := by rintro rfl; exact hx rfl
    have hx2 : x ≠ Node.free_sta_queue := by rintro rfl; exact hx rfl
    have hx3 : x ≠ (init_links s.links k).prev .free_sta_queue := by
      rintro rfl; exact hx (mem_free_cells_kind hpm)
    rw [init_step_links, list_add_tail_next, list_add_tail_prev]
    simp [hx1, hx2, hx3]
  have hself : ∀ x : Node, x.kind ≠ 0 →
      (SelfLinked s.links x ∧ x ≠ .hash_list k ∧ x ≠ .asoc_list k ∧ x ≠ .auth_list k
          ∧ x ≠ .sta_hash k) ∨
        x = .hash_list k ∨ x = .asoc_list k ∨ x = .auth_list k ∨ x = .sta_hash k →
      SelfLinked (init_step s k).links x := by
    intro x hx hcase
    have ho := hother x hx
    unfold SelfLinked
    rw [ho.1, ho.2]
    rcases hcase with ⟨hsl, h2, h3, h4, h5⟩ | rfl | rfl | rfl | rfl
    · have h1 : x ≠ Node.list k := by rintro rfl; exact hx rfl
      have := init_links_other s.links k x h1 h2 h3 h4 h5
      rw [this.1, this.2]; exact hsl
    all_goals simp [init_links, INIT_LIST_HEAD_next, INIT_LIST_HEAD_prev]
  constructor
  · rw [init_step_links, List.range_succ, List.map_append]
    exact hfree5.isList_add_tail hk
  · intro i hlt
    apply hself _ (by simp [Node.kind])
    by_cases e : i = k
    · subst e; simp
    · exact Or.inl ⟨hi.heads i (by omega), by simp, by simp, by simp, by simp [e]⟩
  · intro r hlt
    apply hself _ (by simp [Node.kind])
    by_cases e : r = k
    · subst e; simp
    · exact Or.inl ⟨hi.hash r (by omega), by simp [e], by simp, by simp, by simp⟩
  · intro r hlt
    apply hself _ (by simp [Node.kind])
    by_cases e : r = k
    · subst e; simp
    · exact Or.inl ⟨hi.asoc r (by omega), by simp, by simp [e], by simp, by simp⟩
  · intro r hlt
    apply hself _ (by simp [Node.kind])
    by_cases e : r = k
    · subst e; simp
    · exact Or.inl ⟨hi.auth r (by omega), by simp, by simp, by simp [e], by simp⟩
  · intro r hlt
    rw [init_step_sta]
    by_cases e : r = k
    · subst e; exact upd_same _ _ _
    · rw [upd_other _ _ _ _ e]; exact hi.sta r (by omega)

theorem InitInv.fold {s : sta_priv} (n : Nat) (hi : InitInv 0 s) :
    InitInv n ((List.range n).foldl init_step s) := by
  induction n with
  | zero => simpa using hi
  | succ n ih =>
    rw [List.range_succ, List.foldl_append]
    exact ih.step

/-- The fields outside `links` and `sta` are not written by the loop. -/
theorem init_fold_fields (s : sta_priv) (n : Nat) :
    ((List.range n).foldl init_step s).asoc_sta_count = s.asoc_sta_count ∧
    ((List.range n).foldl init_step s).sta_aid = s.sta_aid ∧
    ((List.range n).foldl init_step s).acl_list = s.acl_list := by
  induction n with
  | zero => simp
  | succ n ih =>
    rw [List.range_succ, List.foldl_append]
    exact ih

theorem init_pool_links (c : Cfg) (s : sta_priv) :
    (init_pool c s).links =
      INIT_LIST_HEAD (INIT_LIST_HEAD (init_loop_state c s).links .asoc_list_head)
        .auth_list_head := rfl

theorem init_pool_sta (c : Cfg) (s : sta_priv) :
    (init_pool c s).sta = (init_loop_state c s).sta := rfl

theorem init_loop_inv (c : Cfg) (s : sta_priv) : InitInv c.NUM_STA (init_loop_state c s) := by
  refine InitInv.fold c.NUM_STA ?_
  constructor
  · simp only [List.range_zero, List.map_nil]
    exact IsList.nil_iff.mpr ⟨by simp [INIT_LIST_HEAD_next], by simp [INIT_LIST_HEAD_prev]⟩
  all_goals intro r hr; omega

/-- After initialisation the free queue holds the records `0 .. NUM_STA - 1`
in this order and every bucket is empty. -/
theorem init_shape (c : Cfg) (s : sta_priv) :
    Shape c (init_pool c s) (List.range c.NUM_STA) (fun _ => []) := by
  have hN := init_loop_inv c s
  have hag : ∀ x : Node, x ≠ .asoc_list_head → x ≠ .auth_list_head →
      (init_pool c s).links.next x = (init_loop_state c s).links.next x ∧
      (init_pool c s).links.prev x = (init_loop_state c s).links.prev x := by
    intro x h1 h2
    rw [init_pool_links]
    simp [INIT_LIST_HEAD_next, INIT_LIST_HEAD_prev, h1, h2]
  have hsl : ∀ x : Node, x ≠ .asoc_list_head → x ≠ .auth_list_head →
      SelfLinked (init_loop_state c s).links x → SelfLinked (init_pool c s).links x := by
    intro x h1 h2 hs
    have := hag x h1 h2
    exact ⟨by rw [this.1]; exact hs.1, by rw [this.2]; exact hs.2⟩
  have hfree : IsList (init_pool c s).links .free_sta_queue
      ((List.range c.NUM_STA).map .list) := by
    apply hN.free.isList_frame
    intro x hx
    have hk := @mem_free_cells_kind (List.range c.NUM_STA) x hx
    apply hag <;> (rintro rfl; simp [Node.kind] at hk)
  have hkind : ∀ x : Node, SelfLinked (init_pool c s).links x →
      ((init_pool c s).links.next x).kind = x.kind ∧
      ((init_pool c s).links.prev x).kind = x.kind := by
    intro x hs
    rw [hs.1, hs.2]; exact ⟨rfl, rfl⟩
  have hfk : ∀ x : Node, x ∈ free_cells (List.range c.NUM_STA) →
      ((init_pool c s).links.next x).kind = x.kind ∧
      ((init_pool c s).links.prev x).kind = x.kind := by
    intro x hx
    have := hfree.neighbours_mem hx
    rw [mem_free_cells_kind hx]
    exact ⟨mem_free_cells_kind this.1, mem_free_cells_kind this.2⟩
  constructor
  · constructor
    · intro x hv
      cases x with
      | free_sta_queue => exact hfk _ (by simp [free_cells])
      | list r => exact hfk _ (by simpa [free_cells] using hv)
      | sta_hash i => exact hkind _ (hsl _ (by simp) (by simp) (hN.heads i hv))
      | hash_list r => exact hkind _ (hsl _ (by simp) (by simp) (hN.hash r hv))
      | auth_list r => exact hkind _ (hsl _ (by simp) (by simp) (hN.auth r hv))
      | asoc_list r => exact hkind _ (hsl _ (by simp) (by simp) (hN.asoc r hv))
      | auth_list_head =>
        rw [init_pool_links]; simp [INIT_LIST_HEAD_next, INIT_LIST_HEAD_prev]
      | asoc_list_head =>
        rw [init_pool_links]; simp [INIT_LIST_HEAD_next, INIT_LIST_HEAD_prev]
    · intro r hr; exact List.mem_range.mp hr
    · intro i _ r hr; simp at hr
    · exact hfree
    · intro i hi
      simp only [List.map_nil]
      exact IsList.nil_iff.mpr (hsl _ (by simp) (by simp) (hN.heads i hi))
    · intro r hlt hr
      exact absurd (List.mem_range.mpr hlt) hr
    · intro r hlt _
      exact hsl _ (by simp) (by simp) (hN.hash r hlt)
    · intro i j _ _ _ r hr; simp at hr
  · intro i _ r hr; simp at hr

/-- Initialisation zero-fills every record of the pool. -/
theorem init_pool_sta_zero (c : Cfg) (s : sta_priv) (r : Nat) (hr : r < c.NUM_STA) :
    (init_pool c s).sta r = sta_info.zero := by
  rw [init_pool_sta]
  exact (init_loop_inv c s).sta r hr

theorem get_stainfo_loop_path (s : sta_priv) (i : Nat) (addr : Addr) :
    ∀ (b : List Nat) (a e : Node) (fuel : Nat),
      Path s.links a (b.map .hash_list) e → s.links.next e = .sta_hash i →
      b.length < fuel →
      get_stainfo_loop s (.sta_hash i) addr fuel (s.links.next a)
        = some (first_match s addr b) := by
  intro b
  induction b with
  | nil =>
    intro a e fuel hp hc hf
    simp only [List.map_nil, Path] at hp
    subst hp
    cases fuel with
    | zero => simp at hf
    | succ f => simp [get_stainfo_loop, hc, first_match]
  | cons r b ih =>
    intro a e fuel hp hc hf
    obtain ⟨h1, _, hp⟩ := hp
    cases fuel with
    | zero => simp at hf
    | succ f =>
      have hf' : b.length < f := by simpa using hf
      rw [h1]
      simp only [get_stainfo_loop, containor_hash_list]
      rw [if_neg (by simp)]
      by_cases hm : (s.sta r).hwaddr = addr
      · simp [hm, first_match]
      · rw [if_neg hm, ih _ _ _ hp hc hf']
        simp [first_match, hm]

theorem rtw_get_stainfo_some (c : Cfg) (fuel : Nat) (s : sta_priv) (a : Addr) :
    rtw_get_stainfo c fuel s (some a) =
      (if c.wifi_mac_hash (norm_addr a) < c.NUM_STA then
        get_stainfo_loop s (.sta_hash (c.wifi_mac_hash (norm_addr a))) (norm_addr a) fuel
          (s.links.next (.sta_hash (c.wifi_mac_hash (norm_addr a))))
      else none) := rfl

theorem get_stainfo_shape {c : Cfg} {s : sta_priv} {fl : List Nat} {bk : Nat → List Nat}
    (hs : LShape c s.links fl bk) (hwaddr : Addr)
    (hidx : c.wifi_mac_hash (norm_addr hwaddr) < c.NUM_STA) (fuel : Nat)
    (hf : (bk (c.wifi_mac_hash (norm_addr hwaddr))).length < fuel) :
    rtw_get_stainfo c fuel s (some hwaddr) =
      some (first_match s (norm_addr hwaddr) (bk (c.wifi_mac_hash (norm_addr hwaddr)))) := by
  have hl := hs.hash _ hidx
  have := get_stainfo_loop_path s (c.wifi_mac_hash (norm_addr hwaddr)) (norm_addr hwaddr)
    _ _ _ fuel hl.1 hl.2.1 hf
  rw [rtw_get_stainfo_some, if_pos hidx]
  exact this

theorem norm_addr_bc : norm_addr bc_addr = bc_addr := by
  simp [norm_addr]

theorem norm_addr_mcast (hwaddr : Addr) (h : IS_MCAST hwaddr = true) :
    norm_addr hwaddr = bc_addr := by
  simp [norm_addr, h]

theorem norm_addr_idem (hwaddr : Addr) : norm_addr (norm_addr hwaddr) = norm_addr hwaddr := by
  by_cases h : IS_MCAST hwaddr = true
  · rw [norm_addr_mcast _ h, norm_addr_bc]
  · have : norm_addr hwaddr = hwaddr := by simp [norm_addr, h]
    rw [this, this]

theorem get_stainfo_norm (c : Cfg) (fuel : Nat) (s : sta_priv) (hwaddr : Addr) :
    rtw_get_stainfo c fuel s (some hwaddr) = rtw_get_stainfo c fuel s (some (norm_addr hwaddr)) := by
  rw [rtw_get_stainfo_some, rtw_get_stainfo_some, norm_addr_idem]

theorem Path.path_unique {h : Links} {hd : Node} {xs : List Node} :
    ∀ {a e e' : Node} {ys : List Node}, Path h a xs e → Path h a ys e' →
      h.next e = hd → h.next e' = hd → hd ∉ xs → hd ∉ ys → xs = ys := by
  induction xs with
  | nil =>
    intro a e e' ys hp hq hc hc' _ hy
    cases ys with
    | nil => rfl
    | cons y ys =>
      simp only [Path] at hp
      subst hp
      rw [hq.1] at hc
      exact absurd (hc ▸ List.mem_cons_self _ _) hy
  | cons x xs ih =>
    intro a e e' ys hp hq hc hc' hx hy
    cases ys with
    | nil =>
      simp only [Path] at hq
      subst hq
      rw [hp.1] at hc'
      exact absurd (hc' ▸ List.mem_cons_self _ _) hx
    | cons y ys =>
      have hxy : x = y := by rw [← hp.1, ← hq.1]
      subst hxy
      rw [ih hp.2.2 hq.2.2 hc hc' (fun m => hx (List.mem_cons_of_mem _ m))
        (fun m => hy (List.mem_cons_of_mem _ m))]

theorem IsList.isList_unique {h : Links} {hd : Node} {xs ys : List Node}
    (hx : IsList h hd xs) (hy : IsList h hd ys) : xs = ys :=
  Path.path_unique hx.1 hy.1 hx.2.1 hy.2.1 (List.nodup_cons.mp hx.2.2).1 (List.nodup_cons.mp hy.2.2).1

/-- The free queue and the buckets of a well-formed pool are determined by
the pool. -/
theorem Shape.shape_unique {c : Cfg} {s : sta_priv} {fl fl' : List Nat} {bk bk' : Nat → List Nat}
    (h1 : Shape c s fl bk) (h2 : Shape c s fl' bk') :
    fl = fl' ∧ ∀ i, i < c.NUM_STA → bk i = bk' i := by
  constructor
  · have := IsList.isList_unique h1.links.free h2.links.free
    exact List.map_injective_iff.mpr (fun a b e => by injection e) this
  · intro i hi
    have := IsList.isList_unique (h1.links.hash i hi) (h2.links.hash i hi)
    exact List.map_injective_iff.mpr (fun a b e => by injection e) this

theorem length_le_of_nodup_lt {l : List Nat} {n : Nat} (hnd : l.Nodup)
    (hlt : ∀ x, x ∈ l → x < n) : l.length ≤ n := by
  have hsub : l ⊆ List.range n := fun x hx => List.mem_range.mpr (hlt x hx)
  have := (hnd.subperm hsub).length_le
  simpa using this

theorem bucket_length_le {c : Cfg} {h : Links} {fl : List Nat} {bk : Nat → List Nat}
    (hs : LShape c h fl bk) {i : Nat} (hi : i < c.NUM_STA) : (bk i).length ≤ c.NUM_STA :=
  length_le_of_nodup_lt (bucket_nodup hs hi) (hs.hash_lt i hi)

theorem free_length_le {c : Cfg} {h : Links} {fl : List Nat} {bk : Nat → List Nat}
    (hs : LShape c h fl bk) : fl.length ≤ c.NUM_STA :=
  length_le_of_nodup_lt (free_nodup hs) hs.free_lt

/-- `first_match` only reads the addresses of the records it scans. -/
theorem first_match_congr {s s' : sta_priv} {addr : Addr} {b : List Nat}
    (h : ∀ r, r ∈ b → (s'.sta r).hwaddr = (s.sta r).hwaddr) :
    first_match s' addr b = first_match s addr b := by
  induction b with
  | nil => rfl
  | cons r b ih =>
    have hr := h r (List.mem_cons_self _ _)
    have ih' := ih (fun x hx => h x (List.mem_cons_of_mem _ hx))
    unfold first_match at ih' ⊢
    simp only [List.find?_cons, hr, ih']

theorem first_match_some {s : sta_priv} {addr : Addr} {b : List Nat} {r : Nat}
    (h : first_match s addr b = some r) : r ∈ b ∧ (s.sta r).hwaddr = addr := by
  unfold first_match at h
  have h1 := List.mem_of_find?_eq_some h
  have h2 := List.find?_some h
  exact ⟨h1, by simpa using h2⟩

theorem first_match_none {s : sta_priv} {addr : Addr} {b : List Nat} :
    first_match s addr b = none ↔ ∀ r, r ∈ b → (s.sta r).hwaddr ≠ addr := by
  unfold first_match
  simp [List.find?_eq_none]

theorem first_match_append_some {s : sta_priv} {addr : Addr} {b b' : List Nat} {r : Nat}
    (h : first_match s addr b = some r) : first_match s addr (b ++ b') = some r := by
  unfold first_match at h ⊢
  rw [List.find?_append, h]
  rfl

theorem first_match_append_none {s : sta_priv} {addr : Addr} {b b' : List Nat}
    (h : first_match s addr b = none) :
    first_match s addr (b ++ b') = first_match s addr b' := by
  unfold first_match at h ⊢
  rw [List.find?_append, h]
  rfl

/-- Erasing another record keeps the first match. -/
theorem first_match_erase {s : sta_priv} {addr : Addr} {b : List Nat} {r q : Nat}
    (h : first_match s addr b = some r) (hq : q ≠ r) :
    first_match s addr (b.erase q) = some r := by
  induction b with
  | nil => simp [first_match] at h
  | cons x b ih =>
    by_cases hx : (s.sta x).hwaddr = addr
    · have hxr : x = r := by
        unfold first_match at h
        simpa [List.find?_cons, hx] using h
      subst hxr
      have : (x :: b).erase q = x :: b.erase q := by
        rw [List.erase_cons_tail]
        simpa using hq.symm
      rw [this]
      unfold first_match
      simp [List.find?_cons, hx]
    · have h' : first_match s addr b = some r := by
        unfold first_match at h ⊢
        simpa [List.find?_cons, hx] using h
      by_cases hxq : x = q
      · subst hxq
        rw [List.erase_cons_head]
        exact h'
      · have : (x :: b).erase q = x :: b.erase q := by
          rw [List.erase_cons_tail]
          simpa using hxq
        rw [this]
        have := ih h'
        unfold first_match at this ⊢
        simpa [List.find?_cons, hx] using this

/-- Erasing a record from a list without a match leaves it without a match. -/
theorem first_match_erase_none {s : sta_priv} {addr : Addr} {b : List Nat} {q : Nat}
    (h : first_match s addr b = none) : first_match s addr (b.erase q) = none := by
  rw [first_match_none] at h ⊢
  intro r hr
  exact h r (List.mem_of_mem_erase hr)

theorem Part.tail {c : Cfg} {r : Nat} {fl : List Nat} {bk : Nat → List Nat}
    (hp : Part c (r :: fl) bk) : Part c fl bk :=
  fun x hx => hp x (List.mem_cons_of_mem _ hx)

theorem Part.push {c : Cfg} {r j : Nat} {fl : List Nat} {bk : Nat → List Nat}
    (hp : Part c (r :: fl) bk) (hnd : (r :: fl).Nodup) :
    Part c fl (upd bk j (bk j ++ [r])) := by
  intro x hx i hi hm
  by_cases e : i = j
  · subst e
    rw [upd_same] at hm
    rcases List.mem_append.mp hm with hm | hm
    · exact hp x (List.mem_cons_of_mem _ hx) i hi hm
    · simp only [List.mem_singleton] at hm
      subst hm
      exact (List.nodup_cons.mp hnd).1 hx
  · rw [upd_other _ _ _ _ e] at hm
    exact hp x (List.mem_cons_of_mem _ hx) i hi hm

theorem Part.release {c : Cfg} {r i : Nat} {fl : List Nat} {bk : Nat → List Nat}
    (hp : Part c fl bk) (hr : ∀ j, j < c.NUM_STA → r ∉ upd bk i ((bk i).erase r) j) :
    Part c (fl ++ [r]) (upd bk i ((bk i).erase r)) := by
  intro x hx j hj hm
  rcases List.mem_append.mp hx with hx | hx
  · apply hp x hx j hj
    by_cases e : j = i
    · subst e; rw [upd_same] at hm; exact List.mem_of_mem_erase hm
    · rw [upd_other _ _ _ _ e] at hm; exact hm
  · simp only [List.mem_singleton] at hx
    subst hx
    exact hr j hj hm

/-- Releasing a live record of a well-formed pool: the call returns
`_SUCCESS` and moves the record from its bucket to the end of the free
queue. -/
theorem free_live_spec {c : Cfg} {s : sta_priv} {fl : List Nat} {bk : Nat → List Nat}
    (hs : Shape c s fl bk) (hp : Part c fl bk) {i r : Nat} (hi : i < c.NUM_STA)
    (hr : r ∈ bk i) :
    ∃ s', rtw_free_stainfo c s (some r) = some (s', Status._SUCCESS) ∧
      Shape c s' (fl ++ [r]) (upd bk i ((bk i).erase r)) ∧
      Part c (fl ++ [r]) (upd bk i ((bk i).erase r)) ∧
      (∀ x, (s'.sta x).hwaddr = (s.sta x).hwaddr) ∧
      (∀ x, x ≠ r → s'.sta x = s.sta x) ∧
      ((s'.sta r).aid = (s.sta r).aid ∨ (s'.sta r).aid = 0) ∧
      s'.asoc_sta_count = s.asoc_sta_count - 1 := by
  have hfl : r ∉ fl := fun h => hp r h i hi hr
  refine ⟨_, free_eq c s r (hs.queues i hi r hr), hs.free_live hi hr hfl,
    hp.release (hs.links.pop_hash_not_mem hi hr), ?_, ?_, ?_, ?_⟩
  · intro x
    by_cases e : x = r
    · subst e; rw [free_tail_hwaddr]; rfl
    · rw [free_tail_sta_other _ _ _ _ e]; rfl
  · intro x e
    rw [free_tail_sta_other _ _ _ _ e]; rfl
  · exact free_tail_aid _ _ _
  · rw [free_tail_asoc_sta_count]; rfl

/-- An allocation in a well-formed pool with a non-empty free queue and a
bucket index in range. -/
theorem alloc_ok_spec {c : Cfg} {s : sta_priv} {r : Nat} {fl : List Nat} {bk : Nat → List Nat}
    (hs : Shape c s (r :: fl) bk) (hp : Part c (r :: fl) bk) (a : Addr)
    (hidx : c.wifi_mac_hash a < c.NUM_STA) :
    ∃ s', rtw_alloc_stainfo c s a = some (s', some r) ∧
      Shape c s' fl (upd bk (c.wifi_mac_hash a) (bk (c.wifi_mac_hash a) ++ [r])) ∧
      Part c fl (upd bk (c.wifi_mac_hash a) (bk (c.wifi_mac_hash a) ++ [r])) ∧
      s'.sta r = fresh_sta a ∧
      (∀ x, x ≠ r → s'.sta x = s.sta x) ∧
      s'.asoc_sta_count = s.asoc_sta_count + 1 := by
  have hr : ∀ i, i < c.NUM_STA → r ∉ bk i := hp r (List.mem_cons_self _ _)
  have h1 := alloc_nonempty hs.links a
  have h2 := alloc_body_ok c s a r hidx
  have h3 := hs.alloc_ok hr a hidx
  rw [h2] at h1 h3
  refine ⟨_, h1, h3, hp.push (free_nodup hs.links), ?_, ?_, rfl⟩
  · exact upd_same _ _ _
  · intro x e
    exact upd_other _ _ _ _ e

/-- An allocation in a well-formed pool with a non-empty free queue and a
bucket index out of range: the first free record is lost. -/
theorem alloc_fail_spec {c : Cfg} {s : sta_priv} {r : Nat} {fl : List Nat}
    {bk : Nat → List Nat} (hs : Shape c s (r :: fl) bk) (hp : Part c (r :: fl) bk) (a : Addr)
    (hidx : c.NUM_STA ≤ c.wifi_mac_hash a) :
    ∃ s', rtw_alloc_stainfo c s a = some (s', none) ∧
      Shape c s' fl bk ∧ Part c fl bk ∧
      (∀ x, x ≠ r → s'.sta x = s.sta x) ∧
      s'.asoc_sta_count = s.asoc_sta_count ∧
      s'.sta r = { sta_info.zero with hwaddr := a } := by
  have hr : ∀ i, i < c.NUM_STA → r ∉ bk i := hp r (List.mem_cons_self _ _)
  have h1 := alloc_nonempty hs.links a
  have h2 := alloc_body_fail c s a r hidx
  have h3 := hs.alloc_fail hr a hidx
  rw [h2] at h1 h3
  refine ⟨_, h1, h3, hp.tail, ?_, rfl, upd_same _ _ _⟩
  intro x e
  exact upd_other _ _ _ _ e

/-- A record found first for an address stays the first match while other
records are allocated and released. -/
theorem first_match_kept {c : Cfg} {r : Nat} {addr : Addr} {s t : sta_priv}
    (hj : c.wifi_mac_hash addr < c.NUM_STA) (ho : Others c r s t)
    (h : ∃ fl bk, Shape c s fl bk ∧ Part c fl bk ∧
      first_match s addr (bk (c.wifi_mac_hash addr)) = some r) :
    ∃ fl bk, Shape c t fl bk ∧ Part c fl bk ∧
      first_match t addr (bk (c.wifi_mac_hash addr)) = some r := by
  induction ho with
  | refl => exact h
  | @alloc t t' a res _ heq ih =>
    obtain ⟨fl, bk, hs, hp, hm⟩ := ih
    cases fl with
    | nil =>
      rw [alloc_empty hs.links a] at heq
      injection heq with heq
      injection heq with e1 _
      subst e1
      exact ⟨[], bk, hs, hp, hm⟩
    | cons q rest =>
      have hq : ∀ i, i < c.NUM_STA → q ∉ bk i := hp q (List.mem_cons_self _ _)
      by_cases hidx : c.wifi_mac_hash a < c.NUM_STA
      · obtain ⟨s1, h1, h2, h3, _, h5, _⟩ := alloc_ok_spec hs hp a hidx
        rw [h1] at heq
        injection heq with heq
        injection heq with e1 _
        subst e1
        refine ⟨rest, _, h2, h3, ?_⟩
        have hcongr : first_match s1 addr (bk (c.wifi_mac_hash addr)) = some r := by
          rw [first_match_congr (s := t)]
          · exact hm
          · intro x hx
            rw [h5 x (fun e => hq _ hj (e ▸ hx))]
        by_cases e : c.wifi_mac_hash addr = c.wifi_mac_hash a
        · rw [← e, upd_same]
          exact first_match_append_some hcongr
        · rw [upd_other _ _ _ _ e]
          exact hcongr
      · obtain ⟨s1, h1, h2, h3, h5, _⟩ := alloc_fail_spec hs hp a (Nat.le_of_not_lt hidx)
        rw [h1] at heq
        injection heq with heq
        injection heq with e1 _
        subst e1
        refine ⟨rest, _, h2, h3, ?_⟩
        rw [first_match_congr (s := t)]
        · exact hm
        · intro x hx
          rw [h5 x (fun e => hq _ hj (e ▸ hx))]
  | @free t t' q st _ hne hlive heq ih =>
    obtain ⟨fl, bk, hs, hp, hm⟩ := ih
    obtain ⟨fl', bk', hs', i, hi, hqi⟩ := hlive
    rw [← (Shape.shape_unique hs hs').2 i hi] at hqi
    obtain ⟨s1, h1, h2, h3, h4, _⟩ := free_live_spec hs hp hi hqi
    rw [h1] at heq
    injection heq with heq
    injection heq with e1 _
    subst e1
    refine ⟨_, _, h2, h3, ?_⟩
    rw [first_match_congr (s := t) (fun x _ => h4 x)]
    by_cases e : c.wifi_mac_hash addr = i
    · subst e
      rw [upd_same]
      exact first_match_erase hm hne
    · rw [upd_other _ _ _ _ e]
      exact hm

/-- A run of successful allocations in a well-formed pool takes one record
off the free queue per call and leaves every returned record in a bucket. -/
theorem alloc_many_spec (c : Cfg) :
    ∀ (addrs : List Addr) (s t : sta_priv) (fl : List Nat) (bk : Nat → List Nat)
      (rs : List (Option Nat)),
      Shape c s fl bk → Part c fl bk → alloc_many c s addrs = some (t, rs) →
      (∀ x, x ∈ rs → x ≠ none) →
      ∃ fl' bk', Shape c t fl' bk' ∧ Part c fl' bk' ∧
        fl'.length + addrs.length = fl.length ∧
        (∀ r, some r ∈ rs → ∃ i, i < c.NUM_STA ∧ r ∈ bk' i) ∧
        (∀ i, i < c.NUM_STA → ∀ r, r ∈ bk i → r ∈ bk' i) := by
  intro addrs
  induction addrs with
  | nil =>
    intro s t fl bk rs hs hp hrun _
    simp only [alloc_many] at hrun
    injection hrun with hrun
    injection hrun with e1 e2
    subst e1; subst e2
    exact ⟨fl, bk, hs, hp, by simp, by simp, fun _ _ _ h => h⟩
  | cons a rest ih =>
    intro s t fl bk rs hs hp hrun hok
    simp only [alloc_many] at hrun
    cases fl with
    | nil =>
      rw [alloc_empty hs.links a] at hrun
      simp only at hrun
      split at hrun
      · cases hrun
      · injection hrun with hrun
        injection hrun with _ e2
        subst e2
        exact absurd rfl (hok none (List.mem_cons_self _ _))
    | cons q fl =>
      by_cases hidx : c.wifi_mac_hash a < c.NUM_STA
      · obtain ⟨s1, h1, h2, h3, _⟩ := alloc_ok_spec hs hp a hidx
        rw [h1] at hrun
        simp only at hrun
        split at hrun
        · cases hrun
        · rename_i s2 rs' hrest
          injection hrun with hrun
          injection hrun with e1 e2
          subst e1; subst e2
          obtain ⟨fl', bk', g1, g2, g3, g4, g5⟩ := ih s1 s2 fl _ rs' h2 h3 hrest
            (fun x hx => hok x (List.mem_cons_of_mem _ hx))
          refine ⟨fl', bk', g1, g2, ?_, ?_, ?_⟩
          · simp only [List.length_cons]; omega
          · intro r hr
            rcases List.mem_cons.mp hr with e | hr
            · injection e with e
              subst e
              exact ⟨_, hidx, g5 _ hidx r (by rw [upd_same]; simp)⟩
            · exact g4 r hr
          · intro i hi r hr
            apply g5 i hi r
            by_cases e : i = c.wifi_mac_hash a
            · subst e; rw [upd_same]; exact List.mem_append_left _ hr
            · rw [upd_other _ _ _ _ e]; exact hr
      · obtain ⟨s1, h1, _⟩ := alloc_fail_spec hs hp a (Nat.le_of_not_lt hidx)
        rw [h1] at hrun
        simp only at hrun
        split at hrun
        · cases hrun
        · injection hrun with hrun
          injection hrun with _ e2
          subst e2
          exact absurd rfl (hok none (List.mem_cons_self _ _))

theorem upd_eq_self {α β : Type} [DecidableEq α] (f : α → β) (a : α) :
    upd f a (f a) = f := by
  funext x
  unfold upd
  split_ifs with h
  · rw [h]
  · rfl

theorem upd_upd {α β : Type} [DecidableEq α] (f : α → β) (a : α) (b b' : β) :
    upd (upd f a b) a b' = upd f a b' := by
  funext x
  unfold upd
  split_ifs <;> rfl

theorem next_split {h : Links} {i r : Nat} {l1 l2 : List Nat}
    (hl : IsList h (.sta_hash i) ((l1 ++ r :: l2).map .hash_list)) :
    h.next (.hash_list r) = cell_after i l2 := by
  obtain ⟨hp, hc, _⟩ := hl
  rw [List.map_append, List.map_cons] at hp
  obtain ⟨m, _, _, _, hp2⟩ := Path.append_iff.mp hp
  cases l2 with
  | nil =>
    simp only [List.map_nil, Path] at hp2
    rw [hp2]
    exact hc
  | cons y l2 => exact hp2.1

theorem next_head_cell {h : Links} {i : Nat} {b : List Nat}
    (hl : IsList h (.sta_hash i) (b.map .hash_list)) :
    h.next (.sta_hash i) = cell_after i b := by
  cases b with
  | nil => exact (IsList.nil_iff.mp hl).1
  | cons r b => exact hl.next_head

theorem released_upto_succ (pb : Option Nat) (bk : Nat → List Nat) (k : Nat) :
    released_upto pb bk (k + 1) = released_upto pb bk k ++ released pb (bk k) := by
  unfold released_upto
  rw [List.range_succ, List.foldl_append]
  rfl

theorem swept_succ (pb : Option Nat) (bk : Nat → List Nat) (k : Nat) :
    upd (swept pb bk k) k (skipped pb (bk k)) = swept pb bk (k + 1) := by
  funext j
  unfold upd swept
  by_cases h1 : j = k
  · subst h1; simp
  · by_cases h2 : j < k
    · simp [h1, h2, Nat.lt_succ_of_lt h2]
    · have : ¬ j < k + 1 := by omega
      simp [h1, h2, this]

/-- The inner loop of `rtw_free_all_stainfo` on bucket `i`, started behind
the records `kept` that were skipped: it releases the remaining records other
than `pb` in list order. -/
theorem free_all_loop_spec (c : Cfg) (i : Nat) (hi : i < c.NUM_STA) (pb : Option Nat) :
    ∀ (rest kept : List Nat) (s : sta_priv) (fl : List Nat) (bk : Nat → List Nat) (fuel : Nat),
      Shape c s fl bk → Part c fl bk → bk i = kept ++ rest →
      (∀ r, r ∈ kept → pb = some r) → rest.length < fuel →
      ∃ s', free_all_loop c (.sta_hash i) pb fuel s (cell_after i rest) = some s' ∧
        Shape c s' (fl ++ released pb rest) (upd bk i (kept ++ skipped pb rest)) ∧
        Part c (fl ++ released pb rest) (upd bk i (kept ++ skipped pb rest)) ∧
        (∀ x, (s'.sta x).hwaddr = (s.sta x).hwaddr) ∧
        (∀ x, x ∉ released pb rest → s'.sta x = s.sta x) ∧
        s'.asoc_sta_count = s.asoc_sta_count - (released pb rest).length := by
  intro rest
  induction rest with
  | nil =>
    intro kept s fl bk fuel hs hp hb _ hf
    cases fuel with
    | zero => simp at hf
    | succ f =>
      have e1 : released pb [] = [] := rfl
      have e2 : skipped pb [] = [] := rfl
      have e3 : free_all_loop c (.sta_hash i) pb (f + 1) s (cell_after i []) = some s := by
        show (if Node.sta_hash i = Node.sta_hash i then some s else _) = some s
        rw [if_pos rfl]
      rw [List.append_nil] at hb
      rw [e1, e2, List.append_nil, List.append_nil, ← hb, upd_eq_self]
      refine ⟨s, e3, hs, hp, ?_, ?_, ?_⟩
      · intro x; rfl
      · intro x _; rfl
      · simp
  | cons r rest ih =>
    intro kept s fl bk fuel hs hp hb hk hf
    cases fuel with
    | zero => simp at hf
    | succ f =>
      have hf' : rest.length < f := by simpa using hf
      have hl := hs.links.hash i hi
      rw [hb] at hl
      have hnext := next_split hl
      have hstep : free_all_loop c (.sta_hash i) pb (f + 1) s (cell_after i (r :: rest)) =
          (if pb ≠ some r then
            match rtw_free_stainfo c s (some r) with
            | none => none
            | some (s1, _) => free_all_loop c (.sta_hash i) pb f s1 (cell_after i rest)
          else free_all_loop c (.sta_hash i) pb f s (cell_after i rest)) := by
        show (if Node.hash_list r = Node.sta_hash i then some s else
          match containor_hash_list (Node.hash_list r) with
          | none => none
          | some psta =>
            if pb ≠ some psta then
              match rtw_free_stainfo c s (some psta) with
              | none => none
              | some (s1, _) =>
                free_all_loop c (.sta_hash i) pb f s1 (s.links.next (Node.hash_list r))
            else free_all_loop c (.sta_hash i) pb f s (s.links.next (Node.hash_list r))) = _
        rw [if_neg (by simp), hnext]
        rfl
      rw [hstep]
      by_cases hpb : pb = some r
      · rw [if_neg (not_not.mpr hpb)]
        obtain ⟨s', g1, g2, g3, g4, g5, g6⟩ := ih (kept ++ [r]) s fl bk f hs hp
          (by rw [hb]; simp)
          (by
            intro x hx
            rcases List.mem_append.mp hx with hx | hx
            · exact hk x hx
            · simp only [List.mem_singleton] at hx; rw [hx]; exact hpb)
          hf'
        have e1 : released pb (r :: rest) = released pb rest := by
          simp [released, hpb]
        have e2 : kept ++ skipped pb (r :: rest) = kept ++ [r] ++ skipped pb rest := by
          simp [skipped, hpb]
        rw [e1, e2]
        exact ⟨s', g1, g2, g3, g4, g5, g6⟩
      · rw [if_pos hpb]
        have hri : r ∈ bk i := by rw [hb]; simp
        have hrk : r ∉ kept := fun hx => hpb (hk r hx)
        have herase : (bk i).erase r = kept ++ rest := by
          rw [hb, List.erase_append_right _ hrk, List.erase_cons_head]
        obtain ⟨s1, h1, h2, h3, h4, h5, _, h7⟩ := free_live_spec hs hp hi hri
        rw [herase] at h2 h3
        rw [h1]
        simp only
        obtain ⟨s', g1, g2, g3, g4, g5, g6⟩ := ih kept s1 (fl ++ [r]) _ f h2 h3
          (upd_same _ _ _) hk hf'
        have e1 : released pb (r :: rest) = r :: released pb rest := by
          simp [released, hpb]
        have e2 : skipped pb (r :: rest) = skipped pb rest := by
          simp [skipped, hpb]
        rw [upd_upd, List.append_assoc] at g2 g3
        rw [e1, e2]
        refine ⟨s', g1, g2, g3, ?_, ?_, ?_⟩
        · intro x; rw [g4 x, h4 x]
        · intro x hx
          have hx1 : x ≠ r := fun e => hx (e ▸ List.mem_cons_self _ _)
          have hx2 : x ∉ released pb rest := fun e => hx (List.mem_cons_of_mem _ e)
          rw [g5 x hx2, h5 x hx1]
        · rw [g6, h7]
          simp only [List.length_cons]
          push_cast
          ring

theorem swept_zero (pb : Option Nat) (bk : Nat → List Nat) : swept pb bk 0 = bk := by
  funext j
  simp [swept]

theorem released_upto_zero (pb : Option Nat) (bk : Nat → List Nat) :
    released_upto pb bk 0 = [] := rfl

theorem mem_released_upto {pb : Option Nat} {bk : Nat → List Nat} {k x : Nat} :
    x ∈ released_upto pb bk k ↔ ∃ j, j < k ∧ x ∈ released pb (bk j) := by
  induction k with
  | zero => simp [released_upto_zero]
  | succ k ih =>
    rw [released_upto_succ, List.mem_append, ih]
    constructor
    · rintro (⟨j, hj, hx⟩ | hx)
      · exact ⟨j, Nat.lt_succ_of_lt hj, hx⟩
      · exact ⟨k, Nat.lt_succ_self k, hx⟩
    · rintro ⟨j, hj, hx⟩
      by_cases e : j = k
      · subst e; exact Or.inr hx
      · exact Or.inl ⟨j, by omega, hx⟩

/-- The outer loop of `rtw_free_all_stainfo` with `n` buckets left to sweep. -/
theorem free_all_buckets_spec (c : Cfg) (pb : Option Nat) (fl : List Nat)
    (bk : Nat → List Nat) (fuel : Nat) (hf : c.NUM_STA < fuel) :
    ∀ (n k : Nat) (s : sta_priv), k + n = c.NUM_STA →
      Shape c s (fl ++ released_upto pb bk k) (swept pb bk k) →
      Part c (fl ++ released_upto pb bk k) (swept pb bk k) →
      ∃ s', free_all_buckets c fuel pb n s = some s' ∧
        Shape c s' (fl ++ released_upto pb bk c.NUM_STA) (swept pb bk c.NUM_STA) ∧
        Part c (fl ++ released_upto pb bk c.NUM_STA) (swept pb bk c.NUM_STA) ∧
        (∀ x, (s'.sta x).hwaddr = (s.sta x).hwaddr) ∧
        (∀ x, (∀ j, k ≤ j → j < c.NUM_STA → x ∉ released pb (bk j)) → s'.sta x = s.sta x) ∧
        s'.asoc_sta_count + (released_upto pb bk c.NUM_STA).length
          = s.asoc_sta_count + (released_upto pb bk k).length := by
  intro n
  induction n with
  | zero =>
    intro k s hk hs hp
    have e : k = c.NUM_STA := by omega
    subst e
    exact ⟨s, rfl, hs, hp, fun _ => rfl, fun _ _ => rfl, rfl⟩
  | succ n ih =>
    intro k s hk hs hp
    have hklt : k < c.NUM_STA := by omega
    have hidx : c.NUM_STA - (n + 1) = k := by omega
    have hbk : swept pb bk k k = [] ++ bk k := by simp [swept]
    have hlen : (bk k).length < fuel := by
      have := bucket_length_le hs.links hklt
      rw [hbk] at this
      simpa using lt_of_le_of_lt this hf
    have hnext : s.links.next (.sta_hash k) = cell_after k (bk k) := by
      have := hs.links.hash k hklt
      rw [hbk] at this
      exact next_head_cell this
    obtain ⟨s1, h1, h2, h3, h4, h5, h6⟩ := free_all_loop_spec c k hklt pb (bk k) [] s _ _ fuel
      hs hp hbk (fun _ h => by simp at h) hlen
    rw [List.nil_append, swept_succ, List.append_assoc, ← released_upto_succ] at h2 h3
    obtain ⟨s', g1, g2, g3, g4, g5, g6⟩ := ih (k + 1) s1 (by omega) h2 h3
    have hstep : free_all_buckets c fuel pb (n + 1) s =
        (match free_all_loop c (.sta_hash (c.NUM_STA - (n + 1))) pb fuel s
            (s.links.next (.sta_hash (c.NUM_STA - (n + 1)))) with
          | none => none
          | some s => free_all_buckets c fuel pb n s) := rfl
    rw [hstep, hidx, hnext, h1]
    refine ⟨s', g1, g2, g3, ?_, ?_, ?_⟩
    · intro x; rw [g4 x, h4 x]
    · intro x hx
      rw [g5 x (fun j hj hlt => hx j (by omega) hlt), h5 x (hx k (le_refl k) hklt)]
    · rw [g6, h6, released_upto_succ, List.length_append]
      push_cast
      ring

/-- `rtw_free_all_stainfo` in a well-formed pool: it returns; unless
`asoc_sta_count` is 1 it releases, bucket by bucket, every record other than
the one found for the all-ones address. -/
theorem free_all_spec (c : Cfg) (s : sta_priv) (fl : List Nat) (bk : Nat → List Nat)
    (fuel : Nat) (hs : Shape c s fl bk) (hp : Part c fl bk) (hf : c.NUM_STA < fuel)
    (hidx : c.wifi_mac_hash bc_addr < c.NUM_STA) :
    ∃ s', rtw_free_all_stainfo c fuel s = some s' ∧
      (s.asoc_sta_count = 1 → s' = s) ∧
      (s.asoc_sta_count ≠ 1 →
        Shape c s'
          (fl ++ released_upto (first_match s bc_addr (bk (c.wifi_mac_hash bc_addr))) bk c.NUM_STA)
          (swept (first_match s bc_addr (bk (c.wifi_mac_hash bc_addr))) bk c.NUM_STA) ∧
        Part c
          (fl ++ released_upto (first_match s bc_addr (bk (c.wifi_mac_hash bc_addr))) bk c.NUM_STA)
          (swept (first_match s bc_addr (bk (c.wifi_mac_hash bc_addr))) bk c.NUM_STA) ∧
        (∀ x, (s'.sta x).hwaddr = (s.sta x).hwaddr) ∧
        (∀ x, (∀ j, j < c.NUM_STA →
            x ∉ released (first_match s bc_addr (bk (c.wifi_mac_hash bc_addr))) (bk j)) →
          s'.sta x = s.sta x) ∧
        s'.asoc_sta_count +
            (released_upto (first_match s bc_addr (bk (c.wifi_mac_hash bc_addr))) bk
              c.NUM_STA).length
          = s.asoc_sta_count) := by
  have hget : rtw_get_bcmc_stainfo c fuel s =
      some (first_match s bc_addr (bk (c.wifi_mac_hash bc_addr))) := by
    have := get_stainfo_shape hs.links bc_addr (by rw [norm_addr_bc]; exact hidx) fuel
      (by rw [norm_addr_bc]; exact lt_of_le_of_lt (bucket_length_le hs.links hidx) hf)
    rw [norm_addr_bc] at this
    exact this
  have hstep : rtw_free_all_stainfo c fuel s =
      (match rtw_get_bcmc_stainfo c fuel s with
        | none => none
        | some pbcmc_stainfo =>
          if s.asoc_sta_count = 1 then some s
          else free_all_buckets c fuel pbcmc_stainfo c.NUM_STA s) := rfl
  rw [hstep, hget]
  simp only
  by_cases h1 : s.asoc_sta_count = 1
  · rw [if_pos h1]
    exact ⟨s, rfl, fun _ => rfl, fun h => absurd h1 h⟩
  · rw [if_neg h1]
    obtain ⟨s', g1, g2, g3, g4, g5, g6⟩ := free_all_buckets_spec c
      (first_match s bc_addr (bk (c.wifi_mac_hash bc_addr))) fl bk fuel hf c.NUM_STA 0 s
      (by omega)
      (by rw [released_upto_zero, List.append_nil, swept_zero]; exact hs)
      (by rw [released_upto_zero, List.append_nil, swept_zero]; exact hp)
    refine ⟨s', g1, fun h => absurd h h1, fun _ => ⟨g2, g3, g4, ?_, ?_⟩⟩
    · intro x hx
      exact g5 x (fun j _ hj => hx j hj)
    · rw [g6, released_upto_zero]
      simp

/-- A non-empty list of copies of a record with the address has this record
as first match. -/
theorem first_match_const {s : sta_priv} {addr : Addr} {b : Nat} {l : List Nat}
    (hall : ∀ x, x ∈ l → x = b) (hne : b ∈ l) (hb : (s.sta b).hwaddr = addr) :
    first_match s addr l = some b := by
  cases l with
  | nil => simp at hne
  | cons x l =>
    have hx : x = b := hall x (List.mem_cons_self _ _)
    subst hx
    simp [first_match, hb]

theorem inv_init (c : Cfg) (s0 : sta_priv) : Inv c (init_pool c s0) :=
  ⟨_, _, init_shape c s0, fun _ _ _ _ h => by simp at h,
    fun r hr => Or.inl (List.mem_range.mpr hr), fun _ _ _ h => by simp at h⟩

theorem inv_alloc {c : Cfg} (hall : ∀ a, c.wifi_mac_hash a < c.NUM_STA) {s s' : sta_priv}
    {a : Addr} {res : Option Nat} (hi : Inv c s)
    (heq : rtw_alloc_stainfo c s a = some (s', res)) : Inv c s' := by
  obtain ⟨fl, bk, hs, hp, hc, hh⟩ := hi
  cases fl with
  | nil =>
    rw [alloc_empty hs.links a] at heq
    injection heq with heq
    injection heq with e1 _
    subst e1
    exact ⟨[], bk, hs, hp, hc, hh⟩
  | cons q rest =>
    have hq : ∀ i, i < c.NUM_STA → q ∉ bk i := hp q (List.mem_cons_self _ _)
    obtain ⟨s1, h1, h2, h3, h4, h5, _⟩ := alloc_ok_spec hs hp a (hall a)
    rw [h1] at heq
    injection heq with heq
    injection heq with e1 _
    subst e1
    refine ⟨rest, _, h2, h3, ?_, ?_⟩
    · intro r hr
      rcases hc r hr with hm | ⟨i, hi, hm⟩
      · rcases List.mem_cons.mp hm with e | hm
        · subst e
          exact Or.inr ⟨_, hall a, by rw [upd_same]; simp⟩
        · exact Or.inl hm
      · refine Or.inr ⟨i, hi, ?_⟩
        by_cases e : i = c.wifi_mac_hash a
        · subst e; rw [upd_same]; exact List.mem_append_left _ hm
        · rw [upd_other _ _ _ _ e]; exact hm
    · intro i hi r hr
      by_cases e : i = c.wifi_mac_hash a
      · subst e
        rw [upd_same] at hr
        rcases List.mem_append.mp hr with hm | hm
        · rw [h5 r (fun e => hq _ hi (e ▸ hm))]
          exact hh _ hi r hm
        · simp only [List.mem_singleton] at hm
          subst hm
          rw [h4]; rfl
      · rw [upd_other _ _ _ _ e] at hr
        rw [h5 r (fun e => hq _ hi (e ▸ hr))]
        exact hh _ hi r hr

theorem inv_free {c : Cfg} {s s' : sta_priv} {r : Nat} {st : Status} (hi : Inv c s)
    (hl : Live c s r) (heq : rtw_free_stainfo c s (some r) = some (s', st)) : Inv c s' := by
  obtain ⟨fl, bk, hs, hp, hc, hh⟩ := hi
  obtain ⟨fl', bk', hs', i, hi, hri⟩ := hl
  rw [← (Shape.shape_unique hs hs').2 i hi] at hri
  obtain ⟨s1, h1, h2, h3, h4, _⟩ := free_live_spec hs hp hi hri
  rw [h1] at heq
  injection heq with heq
  injection heq with e1 _
  subst e1
  refine ⟨_, _, h2, h3, ?_, ?_⟩
  · intro x hx
    rcases hc x hx with hm | ⟨j, hj, hm⟩
    · exact Or.inl (List.mem_append_left _ hm)
    · by_cases e : x = r
      · subst e; exact Or.inl (by simp)
      · refine Or.inr ⟨j, hj, ?_⟩
        by_cases ej : j = i
        · subst ej; rw [upd_same]; exact (List.mem_erase_of_ne e).mpr hm
        · rw [upd_other _ _ _ _ ej]; exact hm
  · intro j hj x hx
    rw [h4 x]
    apply hh j hj x
    by_cases ej : j = i
    · subst ej; rw [upd_same] at hx; exact List.mem_of_mem_erase hx
    · rw [upd_other _ _ _ _ ej] at hx; exact hx

theorem inv_free_all {c : Cfg} (hall : ∀ a, c.wifi_mac_hash a < c.NUM_STA) {s s' : sta_priv}
    {fuel : Nat} (hi : Inv c s) (hf : c.NUM_STA < fuel)
    (heq : rtw_free_all_stainfo c fuel s = some s') : Inv c s' := by
  obtain ⟨fl, bk, hs, hp, hc, hh⟩ := hi
  obtain ⟨s1, h1, h2, h3⟩ := free_all_spec c s fl bk fuel hs hp hf (hall bc_addr)
  rw [h1] at heq
  injection heq with e1
  subst e1
  by_cases hcnt : s.asoc_sta_count = 1
  · rw [h2 hcnt]
    exact ⟨fl, bk, hs, hp, hc, hh⟩
  · obtain ⟨g1, g2, g3, _⟩ := h3 hcnt
    refine ⟨_, _, g1, g2, ?_, ?_⟩
    · intro x hx
      rcases hc x hx with hm | ⟨j, hj, hm⟩
      · exact Or.inl (List.mem_append_left _ hm)
      · by_cases e : first_match s bc_addr (bk (c.wifi_mac_hash bc_addr)) = some x
        · refine Or.inr ⟨j, hj, ?_⟩
          simp [swept, hj, skipped, hm, e]
        · refine Or.inl (List.mem_append_right _ (mem_released_upto.mpr ⟨j, hj, ?_⟩))
          simp [released, hm, e]
    · intro j hj x hx
      rw [g3 x]
      apply hh j hj x
      simp only [swept, hj, if_true, skipped] at hx
      exact List.mem_of_mem_filter hx

/-- Every reachable pool satisfies the invariant, provided `wifi_mac_hash`
maps every address to a bucket index. -/
theorem reach_inv {c : Cfg} (hall : ∀ a, c.wifi_mac_hash a < c.NUM_STA) {s : sta_priv}
    (hr : Reach c s) : Inv c s := by
  induction hr with
  | init s0 => exact inv_init c s0
  | alloc a res _ heq ih => exact inv_alloc hall ih heq
  | free r st _ hl heq ih => exact inv_free ih hl heq
  | free_all fuel _ hf heq ih => exact inv_free_all hall ih hf heq

theorem reachU_inv {c : Cfg} {s : sta_priv} (hr : ReachU c s) : InvU c s := by
  induction hr with
  | init s0 =>
    refine ⟨_, _, init_shape c s0, fun _ _ _ _ h => by simp at h, ?_, ?_⟩
    · intro i j r q _ _ h; simp at h
    · intro r hr; rw [init_pool_sta_zero c s0 r hr]; rfl
  | @alloc s s' a res _ hnew heq ih =>
    obtain ⟨fl, bk, hs, hp, hu, haid⟩ := ih
    cases fl with
    | nil =>
      rw [alloc_empty hs.links a] at heq
      injection heq with heq
      injection heq with e1 _
      subst e1
      exact ⟨[], bk, hs, hp, hu, haid⟩
    | cons q rest =>
      have hq : ∀ i, i < c.NUM_STA → q ∉ bk i := hp q (List.mem_cons_self _ _)
      have hold : ∀ i x, i < c.NUM_STA → x ∈ bk i → x ≠ q ∧ (s.sta x).hwaddr ≠ a :=
        fun i x hi hx => ⟨fun e => hq i hi (e ▸ hx), hnew x ⟨_, _, hs, i, hi, hx⟩⟩
      by_cases hidx : c.wifi_mac_hash a < c.NUM_STA
      · obtain ⟨s1, h1, h2, h3, h4, h5, _⟩ := alloc_ok_spec hs hp a hidx
        rw [h1] at heq
        injection heq with heq
        injection heq with e1 _
        subst e1
        have hmem : ∀ i x, i < c.NUM_STA →
            x ∈ upd bk (c.wifi_mac_hash a) (bk (c.wifi_mac_hash a) ++ [q]) i →
            x = q ∨ x ∈ bk i := by
          intro i x _ hx
          by_cases e : i = c.wifi_mac_hash a
          · subst e
            rw [upd_same] at hx
            rcases List.mem_append.mp hx with hx | hx
            · exact Or.inr hx
            · exact Or.inl (by simpa using hx)
          · rw [upd_other _ _ _ _ e] at hx; exact Or.inr hx
        have hq4 : (s1.sta q).hwaddr = a := by rw [h4]; rfl
        refine ⟨rest, _, h2, h3, ?_, ?_⟩
        · intro i j x y hi hj hx hy hxy
          rcases hmem i x hi hx with ex | hx <;> rcases hmem j y hj hy with ey | hy
          · rw [ex, ey]
          · exfalso
            rw [ex, hq4, h5 y (hold j y hj hy).1] at hxy
            exact (hold j y hj hy).2 hxy.symm
          · exfalso
            rw [ey, hq4, h5 x (hold i x hi hx).1] at hxy
            exact (hold i x hi hx).2 hxy
          · rw [h5 x (hold i x hi hx).1, h5 y (hold j y hj hy).1] at hxy
            exact hu i j x y hi hj hx hy hxy
        · intro r hr
          by_cases e : r = q
          · subst e; rw [h4]; rfl
          · rw [h5 r e]; exact haid r hr
      · obtain ⟨s1, h1, h2, h3, h5, _, h7⟩ :=
          alloc_fail_spec hs hp a (Nat.le_of_not_lt hidx)
        rw [h1] at heq
        injection heq with heq
        injection heq with e1 _
        subst e1
        refine ⟨rest, _, h2, h3, ?_, ?_⟩
        · intro i j x y hi hj hx hy hxy
          rw [h5 x (hold i x hi hx).1, h5 y (hold j y hj hy).1] at hxy
          exact hu i j x y hi hj hx hy hxy
        · intro r hr
          by_cases e : r = q
          · subst e; rw [h7]; rfl
          · rw [h5 r e]; exact haid r hr
  | @free s s' r st _ hl heq ih =>
    obtain ⟨fl, bk, hs, hp, hu, haid⟩ := ih
    obtain ⟨fl', bk', hs', i, hi, hri⟩ := hl
    rw [← (Shape.shape_unique hs hs').2 i hi] at hri
    obtain ⟨s1, h1, h2, h3, h4, h5, h6, _⟩ := free_live_spec hs hp hi hri
    rw [h1] at heq
    injection heq with heq
    injection heq with e1 _
    subst e1
    have hsub : ∀ j x, j < c.NUM_STA → x ∈ upd bk i ((bk i).erase r) j → x ∈ bk j := by
      intro j x _ hx
      by_cases ej : j = i
      · subst ej; rw [upd_same] at hx; exact List.mem_of_mem_erase hx
      · rw [upd_other _ _ _ _ ej] at hx; exact hx
    refine ⟨_, _, h2, h3, ?_, ?_⟩
    · intro a b x y ha hb hx hy hxy
      rw [h4 x, h4 y] at hxy
      exact hu a b x y ha hb (hsub a x ha hx) (hsub b y hb hy) hxy
    · intro x hx
      by_cases e : x = r
      · subst e
        rcases h6 with h6 | h6
        · rw [h6]; exact haid x hx
        · exact h6
      · rw [h5 x e]; exact haid x hx

theorem free_tail_auth_list_cnt (s : sta_priv) (r : Nat) (p : sta_info) :
    (free_tail s r p).auth_list_cnt =
      if list_empty s.links (.auth_list r) then s.auth_list_cnt else s.auth_list_cnt - 1 := by
  dsimp only [free_tail]
  cases h : list_empty s.links (.auth_list r) <;> simp only [Bool.not_true, Bool.not_false] <;>
    split_ifs <;> first | rfl | simp_all

theorem free_tail_asoc_list_cnt (s : sta_priv) (r : Nat) (p : sta_info) :
    (free_tail s r p).asoc_list_cnt = s.asoc_list_cnt := by
  dsimp only [free_tail]
  split_ifs <;> rfl

theorem free_tail_pstainfo_buf (s : sta_priv) (r : Nat) (p : sta_info) :
    (free_tail s r p).pstainfo_buf = s.pstainfo_buf := by
  dsimp only [free_tail]
  split_ifs <;> rfl

theorem free_tail_sta_dz_bitmap (s : sta_priv) (r : Nat) (p : sta_info) :
    (free_tail s r p).sta_dz_bitmap = clear_bits s.sta_dz_bitmap (BIT p.aid) := by
  dsimp only [free_tail]
  split_ifs <;> rfl

theorem free_tail_tim_bitmap (s : sta_priv) (r : Nat) (p : sta_info) :
    (free_tail s r p).tim_bitmap = clear_bits s.tim_bitmap (BIT p.aid) := by
  dsimp only [free_tail]
  split_ifs <;> rfl

theorem free_tail_sta_aid (s : sta_priv) (r : Nat) (p : sta_info) :
    (free_tail s r p).sta_aid =
      if p.aid > 0 ∧ s.sta_aid (p.aid - 1) = some r then upd s.sta_aid (p.aid - 1) none
      else s.sta_aid := by
  dsimp only [free_tail]
  split_ifs <;> simp_all

theorem free_tail_aid_eq (s : sta_priv) (r : Nat) (p : sta_info) :
    ((free_tail s r p).sta r).aid =
      if p.aid > 0 ∧ s.sta_aid (p.aid - 1) = some r then 0 else p.aid := by
  dsimp only [free_tail]
  split_ifs <;> simp_all [upd]

theorem free_tail_recvreorder_ctrl (s : sta_priv) (r : Nat) (p : sta_info) :
    ((free_tail s r p).sta r).recvreorder_ctrl = p.recvreorder_ctrl := by
  dsimp only [free_tail]
  split_ifs <;> simp [upd]

/-- What a returning `rtw_free_stainfo` leaves in the fields of the pool and
of the released record. -/
theorem free_fields {c : Cfg} {s s' : sta_priv} {r : Nat} {st : Status}
    (hq : ∀ t, t < 16 → ((s.sta r).recvreorder_ctrl t).pending_recvframe_queue ≠ none)
    (heq : rtw_free_stainfo c s (some r) = some (s', st)) :
    st = Status._SUCCESS ∧
    (∀ t, t < 16 →
      (s'.sta r).recvreorder_ctrl t = freed_reorder_ctrl ((s.sta r).recvreorder_ctrl t)) ∧
    s'.sta_dz_bitmap = clear_bits s.sta_dz_bitmap (BIT (s.sta r).aid) ∧
    s'.tim_bitmap = clear_bits s.tim_bitmap (BIT (s.sta r).aid) ∧
    s'.sta_aid =
      (if (s.sta r).aid > 0 ∧ s.sta_aid ((s.sta r).aid - 1) = some r
        then upd s.sta_aid ((s.sta r).aid - 1) none else s.sta_aid) ∧
    (s'.sta r).aid =
      (if (s.sta r).aid > 0 ∧ s.sta_aid ((s.sta r).aid - 1) = some r
        then 0 else (s.sta r).aid) ∧
    s'.auth_list_cnt =
      (if list_empty (list_del_init s.links (.hash_list r)) (.auth_list r)
        then s.auth_list_cnt else s.auth_list_cnt - 1) ∧
    s'.asoc_list_cnt = s.asoc_list_cnt ∧
    s'.pstainfo_buf = s.pstainfo_buf := by
  rw [free_eq c s r hq] at heq
  injection heq with heq
  injection heq with e1 e2
  subst e1
  refine ⟨e2.symm, ?_, ?_, ?_, ?_, ?_, ?_, ?_, ?_⟩
  · intro t ht
    rw [free_tail_recvreorder_ctrl]
    simp [freed_sta, ht]
  · rw [free_tail_sta_dz_bitmap]; rfl
  · rw [free_tail_tim_bitmap]; rfl
  · rw [free_tail_sta_aid]; rfl
  · rw [free_tail_aid_eq]; rfl
  · rw [free_tail_auth_list_cnt]; rfl
  · rw [free_tail_asoc_list_cnt]; rfl
  · rw [free_tail_pstainfo_buf]; rfl

theorem mem_auth_cells_kind {au : List Nat} {x : Node}
    (hx : x ∈ Node.auth_list_head :: au.map Node.auth_list) : x.kind = 2 := by
  simp only [List.mem_cons, List.mem_map] at hx
  rcases hx with rfl | ⟨r, _, rfl⟩ <;> rfl

theorem mem_asoc_cells_kind {asl : List Nat} {x : Node}
    (hx : x ∈ Node.asoc_list_head :: asl.map Node.asoc_list) : x.kind = 3 := by
  simp only [List.mem_cons, List.mem_map] at hx
  rcases hx with rfl | ⟨r, _, rfl⟩ <;> rfl

/-- A change of the links that leaves the two membership families alone keeps
the membership lists. -/
theorem MShape.mshape_frame {c : Cfg} {h h' : Links} {au asl : List Nat}
    (hm : MShape c h au asl)
    (hf : ∀ x : Node, x.kind = 2 ∨ x.kind = 3 →
      h'.next x = h.next x ∧ h'.prev x = h.prev x) :
    MShape c h' au asl := by
  refine ⟨?_, ?_, ?_, ?_⟩
  · exact hm.auth.isList_frame (fun x hx => hf x (Or.inl (mem_auth_cells_kind hx)))
  · exact hm.asoc.isList_frame (fun x hx => hf x (Or.inr (mem_asoc_cells_kind hx)))
  · intro r hlt hr
    have := hf (.auth_list r) (Or.inl rfl)
    have hsl := hm.auth_self r hlt hr
    exact ⟨by rw [this.1]; exact hsl.1, by rw [this.2]; exact hsl.2⟩
  · intro r hlt hr
    have := hf (.asoc_list r) (Or.inr rfl)
    have hsl := hm.asoc_self r hlt hr
    exact ⟨by rw [this.1]; exact hsl.1, by rw [this.2]; exact hsl.2⟩

theorem auth_nodup {c : Cfg} {h : Links} {au asl : List Nat} (hm : MShape c h au asl) :
    au.Nodup := by
  have := hm.auth.2.2
  have := (List.nodup_cons.mp this).2
  exact (List.nodup_map_iff (f := Node.auth_list) (fun a b e => by injection e)).mp this

theorem asoc_nodup {c : Cfg} {h : Links} {au asl : List Nat} (hm : MShape c h au asl) :
    asl.Nodup := by
  have := hm.asoc.2.2
  have := (List.nodup_cons.mp this).2
  exact (List.nodup_map_iff (f := Node.asoc_list) (fun a b e => by injection e)).mp this

/-- The cell of a member of a list does not point to itself. -/
theorem IsList.next_ne_self {h : Links} {hd n : Node} {xs : List Node}
    (hl : IsList h hd xs) (hn : n ∈ xs) : h.next n ≠ n := by
  obtain ⟨l1, l2, hsplit⟩ := List.append_of_mem hn
  obtain ⟨hp, hc, hnd⟩ := hl
  rw [hsplit] at hp hnd
  obtain ⟨m, _, _, _, hp2⟩ := Path.append_iff.mp hp
  have hnd' : (hd :: l1 ++ n :: l2).Nodup := by simpa using hnd
  have hnd2 := (List.nodup_append.mp hnd').2.1
  cases l2 with
  | nil =>
    simp only [Path] at hp2
    rw [← hp2] at hc
    rw [hc]
    intro e
    have hmem : n ∈ hd :: l1 := e ▸ List.mem_cons_self _ _
    exact (List.nodup_append.mp hnd').2.2 hmem (List.mem_cons_self _ _)
  | cons y ys =>
    obtain ⟨h1, _, _⟩ := hp2
    rw [h1]
    intro e
    have := (List.nodup_cons.mp hnd2).1
    exact this (e ▸ List.mem_cons_self _ _)

theorem MShape.auth_list_empty {c : Cfg} {h : Links} {au asl : List Nat}
    (hm : MShape c h au asl) {r : Nat} (hlt : r < c.NUM_STA) :
    list_empty h (.auth_list r) = true ↔ r ∉ au := by
  constructor
  · intro he hr
    have := hm.auth.next_ne_self (List.mem_map.mpr ⟨r, hr, rfl⟩)
    simp [list_empty] at he
    exact this he
  · intro hr
    have := (hm.auth_self r hlt hr).1
    simp [list_empty, this]

/-- Unlinking a record from the authentication-pending list. -/
theorem MShape.pop_auth {c : Cfg} {h : Links} {au asl : List Nat} (hm : MShape c h au asl)
    (hc : Closed c h) {r : Nat} (hlt : r < c.NUM_STA) (hr : r ∈ au) :
    MShape c (list_del_init h (.auth_list r)) (au.erase r) asl := by
  obtain ⟨l1, l2, hsplit⟩ := List.append_of_mem hr
  have hnd := auth_nodup hm
  have hr1 : r ∉ l1 := by
    rw [hsplit] at hnd
    have := (List.nodup_append.mp hnd).2.2
    exact fun hx => this hx (List.mem_cons_self _ _)
  have herase : au.erase r = l1 ++ l2 := by
    rw [hsplit, List.erase_append_right _ hr1, List.erase_cons_head]
  have hl : IsList h .auth_list_head
      (l1.map .auth_list ++ Node.auth_list r :: l2.map .auth_list) := by
    have := hm.auth
    rw [hsplit] at this
    simpa using this
  have hnb := hm.auth.neighbours_mem (n := .auth_list r) (by simp [hr])
  have hv : (Node.auth_list r).valid c := hlt
  refine ⟨?_, ?_, ?_, ?_⟩
  · rw [herase]
    simpa using hl.isList_del_init
  · exact hm.asoc.isList_frame
      (fun x hx => del_init_other_kind hc _ x hv
        (by rw [mem_asoc_cells_kind hx]; simp [Node.kind]))
  · intro x hx hxe
    by_cases e : x = r
    · subst e; exact list_del_init_selfLinked _ _
    · have hxa : x ∉ au := fun hm' => hxe ((List.mem_erase_of_ne e).mpr hm')
      have hcell : Node.auth_list x ∉ Node.auth_list_head :: au.map Node.auth_list := by
        simpa using hxa
      have hx1 : Node.auth_list x ≠ Node.auth_list r := fun e' => e (by injection e')
      have hx2 : Node.auth_list x ≠ h.prev (.auth_list r) := fun e' => hcell (e' ▸ hnb.2)
      have hx3 : Node.auth_list x ≠ h.next (.auth_list r) := fun e' => hcell (e' ▸ hnb.1)
      have hsl := hm.auth_self x hx hxa
      constructor
      · rw [list_del_init_next]; simp [hx1, hx2, hsl.1]
      · rw [list_del_init_prev]; simp [hx1, hx3, hsl.2]
  · intro x hx hxa
    have := del_init_other_kind hc (.auth_list r) (.asoc_list x) hv (by simp [Node.kind])
    have hsl := hm.asoc_self x hx hxa
    exact ⟨by rw [this.1]; exact hsl.1, by rw [this.2]; exact hsl.2⟩

/-- The membership lists after the release of a record held in bucket `i`:
the record leaves the authentication-pending list if it was on it, the
associated list is as before. -/
theorem MShape.mshape_free_live {c : Cfg} {s : sta_priv} {r i : Nat} {fl au asl : List Nat}
    {bk : Nat → List Nat} (hs : Shape c s fl bk) (hm : MShape c s.links au asl)
    (hi : i < c.NUM_STA) (hr : r ∈ bk i) :
    MShape c (free_tail (free_head_state s r) r (freed_sta c (s.sta r))).links
        (au.erase r) asl ∧
      (free_tail (free_head_state s r) r (freed_sta c (s.sta r))).auth_list_cnt =
        (if r ∈ au then s.auth_list_cnt - 1 else s.auth_list_cnt) := by
  have hlt : r < c.NUM_STA := hs.links.hash_lt i hi r hr
  have hvh : (Node.hash_list r).valid c := hlt
  have h1 : LShape c (free_head_state s r).links fl (upd bk i ((bk i).erase r)) :=
    hs.links.pop_hash hi hr
  have m1 : MShape c (free_head_state s r).links au asl := by
    apply hm.mshape_frame
    intro x hx
    apply del_init_other_kind hs.links.closed _ _ hvh
    have hk : (Node.hash_list r).kind = 1 := rfl
    rw [hk]
    rcases hx with hx | hx <;> rw [hx] <;> decide
  have hemp := m1.auth_list_empty hlt
  have hfree : ∀ (l : Links), Closed c l → MShape c l (au.erase r) asl →
      MShape c (list_add_tail l (.list r) .free_sta_queue) (au.erase r) asl := by
    intro l hcl hml
    apply hml.mshape_frame
    intro x hx
    have hv : Node.free_sta_queue.valid c := trivial
    have hk : x.kind ≠ Node.free_sta_queue.kind := by
      have hk0 : Node.free_sta_queue.kind = 0 := rfl
      rw [hk0]
      rcases hx with hx | hx <;> rw [hx] <;> decide
    exact add_tail_other_kind hcl (.list r) .free_sta_queue x hv hk rfl
  rw [free_tail_links, free_tail_auth_list_cnt]
  by_cases hra : r ∈ au
  · have he : list_empty (free_head_state s r).links (.auth_list r) = false := by
      cases h : list_empty (free_head_state s r).links (.auth_list r)
      · rfl
      · exact absurd hra (hemp.mp h)
    rw [he]
    simp only [Bool.false_eq_true, if_false, hra, if_true]
    exact ⟨hfree _ (h1.closed.closed_del_init _ hlt) (m1.pop_auth h1.closed hlt hra), rfl⟩
  · have he : list_empty (free_head_state s r).links (.auth_list r) = true := hemp.mpr hra
    rw [he]
    simp only [if_true, hra, if_false]
    rw [List.erase_of_not_mem hra] at hfree ⊢
    exact ⟨hfree _ h1.closed m1, rfl⟩

/-- A returning `rtw_alloc_stainfo` either found the free queue empty and left
the pool as it is, or ran the body on the record whose `list` cell is first
on the free queue. -/
theorem alloc_cases {c : Cfg} {s s' : sta_priv} {a : Addr} {res : Option Nat}
    (heq : rtw_alloc_stainfo c s a = some (s', res)) :
    (s' = s ∧ res = none) ∨ ∃ q, alloc_body c s a q = (s', res) := by
  unfold rtw_alloc_stainfo at heq
  split_ifs at heq with he
  · injection heq with heq
    injection heq with e1 e2
    exact Or.inl ⟨e1.symm, e2.symm⟩
  · cases hq : containor_list (s.links.next .free_sta_queue) with
    | none => rw [hq] at heq; cases heq
    | some q =>
      rw [hq] at heq
      injection heq with heq
      exact Or.inr ⟨q, heq⟩

/-- The record handed out by `rtw_alloc_stainfo` holds the fresh contents. -/
theorem alloc_some_fresh {c : Cfg} {s s' : sta_priv} {a : Addr} {r : Nat}
    (heq : rtw_alloc_stainfo c s a = some (s', some r)) :
    s'.sta r = fresh_sta a := by
  rcases alloc_cases heq with ⟨_, h⟩ | ⟨q, h⟩
  · cases h
  · by_cases hidx : c.wifi_mac_hash a < c.NUM_STA
    · rw [alloc_body_ok c s a q hidx] at h
      injection h with e1 e2
      injection e2 with e2
      subst e2
      rw [← e1]
      exact upd_same _ _ _
    · rw [alloc_body_fail c s a q (Nat.le_of_not_lt hidx)] at h
      injection h with _ e2
      cases e2

theorem alloc_pstainfo_buf {c : Cfg} {s s' : sta_priv} {a : Addr} {res : Option Nat}
    (heq : rtw_alloc_stainfo c s a = some (s', res)) :
    s'.pstainfo_buf = s.pstainfo_buf := by
  rcases alloc_cases heq with ⟨h, _⟩ | ⟨q, h⟩
  · rw [h]
  · by_cases hidx : c.wifi_mac_hash a < c.NUM_STA
    · rw [alloc_body_ok c s a q hidx] at h
      injection h with e1 _
      rw [← e1]
    · rw [alloc_body_fail c s a q (Nat.le_of_not_lt hidx)] at h
      injection h with e1 _
      rw [← e1]

theorem to_int_of_lt {x : Int} (h0 : 0 ≤ x) (h1 : x < 2 ^ 31) : to_int x = x := by
  unfold to_int
  rw [Int.emod_eq_of_lt (by omega) (by omega)]
  omega

theorem to_size_t_of_lt (c : Cfg) (n : Nat) (h : n < 2 ^ c.ptr_bits) :
    to_size_t c (n : Int) = n := by
  unfold to_size_t
  have h' : (n : Int) < 2 ^ c.ptr_bits := by exact_mod_cast h
  rw [Int.emod_eq_of_lt (Int.natCast_nonneg n) h']
  exact Int.toNat_natCast n

/-- The slot of an index below `NUM_STA` is the address of the record. -/
theorem by_offset_eq_sta_ptr (c : Cfg) (s : sta_priv) (r : Nat)
    (hsz : 0 < c.sizeof_sta_info)
    (hfit : s.pstainfo_buf + c.NUM_STA * c.sizeof_sta_info ≤ 2 ^ c.ptr_bits)
    (hr : r < c.NUM_STA) :
    rtw_get_stainfo_by_offset c s (r : Int) = sta_ptr c s r := by
  have h1 : r * c.sizeof_sta_info < c.NUM_STA * c.sizeof_sta_info :=
    Nat.mul_lt_mul_of_pos_right hr hsz
  have h2 : r ≤ r * c.sizeof_sta_info := Nat.le_mul_of_pos_right r hsz
  unfold rtw_get_stainfo_by_offset sta_ptr
  rw [to_size_t_of_lt c r (by omega)]
  exact Nat.mod_eq_of_lt (by omega)

/-- The offset of the address of a record is the index of the record. -/
theorem offset_sta_ptr (c : Cfg) (s : sta_priv) (r : Nat)
    (hsz : 0 < c.sizeof_sta_info)
    (hfit : s.pstainfo_buf + c.NUM_STA * c.sizeof_sta_info ≤ 2 ^ c.ptr_bits)
    (hint : c.NUM_STA ≤ 2 ^ 31)
    (hr : r < c.NUM_STA) :
    rtw_stainfo_offset c s (sta_ptr c s r) = (r : Int) := by
  have h1 : r * c.sizeof_sta_info < c.NUM_STA * c.sizeof_sta_info :=
    Nat.mul_lt_mul_of_pos_right hr hsz
  unfold rtw_stainfo_offset sta_ptr
  have hd : ((s.pstainfo_buf + r * c.sizeof_sta_info : Nat) : Int) - (s.pstainfo_buf : Int)
      = ((r * c.sizeof_sta_info : Nat) : Int) := by
    push_cast; ring
  simp only [hd]
  rw [to_size_t_of_lt c _ (by omega), Nat.mul_div_cancel _ hsz]
  apply to_int_of_lt (Int.natCast_nonneg r)
  have : (r : Int) < (c.NUM_STA : Int) := by exact_mod_cast hr
  have : (c.NUM_STA : Int) ≤ 2 ^ 31 := by exact_mod_cast hint
  omega

/-- Bit `k` of `x & ~BIT(a)`: cleared when `k = a`, kept otherwise. -/
theorem testBit_clear_bits (x a k : Nat) :
    (clear_bits x (BIT a)).testBit k = (x.testBit k && !decide (a = k)) := by
  unfold clear_bits BIT
  rw [Nat.testBit_xor, Nat.testBit_and, Nat.one_shiftLeft, Nat.testBit_two_pow]
  cases x.testBit k <;> cases decide (a = k) <;> rfl

theorem testBit_clear_bits_self (x a : Nat) : (clear_bits x (BIT a)).testBit a = false := by
  rw [testBit_clear_bits]; simp

theorem testBit_clear_bits_other (x a k : Nat) (h : k ≠ a) :
    (clear_bits x (BIT a)).testBit k = x.testBit k := by
  rw [testBit_clear_bits]
  have : ¬ a = k := fun e => h e.symm
  simp [this]

theorem init_pool_asoc_sta_count (c : Cfg) (s : sta_priv) :
    (init_pool c s).asoc_sta_count = 0 := by
  show (init_loop_state c s).asoc_sta_count = 0
  unfold init_loop_state
  rw [(init_fold_fields _ _).1]

theorem init_pool_pstainfo_buf_fold (s : sta_priv) (n : Nat) :
    ((List.range n).foldl init_step s).pstainfo_buf = s.pstainfo_buf := by
  induction n with
  | zero => simp
  | succ n ih =>
    rw [List.range_succ, List.foldl_append]
    exact ih

/-- In a well-formed pool in which every record is on the free queue or in a
bucket, the buckets and the free queue hold `NUM_STA` records together. -/
theorem partition_length {c : Cfg} {h : Links} {fl : List Nat} {bk : Nat → List Nat}
    (hs : LShape c h fl bk) (hp : Part c fl bk) (hc : Cover c fl bk) :
    live_count c bk + fl.length = c.NUM_STA := by
  have hlen : ((List.range c.NUM_STA).flatMap bk).length = live_count c bk := by
    rw [List.length_flatMap]; rfl
  have hnd2 : ((List.range c.NUM_STA).flatMap bk).Nodup := by
    rw [List.nodup_flatMap]
    refine ⟨fun i hi => bucket_nodup hs (List.mem_range.mp hi), ?_⟩
    apply (List.nodup_range _).pairwise_of_forall_ne
    intro i hi j hj hij x hxi hxj
    exact hs.bk_disj i j (List.mem_range.mp hi) (List.mem_range.mp hj) hij x hxi hxj
  have hnd : (fl ++ (List.range c.NUM_STA).flatMap bk).Nodup := by
    refine (free_nodup hs).append hnd2 ?_
    intro x hx hx2
    obtain ⟨i, hi, hxi⟩ := List.mem_flatMap.mp hx2
    exact hp x hx i (List.mem_range.mp hi) hxi
  have hperm : (fl ++ (List.range c.NUM_STA).flatMap bk).Perm (List.range c.NUM_STA) := by
    rw [List.perm_ext_iff_of_nodup hnd (List.nodup_range _)]
    intro x
    rw [List.mem_append, List.mem_flatMap, List.mem_range]
    constructor
    · rintro (hx | ⟨i, hi, hxi⟩)
      · exact hs.free_lt x hx
      · exact hs.hash_lt i (List.mem_range.mp hi) x hxi
    · intro hx
      rcases hc x hx with h1 | ⟨i, hi, hxi⟩
      · exact Or.inl h1
      · exact Or.inr ⟨i, List.mem_range.mpr hi, hxi⟩
  have := hperm.length_eq
  rw [List.length_append, hlen, List.length_range] at this
  omega

/-- In every reachable pool `asoc_sta_count` and the length of the free queue
add up to `NUM_STA`, provided `wifi_mac_hash` maps every address to a bucket
index. -/
theorem reach_count {c : Cfg} (hall : ∀ a, c.wifi_mac_hash a < c.NUM_STA) {s : sta_priv}
    (hr : Reach c s) :
    ∀ fl bk, Shape c s fl bk → s.asoc_sta_count + (fl.length : Int) = (c.NUM_STA : Int) := by
  induction hr with
  | init s0 =>
    intro fl bk hs
    rw [(Shape.shape_unique hs (init_shape c s0)).1, init_pool_asoc_sta_count, List.length_range]
    simp
  | @alloc s s' a res hr heq ih =>
    intro fl' bk' hs'
    obtain ⟨fl, bk, hs, hp, _, _⟩ := reach_inv hall hr
    have h0 := ih fl bk hs
    cases fl with
    | nil =>
      rw [alloc_empty hs.links a] at heq
      injection heq with heq
      injection heq with e1 _
      subst e1
      rw [(Shape.shape_unique hs' hs).1]
      exact h0
    | cons q rest =>
      obtain ⟨s1, h1, h2, _, _, _, h6⟩ := alloc_ok_spec hs hp a (hall a)
      rw [h1] at heq
      injection heq with heq
      injection heq with e1 _
      subst e1
      rw [(Shape.shape_unique hs' h2).1, h6]
      simp only [List.length_cons, Nat.cast_add, Nat.cast_one] at h0
      omega
  | @free s s' r st hr hl heq ih =>
    intro fl' bk' hs'
    obtain ⟨fl, bk, hs, hp, _, _⟩ := reach_inv hall hr
    have h0 := ih fl bk hs
    obtain ⟨fl2, bk2, hs2, i, hi, hri⟩ := hl
    rw [← (Shape.shape_unique hs hs2).2 i hi] at hri
    obtain ⟨s1, h1, h2, _, _, _, _, h7⟩ := free_live_spec hs hp hi hri
    rw [h1] at heq
    injection heq with heq
    injection heq with e1 _
    subst e1
    rw [(Shape.shape_unique hs' h2).1, h7]
    simp only [List.length_append, List.length_singleton, Nat.cast_add, Nat.cast_one]
    omega
  | @free_all s s' fuel hr hf heq ih =>
    intro fl' bk' hs'
    obtain ⟨fl, bk, hs, hp, _, _⟩ := reach_inv hall hr
    have h0 := ih fl bk hs
    obtain ⟨s1, h1, h2, h3⟩ := free_all_spec c s fl bk fuel hs hp hf (hall bc_addr)
    rw [h1] at heq
    injection heq with e1
    subst e1
    by_cases hcnt : s.asoc_sta_count = 1
    · rw [h2 hcnt] at hs' ⊢
      rw [(Shape.shape_unique hs' hs).1]
      exact h0
    · obtain ⟨g1, _, _, _, g5⟩ := h3 hcnt
      rw [(Shape.shape_unique hs' g1).1]
      simp only [List.length_append, Nat.cast_add]
      omega

theorem FreeSteps.steps_trans {c : Cfg} {s1 s2 s3 : sta_priv} (h1 : FreeSteps c s1 s2)
    (h2 : FreeSteps c s2 s3) : FreeSteps c s1 s3 := by
  induction h1 with
  | refl _ => exact h2
  | step r st hl heq _ ih => exact FreeSteps.step r st hl heq (ih h2)

/-- A property kept by every release of a live record is kept by a run of
such releases. -/
theorem FreeSteps.steps_keep {c : Cfg} {Q : sta_priv → Prop}
    (hQ : ∀ (s s' : sta_priv) (r : Nat) (st : Status), Live c s r →
      rtw_free_stainfo c s (some r) = some (s', st) → Q s → Q s')
    {s s' : sta_priv} (h : FreeSteps c s s') : Q s → Q s' := by
  induction h with
  | refl _ => exact id
  | step r st hl heq _ ih => exact fun hq => ih (hQ _ _ r st hl heq hq)

/-- The inner loop of `rtw_free_all_stainfo` is a run of releases of live
records. -/
theorem free_all_loop_steps (c : Cfg) (i : Nat) (hi : i < c.NUM_STA) (pb : Option Nat) :
    ∀ (rest kept : List Nat) (s : sta_priv) (fl : List Nat) (bk : Nat → List Nat) (fuel : Nat),
      Shape c s fl bk → Part c fl bk → bk i = kept ++ rest →
      (∀ r, r ∈ kept → pb = some r) → rest.length < fuel →
      ∃ s', free_all_loop c (.sta_hash i) pb fuel s (cell_after i rest) = some s' ∧
        FreeSteps c s s' := by
  intro rest
  induction rest with
  | nil =>
    intro kept s fl bk fuel hs hp hb _ hf
    cases fuel with
    | zero => simp at hf
    | succ f =>
      have e3 : free_all_loop c (.sta_hash i) pb (f + 1) s (cell_after i []) = some s := by
        show (if Node.sta_hash i = Node.sta_hash i then some s else _) = some s
        rw [if_pos rfl]
      exact ⟨s, e3, FreeSteps.refl s⟩
  | cons r rest ih =>
    intro kept s fl bk fuel hs hp hb hk hf
    cases fuel with
    | zero => simp at hf
    | succ f =>
      have hf' : rest.length < f := by simpa using hf
      have hl := hs.links.hash i hi
      rw [hb] at hl
      have hnext := next_split hl
      have hstep : free_all_loop c (.sta_hash i) pb (f + 1) s (cell_after i (r :: rest)) =
          (if pb ≠ some r then
            match rtw_free_stainfo c s (some r) with
            | none => none
            | some (s1, _) => free_all_loop c (.sta_hash i) pb f s1 (cell_after i rest)
          else free_all_loop c (.sta_hash i) pb f s (cell_after i rest)) := by
        show (if Node.hash_list r = Node.sta_hash i then some s else
          match containor_hash_list (Node.hash_list r) with
          | none => none
          | some psta =>
            if pb ≠ some psta then
              match rtw_free_stainfo c s (some psta) with
              | none => none
              | some (s1, _) =>
                free_all_loop c (.sta_hash i) pb f s1 (s.links.next (Node.hash_list r))
            else free_all_loop c (.sta_hash i) pb f s (s.links.next (Node.hash_list r))) = _
        rw [if_neg (by simp), hnext]
        rfl
      rw [hstep]
      by_cases hpb : pb = some r
      · rw [if_neg (not_not.mpr hpb)]
        exact ih (kept ++ [r]) s fl bk f hs hp
          (by rw [hb]; simp)
          (by
            intro x hx
            rcases List.mem_append.mp hx with hx | hx
            · exact hk x hx
            · simp only [List.mem_singleton] at hx; rw [hx]; exact hpb)
          hf'
      · rw [if_pos hpb]
        have hri : r ∈ bk i := by rw [hb]; simp
        have hrk : r ∉ kept := fun hx => hpb (hk r hx)
        have herase : (bk i).erase r = kept ++ rest := by
          rw [hb, List.erase_append_right _ hrk, List.erase_cons_head]
        obtain ⟨s1, h1, h2, h3, _⟩ := free_live_spec hs hp hi hri
        rw [herase] at h2 h3
        rw [h1]
        simp only
        obtain ⟨s', g1, g2⟩ := ih kept s1 (fl ++ [r]) _ f h2 h3 (upd_same _ _ _) hk hf'
        exact ⟨s', g1, FreeSteps.step r _ ⟨fl, bk, hs, i, hi, hri⟩ h1 g2⟩

/-- The outer loop of `rtw_free_all_stainfo` is a run of releases of live
records. -/
theorem free_all_buckets_steps (c : Cfg) (pb : Option Nat) (fl : List Nat)
    (bk : Nat → List Nat) (fuel : Nat) (hf : c.NUM_STA < fuel) :
    ∀ (n k : Nat) (s : sta_priv), k + n = c.NUM_STA →
      Shape c s (fl ++ released_upto pb bk k) (swept pb bk k) →
      Part c (fl ++ released_upto pb bk k) (swept pb bk k) →
      ∃ s', free_all_buckets c fuel pb n s = some s' ∧ FreeSteps c s s' := by
  intro n
  induction n with
  | zero =>
    intro k s _ _ _
    exact ⟨s, rfl, FreeSteps.refl s⟩
  | succ n ih =>
    intro k s hk hs hp
    have hklt : k < c.NUM_STA := by omega
    have hidx : c.NUM_STA - (n + 1) = k := by omega
    have hbk : swept pb bk k k = [] ++ bk k := by simp [swept]
    have hlen : (bk k).length < fuel := by
      have := bucket_length_le hs.links hklt
      rw [hbk] at this
      simpa using lt_of_le_of_lt this hf
    have hnext : s.links.next (.sta_hash k) = cell_after k (bk k) := by
      have := hs.links.hash k hklt
      rw [hbk] at this
      exact next_head_cell this
    obtain ⟨s1, h1, h2, h3, _⟩ := free_all_loop_spec c k hklt pb (bk k) [] s _ _ fuel
      hs hp hbk (fun _ h => by simp at h) hlen
    obtain ⟨s1', h1', hsteps⟩ := free_all_loop_steps c k hklt pb (bk k) [] s _ _ fuel
      hs hp hbk (fun _ h => by simp at h) hlen
    have e : s1' = s1 := by
      rw [h1] at h1'
      injection h1' with e
      exact e.symm
    subst e
    rw [List.nil_append, swept_succ, List.append_assoc, ← released_upto_succ] at h2 h3
    obtain ⟨s', g1, g2⟩ := ih (k + 1) s1' (by omega) h2 h3
    have hstep : free_all_buckets c fuel pb (n + 1) s =
        (match free_all_loop c (.sta_hash (c.NUM_STA - (n + 1))) pb fuel s
            (s.links.next (.sta_hash (c.NUM_STA - (n + 1)))) with
          | none => none
          | some s => free_all_buckets c fuel pb n s) := rfl
    rw [hstep, hidx, hnext, h1]
    exact ⟨s', g1, hsteps.steps_trans g2⟩

/-- A returning `rtw_free_all_stainfo` looked up a bucket of the table. -/
theorem free_all_some_idx {c : Cfg} {fuel : Nat} {s s' : sta_priv}
    (heq : rtw_free_all_stainfo c fuel s = some s') : c.wifi_mac_hash bc_addr < c.NUM_STA := by
  by_contra hlt
  have hnone : rtw_get_bcmc_stainfo c fuel s = none := by
    have hmc : IS_MCAST bc_addr = true := by decide
    show (if c.wifi_mac_hash (if IS_MCAST bc_addr then bc_addr else bc_addr) < c.NUM_STA
      then _ else none) = none
    rw [hmc]
    simp only [if_true]
    rw [if_neg hlt]
  unfold rtw_free_all_stainfo at heq
  rw [hnone] at heq
  cases heq

/-- `rtw_free_all_stainfo` in a well-formed pool is a run of releases of live
records. -/
theorem free_all_steps {c : Cfg} {s s' : sta_priv} {fl : List Nat} {bk : Nat → List Nat}
    {fuel : Nat} (hs : Shape c s fl bk) (hp : Part c fl bk) (hf : c.NUM_STA < fuel)
    (heq : rtw_free_all_stainfo c fuel s = some s') : FreeSteps c s s' := by
  cases hget : rtw_get_bcmc_stainfo c fuel s with
  | none =>
    unfold rtw_free_all_stainfo at heq
    rw [hget] at heq
    cases heq
  | some pb =>
    have hstep : rtw_free_all_stainfo c fuel s =
        (if s.asoc_sta_count = 1 then some s
          else free_all_buckets c fuel pb c.NUM_STA s) := by
      unfold rtw_free_all_stainfo
      rw [hget]
    rw [hstep] at heq
    by_cases hcnt : s.asoc_sta_count = 1
    · rw [if_pos hcnt] at heq
      injection heq with e
      subst e
      exact FreeSteps.refl s
    · rw [if_neg hcnt] at heq
      obtain ⟨s1, h1, h2⟩ := free_all_buckets_steps c pb fl bk fuel hf c.NUM_STA 0 s
        (by omega)
        (by rw [released_upto_zero, swept_zero, List.append_nil]; exact hs)
        (by rw [released_upto_zero, swept_zero, List.append_nil]; exact hp)
      rw [h1] at heq
      injection heq with e
      subst e
      exact h2

theorem quiet_zero : Quiet sta_info.zero := by
  intro t _
  exact ⟨rfl, rfl⟩

theorem rest_init (c : Cfg) (s0 : sta_priv) : RestInv c (init_pool c s0) := by
  refine ⟨_, _, init_shape c s0, fun _ _ _ _ h => by simp at h, ?_⟩
  intro r hr
  rw [init_pool_sta_zero c s0 r (List.mem_range.mp hr)]
  exact quiet_zero

theorem rest_alloc {c : Cfg} {s s' : sta_priv} {a : Addr} {res : Option Nat}
    (hi : RestInv c s) (heq : rtw_alloc_stainfo c s a = some (s', res)) : RestInv c s' := by
  obtain ⟨fl, bk, hs, hp, hq⟩ := hi
  cases fl with
  | nil =>
    rw [alloc_empty hs.links a] at heq
    injection heq with heq
    injection heq with e1 _
    subst e1
    exact ⟨[], bk, hs, hp, hq⟩
  | cons q rest =>
    have hnd : q ∉ rest := (List.nodup_cons.mp (free_nodup hs.links)).1
    by_cases hidx : c.wifi_mac_hash a < c.NUM_STA
    · obtain ⟨s1, h1, h2, h3, _, h5, _⟩ := alloc_ok_spec hs hp a hidx
      rw [h1] at heq
      injection heq with heq
      injection heq with e1 _
      subst e1
      refine ⟨rest, _, h2, h3, ?_⟩
      intro r hr
      rw [h5 r (fun e => hnd (e ▸ hr))]
      exact hq r (List.mem_cons_of_mem _ hr)
    · obtain ⟨s1, h1, h2, h3, h4, _⟩ := alloc_fail_spec hs hp a (Nat.le_of_not_lt hidx)
      rw [h1] at heq
      injection heq with heq
      injection heq with e1 _
      subst e1
      refine ⟨rest, _, h2, h3, ?_⟩
      intro r hr
      rw [h4 r (fun e => hnd (e ▸ hr))]
      exact hq r (List.mem_cons_of_mem _ hr)

theorem rest_free {c : Cfg} {s s' : sta_priv} {r : Nat} {st : Status} (hi : RestInv c s)
    (hl : Live c s r) (heq : rtw_free_stainfo c s (some r) = some (s', st)) :
    RestInv c s' := by
  obtain ⟨fl, bk, hs, hp, hq⟩ := hi
  obtain ⟨fl', bk', hs', i, hi, hri⟩ := hl
  rw [← (Shape.shape_unique hs hs').2 i hi] at hri
  have hf := free_fields (hs.queues i hi r hri) heq
  obtain ⟨s1, h1, h2, h3, _, h5, _⟩ := free_live_spec hs hp hi hri
  rw [h1] at heq
  injection heq with heq
  injection heq with e1 _
  subst e1
  refine ⟨_, _, h2, h3, ?_⟩
  intro x hx
  by_cases e : x = r
  · subst e
    intro t ht
    rw [hf.2.1 t ht]
    exact ⟨rfl, rfl⟩
  · rw [h5 x e]
    rcases List.mem_append.mp hx with hx | hx
    · exact hq x hx
    · simp only [List.mem_singleton] at hx
      exact absurd hx e

/-- Every reachable pool is well formed and has every record of its free
queue at rest. -/
theorem reach_rest {c : Cfg} {s : sta_priv} (hr : Reach c s) : RestInv c s := by
  induction hr with
  | init s0 => exact rest_init c s0
  | alloc a res _ heq ih => exact rest_alloc ih heq
  | free r st _ hl heq ih => exact rest_free ih hl heq
  | free_all fuel _ hf heq ih =>
    have h0 := ih
    obtain ⟨fl, bk, hs, hp, _⟩ := h0
    exact (free_all_steps hs hp hf heq).steps_keep
      (fun _ _ _ _ hl he hq => rest_free hq hl he) ih

/-- After initialisation both membership lists are empty. -/
theorem init_mshape (c : Cfg) (s : sta_priv) : MShape c (init_pool c s).links [] [] := by
  have hN := init_loop_inv c s
  have hsl : ∀ x : Node, x ≠ .asoc_list_head → x ≠ .auth_list_head →
      SelfLinked (init_loop_state c s).links x → SelfLinked (init_pool c s).links x := by
    intro x h1 h2 hs
    rw [init_pool_links]
    constructor
    · simp only [INIT_LIST_HEAD_next, h1, h2, if_false]; exact hs.1
    · simp only [INIT_LIST_HEAD_prev, h1, h2, if_false]; exact hs.2
  refine ⟨?_, ?_, ?_, ?_⟩
  · simp only [List.map_nil]
    apply IsList.nil_iff.mpr
    rw [init_pool_links]
    constructor <;> simp [INIT_LIST_HEAD_next, INIT_LIST_HEAD_prev]
  · simp only [List.map_nil]
    apply IsList.nil_iff.mpr
    rw [init_pool_links]
    constructor <;> simp [INIT_LIST_HEAD_next, INIT_LIST_HEAD_prev]
  · intro r hr _
    exact hsl _ (by simp) (by simp) (hN.auth r hr)
  · intro r hr _
    exact hsl _ (by simp) (by simp) (hN.asoc r hr)

theorem init_pool_pstainfo_buf (c : Cfg) (s : sta_priv) :
    (init_pool c s).pstainfo_buf = c.vzalloc + 4 - (c.vzalloc &&& 3) := by
  show (init_loop_state c s).pstainfo_buf = _
  unfold init_loop_state
  rw [init_pool_pstainfo_buf_fold]

/-- An allocation leaves the membership lists alone when the record it hands
out is on neither of them. -/
theorem MShape.alloc_links {c : Cfg} {h : Links} {r idx : Nat} {fl au asl : List Nat}
    {bk : Nat → List Nat} (hs : LShape c h (r :: fl) bk) (hm : MShape c h au asl)
    (hr : ∀ i, i < c.NUM_STA → r ∉ bk i) (hra : r ∉ au) (hrs : r ∉ asl)
    (hidx : idx < c.NUM_STA) :
    MShape c (alloc_links0 h r) au asl ∧
    MShape c (list_add_tail (alloc_links0 h r) (.hash_list r) (.sta_hash idx)) au asl := by
  have hlt : r < c.NUM_STA := hs.free_lt r (List.mem_cons_self _ _)
  have hv : (Node.list r).valid c := hlt
  have m1 : MShape c (list_del_init h (.list r)) au asl := by
    apply hm.mshape_frame
    intro x hx
    apply del_init_other_kind hs.closed _ _ hv
    have hk : (Node.list r).kind = 0 := rfl
    rw [hk]
    rcases hx with hx | hx <;> rw [hx] <;> decide
  have h1 := hs.pop_free
  have hrfl : r ∉ fl := (List.nodup_cons.mp (free_nodup hs)).1
  have e1 : INIT_LIST_HEAD (list_del_init h (.list r)) (.list r) = list_del_init h (.list r) :=
    INIT_LIST_HEAD_self _ _ (h1.list_self r hlt hrfl)
  have e2 : INIT_LIST_HEAD (list_del_init h (.list r)) (.hash_list r)
      = list_del_init h (.list r) :=
    INIT_LIST_HEAD_self _ _ (h1.hash_self r hlt hr)
  have e3 : INIT_LIST_HEAD (list_del_init h (.list r)) (.asoc_list r)
      = list_del_init h (.list r) :=
    INIT_LIST_HEAD_self _ _ (m1.asoc_self r hlt hrs)
  have e4 : INIT_LIST_HEAD (list_del_init h (.list r)) (.auth_list r)
      = list_del_init h (.list r) :=
    INIT_LIST_HEAD_self _ _ (m1.auth_self r hlt hra)
  have e : alloc_links0 h r = list_del_init h (.list r) := by
    unfold RtwStaMgt.alloc_links0
    rw [e1, e2, e3, e4]
  rw [e]
  refine ⟨m1, ?_⟩
  apply m1.mshape_frame
  intro x hx
  have hvh : (Node.sta_hash idx).valid c := hidx
  have hk : x.kind ≠ (Node.sta_hash idx).kind := by
    have hk0 : (Node.sta_hash idx).kind = 1 := rfl
    rw [hk0]
    rcases hx with hx | hx <;> rw [hx] <;> decide
  exact add_tail_other_kind h1.closed (.hash_list r) (.sta_hash idx) x hvh hk rfl

/-- A change of the links that leaves the free-queue family and the bucket
family alone, and nothing else of the pool, keeps the shape of the pool. -/
theorem Shape.shape_links {c : Cfg} {s : sta_priv} {fl : List Nat} {bk : Nat → List Nat}
    (hs : Shape c s fl bk) (s' : sta_priv) (hsta : s'.sta = s.sta) (hc : Closed c s'.links)
    (hf : ∀ x : Node, x.kind = 0 ∨ x.kind = 1 →
      s'.links.next x = s.links.next x ∧ s'.links.prev x = s.links.prev x) :
    Shape c s' fl bk := by
  refine ⟨hs.links.lshape_frame hc hf, ?_⟩
  intro i hi r hr t ht
  rw [hsta]
  exact hs.queues i hi r hr t ht

/-- Appending a record to the authentication-pending list, as the code that
handles the first frame of a station does with
`list_add_tail(&psta->auth_list, &pstapriv->auth_list)`. -/
theorem MShape.push_auth {c : Cfg} {h : Links} {r : Nat} {au asl : List Nat}
    (hm : MShape c h au asl) (hc : Closed c h) (hr : r ∉ au) :
    MShape c (list_add_tail h (.auth_list r) .auth_list_head) (au ++ [r]) asl ∧
    Closed c (list_add_tail h (.auth_list r) .auth_list_head) ∧
    (∀ x : Node, x.kind = 0 ∨ x.kind = 1 →
      (list_add_tail h (.auth_list r) .auth_list_head).next x = h.next x ∧
      (list_add_tail h (.auth_list r) .auth_list_head).prev x = h.prev x) := by
  have hv : Node.auth_list_head.valid c := trivial
  have hpm : h.prev .auth_list_head ∈ Node.auth_list_head :: au.map Node.auth_list :=
    hm.auth.1.end_mem
  refine ⟨⟨?_, ?_, ?_, ?_⟩, hc.closed_add_tail _ _ hv rfl, ?_⟩
  · have := hm.auth.isList_add_tail (n := .auth_list r) (by simpa using hr)
    simpa using this
  · apply hm.asoc.isList_frame
    intro x hx
    exact add_tail_other_kind hc _ _ x hv (by rw [mem_asoc_cells_kind hx]; decide) rfl
  · intro x hx hxa
    have hxa' : x ∉ au ∧ x ≠ r := by simpa using hxa
    have hcell : Node.auth_list x ∉ Node.auth_list_head :: au.map Node.auth_list := by
      simpa using hxa'.1
    have hx1 : Node.auth_list x ≠ Node.auth_list r := fun e => hxa'.2 (by injection e)
    have hx2 : Node.auth_list x ≠ h.prev .auth_list_head := fun e => hcell (e ▸ hpm)
    have hsl := hm.auth_self x hx hxa'.1
    constructor
    · rw [list_add_tail_next]; simp [hx1, hx2, hsl.1]
    · rw [list_add_tail_prev]; simp [hx1, hsl.2]
  · intro x hx hxa
    have := add_tail_other_kind hc (.auth_list r) .auth_list_head (.asoc_list x) hv
      (by simp [Node.kind]) rfl
    have hsl := hm.asoc_self x hx hxa
    exact ⟨by rw [this.1]; exact hsl.1, by rw [this.2]; exact hsl.2⟩
  · intro x hx
    have hk : x.kind ≠ Node.auth_list_head.kind := by
      have hk0 : Node.auth_list_head.kind = 2 := rfl
      rw [hk0]
      rcases hx with hx | hx <;> rw [hx] <;> decide
    exact add_tail_other_kind hc (.auth_list r) .auth_list_head x hv hk rfl

/-- Appending a record to the associated list, as the association code does
with `list_add_tail(&psta->asoc_list, &pstapriv->asoc_list)`. -/
theorem MShape.push_asoc {c : Cfg} {h : Links} {r : Nat} {au asl : List Nat}
    (hm : MShape c h au asl) (hc : Closed c h) (hr : r ∉ asl) :
    MShape c (list_add_tail h (.asoc_list r) .asoc_list_head) au (asl ++ [r]) ∧
    Closed c (list_add_tail h (.asoc_list r) .asoc_list_head) ∧
    (∀ x : Node, x.kind = 0 ∨ x.kind = 1 →
      (list_add_tail h (.asoc_list r) .asoc_list_head).next x = h.next x ∧
      (list_add_tail h (.asoc_list r) .asoc_list_head).prev x = h.prev x) := by
  have hv : Node.asoc_list_head.valid c := trivial
  have hpm : h.prev .asoc_list_head ∈ Node.asoc_list_head :: asl.map Node.asoc_list :=
    hm.asoc.1.end_mem
  refine ⟨⟨?_, ?_, ?_, ?_⟩, hc.closed_add_tail _ _ hv rfl, ?_⟩
  · apply hm.auth.isList_frame
    intro x hx
    exact add_tail_other_kind hc _ _ x hv (by rw [mem_auth_cells_kind hx]; decide) rfl
  · have := hm.asoc.isList_add_tail (n := .asoc_list r) (by simpa using hr)
    simpa using this
  · intro x hx hxa
    have := add_tail_other_kind hc (.asoc_list r) .asoc_list_head (.auth_list x) hv
      (by simp [Node.kind]) rfl
    have hsl := hm.auth_self x hx hxa
    exact ⟨by rw [this.1]; exact hsl.1, by rw [this.2]; exact hsl.2⟩
  · intro x hx hxa
    have hxa' : x ∉ asl ∧ x ≠ r := by simpa using hxa
    have hcell : Node.asoc_list x ∉ Node.asoc_list_head :: asl.map Node.asoc_list := by
      simpa using hxa'.1
    have hx1 : Node.asoc_list x ≠ Node.asoc_list r := fun e => hxa'.2 (by injection e)
    have hx2 : Node.asoc_list x ≠ h.prev .asoc_list_head := fun e => hcell (e ▸ hpm)
    have hsl := hm.asoc_self x hx hxa'.1
    constructor
    · rw [list_add_tail_next]; simp [hx1, hx2, hsl.1]
    · rw [list_add_tail_prev]; simp [hx1, hsl.2]
  · intro x hx
    have hk : x.kind ≠ Node.asoc_list_head.kind := by
      have hk0 : Node.asoc_list_head.kind = 3 := rfl
      rw [hk0]
      rcases hx with hx | hx <;> rw [hx] <;> decide
    exact add_tail_other_kind hc (.asoc_list r) .asoc_list_head x hv hk rfl

/-- A walk over a well-formed list visits its cells. -/
theorem walk_path (h : Links) (hd : Node) :
    ∀ (xs : List Node) (a e : Node) (fuel : Nat), Path h a xs e → h.next e = hd →
      hd ∉ xs → xs.length < fuel → walk h hd fuel (h.next a) = some xs := by
  intro xs
  induction xs with
  | nil =>
    intro a e fuel hp hc _ hf
    simp only [Path] at hp
    subst hp
    cases fuel with
    | zero => simp at hf
    | succ f => simp [walk, hc]
  | cons x xs ih =>
    intro a e fuel hp hc hx hf
    cases fuel with
    | zero => simp at hf
    | succ f =>
      have hf' : xs.length < f := by simpa using hf
      have hne : x ≠ hd := fun e => hx (e ▸ List.mem_cons_self _ _)
      rw [hp.1]
      simp only [walk, if_neg hne]
      rw [ih x e f hp.2.2 hc (fun m => hx (List.mem_cons_of_mem _ m)) hf']
      rfl

theorem IsList.walk_eq {h : Links} {hd : Node} {xs : List Node} (hl : IsList h hd xs)
    (fuel : Nat) (hf : xs.length < fuel) : walk h hd fuel (h.next hd) = some xs :=
  walk_path h hd xs hd _ fuel hl.1 hl.2.1 (List.nodup_cons.mp hl.2.2).1 hf

theorem range32_eq : List.range cfg32.NUM_STA = 0 :: (List.range 32).tail := by decide

/-- The first allocation in the fresh 32-record pool. -/
theorem pool32_A_spec :
    rtw_alloc_stainfo cfg32 pool32 addrA = some (pool32_A, some 0) ∧
    Shape cfg32 pool32_A (List.range 32).tail
      (upd (fun _ => []) (cfg32.wifi_mac_hash addrA) [0]) ∧
    Part cfg32 (List.range 32).tail (upd (fun _ => []) (cfg32.wifi_mac_hash addrA) [0]) := by
  have hs : Shape cfg32 pool32 (0 :: (List.range 32).tail) (fun _ => []) := by
    rw [← range32_eq]; exact init_shape cfg32 blank
  have hp : Part cfg32 (0 :: (List.range 32).tail) (fun _ => []) :=
    fun _ _ _ _ h => by simp at h
  have hidx : cfg32.wifi_mac_hash addrA < cfg32.NUM_STA := by decide
  have h1 := alloc_nonempty hs.links addrA
  have h2 := hs.alloc_ok (hp 0 (List.mem_cons_self _ _)) addrA hidx
  exact ⟨h1, h2, hp.push (free_nodup hs.links)⟩

theorem pool32_A_live : Live cfg32 pool32_A 0 :=
  ⟨_, _, pool32_A_spec.2.1, cfg32.wifi_mac_hash addrA, by decide, by simp [upd]⟩

theorem cfg32_hash_lt (a : Addr) : cfg32.wifi_mac_hash a < cfg32.NUM_STA := by
  show wifi_mac_hash32 a < 32
  unfold wifi_mac_hash32
  exact Nat.lt_succ_of_le Nat.and_le_right

theorem range32_tail_eq : (List.range 32).tail = 1 :: (List.range 32).tail.tail := by decide

/-- The pool `pool32_bc_A` is well formed. -/
theorem pool32_bc_A_wf :
    ∃ fl bk, Shape cfg32 pool32_bc_A fl bk ∧ Part cfg32 fl bk := by
  have hs : Shape cfg32 pool32 (0 :: (List.range 32).tail) (fun _ => []) := by
    rw [← range32_eq]; exact init_shape cfg32 blank
  have hp : Part cfg32 (0 :: (List.range 32).tail) (fun _ => []) :=
    fun _ _ _ _ h => by simp at h
  have h2 := hs.alloc_ok (hp 0 (List.mem_cons_self _ _)) bc_addr (cfg32_hash_lt _)
  have hp2 := hp.push (j := cfg32.wifi_mac_hash bc_addr) (free_nodup hs.links)
  rw [range32_tail_eq] at h2 hp2
  have h3 := h2.alloc_ok (hp2 1 (List.mem_cons_self _ _)) addrA (cfg32_hash_lt _)
  exact ⟨_, _, h3, hp2.push (free_nodup h2.links)⟩

/-- The fresh 32-record pool after the allocations of `addrA` (record 0) and
`addrB` (record 1) is reachable with allocations of fresh addresses, and both
records are live. -/
theorem pool32_A_B_reach :
    ∃ s, rtw_alloc_stainfo cfg32 pool32_A addrB = some (s, some 1) ∧ ReachU cfg32 s ∧
      Live cfg32 s 0 ∧ Live cfg32 s 1 := by
  have hs : Shape cfg32 pool32 (0 :: (List.range 32).tail) (fun _ => []) := by
    rw [← range32_eq]; exact init_shape cfg32 blank
  have hA := pool32_A_spec
  have hsA := hA.2.1
  have hpA := hA.2.2
  rw [range32_tail_eq] at hsA hpA
  obtain ⟨s, h1, h2, _, h4, h5, _⟩ := alloc_ok_spec hsA hpA addrB (cfg32_hash_lt _)
  have hr0 : ReachU cfg32 pool32 := ReachU.init blank
  have hrA : ReachU cfg32 pool32_A := by
    refine ReachU.alloc addrA (some 0) hr0 ?_ hA.1
    rintro r ⟨fl, bk, hs', i, hi, hri⟩
    rw [← (Shape.shape_unique hs hs').2 i hi] at hri
    simp at hri
  have hrB : ReachU cfg32 s := by
    refine ReachU.alloc addrB (some 1) hrA ?_ h1
    rintro r ⟨fl, bk, hs', i, hi, hri⟩
    rw [← (Shape.shape_unique hA.2.1 hs').2 i hi] at hri
    have hr : r = 0 := by
      unfold upd at hri
      split_ifs at hri <;> simp at hri
      exact hri
    subst hr
    have : (pool32_A.sta 0).hwaddr = addrA := by
      have := alloc_body_ok cfg32 pool32 addrA 0 (cfg32_hash_lt _)
      unfold pool32_A
      rw [this]
      simp [upd, fresh_sta]
    rw [this]
    decide
  refine ⟨s, h1, hrB, ⟨_, _, h2, cfg32.wifi_mac_hash addrA, cfg32_hash_lt _, ?_⟩,
    ⟨_, _, h2, cfg32.wifi_mac_hash addrB, cfg32_hash_lt _, ?_⟩⟩
  · have e : cfg32.wifi_mac_hash addrA ≠ cfg32.wifi_mac_hash addrB := by decide
    rw [upd_other _ _ _ _ e, upd_same]
    simp
  · rw [upd_same]
    simp

/-- The membership lists of `pool32_A` are empty. -/
theorem pool32_A_mshape : MShape cfg32 pool32_A.links [] [] := by
  have hs : Shape cfg32 pool32 (0 :: (List.range 32).tail) (fun _ => []) := by
    rw [← range32_eq]; exact init_shape cfg32 blank
  have hm : MShape cfg32 pool32.links [] [] := init_mshape cfg32 blank
  have h := (hm.alloc_links hs.links (fun _ _ h => by simp at h) (by simp) (by simp)
    (cfg32_hash_lt addrA)).2
  have e : pool32_A.links = list_add_tail (alloc_links0 pool32.links 0) (.hash_list 0)
      (.sta_hash (cfg32.wifi_mac_hash addrA)) := by
    unfold pool32_A
    rw [alloc_body_ok cfg32 pool32 addrA 0 (cfg32_hash_lt addrA)]
  rw [e]
  exact h

/-- The pool `pool32_A_aid1` is well formed, with record 0 live. -/
theorem pool32_A_aid1_shape :
    Shape cfg32 pool32_A_aid1 (List.range 32).tail
      (upd (fun _ => []) (cfg32.wifi_mac_hash addrA) [0]) := by
  have hs := pool32_A_spec.2.1
  refine ⟨hs.links, ?_⟩
  intro i hi r hr t ht
  have := hs.queues i hi r hr t ht
  by_cases e : r = 0
  · subst e
    simpa [pool32_A_aid1, upd] using this
  · simpa [pool32_A_aid1, upd, e] using this

/-- The pool `pool32_A_auth` is well formed, with record 0 live and alone on
the authentication-pending list. -/
theorem pool32_A_auth_spec :
    Shape cfg32 pool32_A_auth (List.range 32).tail
      (upd (fun _ => []) (cfg32.wifi_mac_hash addrA) [0]) ∧
    MShape cfg32 pool32_A_auth.links [0] [] ∧
    pool32_A_auth.auth_list_cnt = 1 := by
  have hs := pool32_A_spec.2.1
  obtain ⟨h1, h2, h3⟩ := pool32_A_mshape.push_auth (r := 0) hs.links.closed (by simp)
  refine ⟨hs.shape_links pool32_A_auth rfl h2 h3, h1, ?_⟩
  decide

/-- The pool `pool32_A_asoc` is well formed, with record 0 live and alone on
the associated list. -/
theorem pool32_A_asoc_spec :
    Shape cfg32 pool32_A_asoc (List.range 32).tail
      (upd (fun _ => []) (cfg32.wifi_mac_hash addrA) [0]) ∧
    MShape cfg32 pool32_A_asoc.links [] [0] ∧
    pool32_A_asoc.asoc_list_cnt = 1 := by
  have hs := pool32_A_spec.2.1
  obtain ⟨h1, h2, h3⟩ := pool32_A_mshape.push_asoc (r := 0) hs.links.closed (by simp)
  refine ⟨hs.shape_links pool32_A_asoc rfl h2 h3, h1, ?_⟩
  decide

/-- C1 (capacity): starting from the pool left by a successful
`_rtw_init_sta_priv`, after `NUM_STA` calls of `rtw_alloc_stainfo` that all
returned a record, the next `rtw_alloc_stainfo` returns NULL for every address
and leaves the pool as it is; every returned record is live, and after
`rtw_free_stainfo` of any live record the next `rtw_alloc_stainfo` returns a
record, for every address whose bucket index is in range. -/
theorem C1_capacity (c : Cfg) (s0 : sta_priv) (addrs : List Addr) (s : sta_priv)
    (rs : List (Option Nat)) (hlen : addrs.length = c.NUM_STA)
    (hrun : alloc_many c (init_pool c s0) addrs = some (s, rs))
    (hok : ∀ x, x ∈ rs → x ≠ none) :
    (∀ a, rtw_alloc_stainfo c s a = some (s, none)) ∧
    (∀ r, some r ∈ rs → Live c s r) ∧
    (∀ r, Live c s r →
      ∃ s', rtw_free_stainfo c s (some r) = some (s', Status._SUCCESS) ∧
        ∀ a, c.wifi_mac_hash a < c.NUM_STA →
          ∃ s'' r', rtw_alloc_stainfo c s' a = some (s'', some r')) := by
  obtain ⟨fl, bk, hs, hp, hl, hlive, _⟩ :=
    alloc_many_spec c addrs _ s _ _ rs (init_shape c s0) (fun _ _ _ _ h => by simp at h) hrun hok
  have hfl : fl = [] := by
    apply List.eq_nil_of_length_eq_zero
    simp only [List.length_range] at hl
    omega
  subst hfl
  refine ⟨fun a => alloc_empty hs.links a, fun r hr => ⟨_, _, hs, hlive r hr⟩, ?_⟩
  rintro r ⟨fl', bk', hs', i, hi, hri⟩
  rw [← (Shape.shape_unique hs hs').2 i hi] at hri
  obtain ⟨s', h1, h2, h3, _⟩ := free_live_spec hs hp hi hri
  refine ⟨s', h1, ?_⟩
  intro a ha
  obtain ⟨s'', g1, _⟩ := @alloc_ok_spec c s' r [] _ h2 h3 a ha
  exact ⟨s'', r, g1⟩

set_option maxRecDepth 1000000 in
/-- Witness of C1: thirty-two allocations in the fresh 32-record pool. -/
theorem C1_capacity_witness :
    ∃ s rs, alloc_many cfg32 pool32 addrs32 = some (s, rs) ∧
      ∀ a, rtw_alloc_stainfo cfg32 s a = some (s, none) := by
  have h : (alloc_many cfg32 pool32 addrs32).map (·.2) = some ((List.range 32).map some) := by
    decide
  cases hm : alloc_many cfg32 pool32 addrs32 with
  | none => rw [hm] at h; cases h
  | some x =>
    obtain ⟨s, rs⟩ := x
    rw [hm] at h
    simp only [Option.map_some', Option.some.injEq] at h
    have hok : ∀ x, x ∈ rs → x ≠ none := by
      intro x hx
      rw [h] at hx
      obtain ⟨_, _, e⟩ := List.mem_map.mp hx
      exact e ▸ (by simp)
    exact ⟨s, rs, rfl, (C1_capacity cfg32 blank addrs32 s rs (by decide) hm hok).1⟩

set_option maxRecDepth 100000 in
/-- C2, counterexample: in the fresh 32-record pool two calls of
`rtw_alloc_stainfo(addrA)` return the records 0 and 1; after the second call
`rtw_get_stainfo(addrA)` returns record 0, not record 1, and it still returns
record 0 after `rtw_free_stainfo` of record 1.  And in the fresh pool
`rtw_alloc_stainfo(addrM)` for the group address `addrM` returns record 0, yet
`rtw_get_stainfo(addrM)` returns NULL. -/
theorem C2_counterexample :
    twice_allocated.map (·.2) = some (some 0, some 1) ∧
    twice_allocated.bind (fun x => rtw_get_stainfo cfg32 33 x.1 (some addrA))
      = some (some 0) ∧
    twice_allocated.bind
      (fun x => (rtw_free_stainfo cfg32 x.1 (some 1)).bind
        (fun y => rtw_get_stainfo cfg32 33 y.1 (some addrA))) = some (some 0) ∧
    (rtw_alloc_stainfo cfg32 pool32 addrM).map (·.2) = some (some 0) ∧
    (rtw_alloc_stainfo cfg32 pool32 addrM).bind
      (fun x => rtw_get_stainfo cfg32 33 x.1 (some addrM)) = some none := by
  decide

/-- C2, amended (round trip): in a well-formed pool, for an address `addr`
that is its own lookup key (not a group address other than the all-ones
address) and for which `rtw_get_stainfo` returns NULL, if
`rtw_alloc_stainfo(addr)` returns the record `r` then `rtw_get_stainfo(addr)`
returns `r`, it keeps returning `r` after any further allocations and any
releases of other live records, and after `rtw_free_stainfo(r)` it returns
NULL. -/
theorem C2_round_trip (c : Cfg) (s : sta_priv) (addr : Addr) (fl : List Nat)
    (bk : Nat → List Nat) (fuel : Nat) (hs : Shape c s fl bk) (hp : Part c fl bk)
    (hn : norm_addr addr = addr) (hf : c.NUM_STA < fuel)
    (hnew : rtw_get_stainfo c fuel s (some addr) = some none)
    (s' : sta_priv) (r : Nat) (ha : rtw_alloc_stainfo c s addr = some (s', some r)) :
    rtw_get_stainfo c fuel s' (some addr) = some (some r) ∧
    (∀ t, Others c r s' t → rtw_get_stainfo c fuel t (some addr) = some (some r)) ∧
    (∃ s'', rtw_free_stainfo c s' (some r) = some (s'', Status._SUCCESS) ∧
      rtw_get_stainfo c fuel s'' (some addr) = some none) := by
  have hidx : c.wifi_mac_hash addr < c.NUM_STA := by
    by_contra hcon
    rw [rtw_get_stainfo_some, hn, if_neg hcon] at hnew
    cases hnew
  have hidx' : c.wifi_mac_hash (norm_addr addr) < c.NUM_STA := by rw [hn]; exact hidx
  -- the lookup in a well-formed pool
  have hget : ∀ (t : sta_priv) (fl' : List Nat) (bk' : Nat → List Nat), Shape c t fl' bk' →
      rtw_get_stainfo c fuel t (some addr) =
        some (first_match t addr (bk' (c.wifi_mac_hash addr))) := by
    intro t fl' bk' ht
    have := get_stainfo_shape ht.links addr hidx' fuel
      (lt_of_le_of_lt (bucket_length_le ht.links hidx') hf)
    rw [hn] at this
    exact this
  have hnone : first_match s addr (bk (c.wifi_mac_hash addr)) = none := by
    have := hget s fl bk hs
    rw [hnew] at this
    injection this with this
    exact this.symm
  cases fl with
  | nil =>
    rw [alloc_empty hs.links addr] at ha
    injection ha with ha
    injection ha with _ e2
    cases e2
  | cons q rest =>
    have hq : ∀ i, i < c.NUM_STA → q ∉ bk i := hp q (List.mem_cons_self _ _)
    obtain ⟨s1, h1, h2, h3, h4, h5, _⟩ := alloc_ok_spec hs hp addr hidx
    rw [h1] at ha
    injection ha with ha
    injection ha with e1 e2
    injection e2 with e2
    subst e1; subst e2
    have hold : first_match s1 addr (bk (c.wifi_mac_hash addr)) = none := by
      rw [first_match_congr (s := s)]
      · exact hnone
      · intro x hx
        rw [h5 x (fun e => hq _ hidx (e ▸ hx))]
    have hfirst : first_match s1 addr
        (upd bk (c.wifi_mac_hash addr) (bk (c.wifi_mac_hash addr) ++ [q]) (c.wifi_mac_hash addr))
        = some q := by
      rw [upd_same, first_match_append_none hold]
      simp [first_match, h4, fresh_sta]
    refine ⟨?_, ?_, ?_⟩
    · rw [hget s1 _ _ h2, hfirst]
    · intro t ho
      obtain ⟨fl', bk', ht, _, hm⟩ := first_match_kept hidx ho ⟨_, _, h2, h3, hfirst⟩
      rw [hget t _ _ ht, hm]
    · have hmem : q ∈ upd bk (c.wifi_mac_hash addr) (bk (c.wifi_mac_hash addr) ++ [q])
          (c.wifi_mac_hash addr) := by
        rw [upd_same]; simp
      obtain ⟨s2, g1, g2, _, g4, _⟩ := free_live_spec h2 h3 hidx hmem
      refine ⟨s2, g1, ?_⟩
      rw [hget s2 _ _ g2, upd_same, upd_same, List.erase_append_right _ (hq _ hidx)]
      simp only [List.erase_cons_head, List.append_nil]
      rw [first_match_congr (s := s1) (fun x _ => g4 x)]
      exact congrArg some hold

set_option maxRecDepth 100000 in
/-- Witness of the amended C2: allocating `addrA` in the fresh 32-record
pool. -/
theorem C2_round_trip_witness :
    rtw_get_stainfo cfg32 33 pool32 (some addrA) = some none ∧
    rtw_alloc_stainfo cfg32 pool32 addrA = some (pool32_A, some 0) ∧
    rtw_get_stainfo cfg32 33 pool32_A (some addrA) = some (some 0) :=
  ⟨by decide, pool32_A_spec.1,
    (C2_round_trip cfg32 pool32 addrA (List.range cfg32.NUM_STA) (fun _ => []) 33
      (init_shape cfg32 blank) (fun _ _ _ _ h => by simp at h) (by decide) (by decide)
      (by decide) pool32_A 0 pool32_A_spec.1).1⟩

set_option maxRecDepth 100000 in
/-- C3, counterexample: in the fresh 32-record pool two calls of
`rtw_alloc_stainfo(addrA)` return the records 0 and 1; afterwards the bucket
of `addrA` holds the records 0 and 1, `rtw_get_stainfo(addrA)` finds record 0,
and both records have the hardware address `addrA`. -/
theorem C3_counterexample :
    twice_allocated.map
      (fun x => (x.2, bucket_view 33 x.1 (cfg32.wifi_mac_hash addrA),
        rtw_get_stainfo cfg32 33 x.1 (some addrA), (x.1.sta 0).hwaddr, (x.1.sta 1).hwaddr))
      = some ((some 0, some 1), some [Node.hash_list 0, Node.hash_list 1],
          some (some 0), addrA, addrA) := by
  decide

/-- C3, amended (uniqueness): in every pool reachable from initialisation by
calls of `rtw_alloc_stainfo` for addresses that no live record holds and calls
of `rtw_free_stainfo` on live records, two distinct live records never have
the same hardware address, and never the same nonzero association ID. -/
theorem C3_uniqueness (c : Cfg) (s : sta_priv) (hr : ReachU c s) (r q : Nat)
    (hlr : Live c s r) (hlq : Live c s q) (hne : r ≠ q) :
    (s.sta r).hwaddr ≠ (s.sta q).hwaddr ∧
    ¬ ((s.sta r).aid = (s.sta q).aid ∧ (s.sta r).aid ≠ 0) := by
  obtain ⟨fl, bk, hs, _, hu, haid⟩ := reachU_inv hr
  obtain ⟨fl1, bk1, hs1, i, hi, hri⟩ := hlr
  obtain ⟨fl2, bk2, hs2, j, hj, hqj⟩ := hlq
  rw [← (Shape.shape_unique hs hs1).2 i hi] at hri
  rw [← (Shape.shape_unique hs hs2).2 j hj] at hqj
  constructor
  · exact fun e => hne (hu i j r q hi hj hri hqj e)
  · rintro ⟨_, h0⟩
    exact h0 (haid r (hs.links.hash_lt i hi r hri))

/-- Witness of the amended C3: the records 0 and 1 holding `addrA` and
`addrB`. -/
theorem C3_uniqueness_witness :
    ∃ s, rtw_alloc_stainfo cfg32 pool32_A addrB = some (s, some 1) ∧
      (s.sta 0).hwaddr ≠ (s.sta 1).hwaddr := by
  obtain ⟨s, h1, h2, h3, h4⟩ := pool32_A_B_reach
  exact ⟨s, h1, (C3_uniqueness cfg32 s h2 0 1 h3 h4 (by decide)).1⟩

set_option maxRecDepth 1000000 in
/-- C4, counterexample: in the fresh 32-record pool thirty-two allocations
hand out the records 0 to 31; after two calls of `rtw_free_stainfo` on record
0 and one more allocation (of `addrA`, which returns record 0), record 0 is
the first cell of the free queue and is held in the bucket of `addrA` at the
same time. -/
theorem C4_counterexample :
    (alloc_many cfg32 pool32 addrs32).map (·.2) = some ((List.range 32).map some) ∧
    corrupted.map (fun s =>
      (s.links.next .free_sta_queue,
        (bucket_view 64 s (cfg32.wifi_mac_hash addrA)).map
          (fun l => decide (Node.hash_list 0 ∈ l))))
      = some (Node.list 0, some true) := by
  decide

/-- C4, amended (pool partition): provided `wifi_mac_hash` maps every address
to a bucket index, after `_rtw_init_sta_priv` and after every subsequent
`rtw_alloc_stainfo`, `rtw_free_stainfo` on a live record and
`rtw_free_all_stainfo`, the pool is well formed and each of the `NUM_STA`
records is either on the free queue and in no bucket, or not on the free queue
and in exactly one bucket. -/
theorem C4_partition (c : Cfg) (hall : ∀ a, c.wifi_mac_hash a < c.NUM_STA) (s : sta_priv)
    (hr : Reach c s) :
    ∃ fl bk, Shape c s fl bk ∧
      ∀ r, r < c.NUM_STA →
        (r ∈ fl ∧ ∀ i, i < c.NUM_STA → r ∉ bk i) ∨
        (r ∉ fl ∧ ∃ i, i < c.NUM_STA ∧ r ∈ bk i ∧ ∀ j, j < c.NUM_STA → r ∈ bk j → j = i) := by
  obtain ⟨fl, bk, hs, hp, hc, _⟩ := reach_inv hall hr
  refine ⟨fl, bk, hs, ?_⟩
  intro r hlt
  rcases hc r hlt with hm | ⟨i, hi, hm⟩
  · exact Or.inl ⟨hm, hp r hm⟩
  · refine Or.inr ⟨fun h => hp r h i hi hm, i, hi, hm, ?_⟩
    intro j hj hmj
    by_contra e
    exact hs.links.bk_disj i j hi hj (Ne.symm e) r hm hmj

/-- Witness of the amended C4: the pool after one allocation. -/
theorem C4_partition_witness :
    Reach cfg32 pool32_A ∧
    ∃ fl bk, Shape cfg32 pool32_A fl bk ∧
      ∀ r, r < cfg32.NUM_STA →
        (r ∈ fl ∧ ∀ i, i < cfg32.NUM_STA → r ∉ bk i) ∨
        (r ∉ fl ∧ ∃ i, i < cfg32.NUM_STA ∧ r ∈ bk i ∧
          ∀ j, j < cfg32.NUM_STA → r ∈ bk j → j = i) :=
  ⟨Reach.alloc addrA (some 0) (Reach.init blank) pool32_A_spec.1,
    C4_partition cfg32 cfg32_hash_lt pool32_A
      (Reach.alloc addrA (some 0) (Reach.init blank) pool32_A_spec.1)⟩

set_option maxRecDepth 100000 in
/-- C5, counterexample: in the fresh 32-record pool `rtw_alloc_stainfo(addrA)`
hands out record 0; after `rtw_free_stainfo` has released it, record 0 is on
the free queue and `asoc_sta_count` is 0; a second `rtw_free_stainfo` on
record 0 returns but leaves `asoc_sta_count` at -1, and following the free
queue for 64 steps no longer leads back to its head. -/
theorem C5_counterexample :
    (rtw_alloc_stainfo cfg32 pool32 addrA).map (·.2) = some (some 0) ∧
    once_released.map (fun s => (free_queue_view 33 s).map (fun l => decide (Node.list 0 ∈ l)))
      = some (some true) ∧
    once_released.map (fun s => s.asoc_sta_count) = some 0 ∧
    twice_released.map (fun s => s.asoc_sta_count) = some (-1) ∧
    twice_released.map (fun s => free_queue_view 64 s) = some none := by
  decide

/-- C5, amended: `rtw_free_stainfo` with a NULL handle returns `_SUCCESS` and
leaves the pool unchanged; with a record, whatever list the record is on,
every call that returns gives `_SUCCESS` and has lowered `asoc_sta_count` by
one, so it is not a no-op. -/
theorem C5_release_null_noop (c : Cfg) (s : sta_priv) :
    rtw_free_stainfo c s none = some (s, Status._SUCCESS) ∧
    (∀ r s' st, rtw_free_stainfo c s (some r) = some (s', st) →
      st = Status._SUCCESS ∧ s'.asoc_sta_count = s.asoc_sta_count - 1) := by
  refine ⟨rfl, ?_⟩
  intro r s' st h
  unfold rtw_free_stainfo at h
  simp only at h
  split at h
  · cases h
  · injection h with h
    injection h with h1 h2
    subst h1; subst h2
    exact ⟨rfl, by rw [free_tail_asoc_sta_count]⟩

/-- Witness of the amended C5: releasing the live record 0 of `pool32_A`. -/
theorem C5_release_null_noop_witness :
    ∃ s', rtw_free_stainfo cfg32 pool32_A (some 0) = some (s', Status._SUCCESS) ∧
      s'.asoc_sta_count = pool32_A.asoc_sta_count - 1 := by
  obtain ⟨s', h, _⟩ := free_live_spec pool32_A_spec.2.1 pool32_A_spec.2.2
    (i := cfg32.wifi_mac_hash addrA) (r := 0) (by decide) (by simp [upd])
  exact ⟨s', h, ((C5_release_null_noop cfg32 pool32_A).2 0 s' _ h).2⟩

/-- C6 (allocate postcondition): in a well-formed pool (free queue `fl`,
buckets `bk`, no free record in a bucket) `rtw_alloc_stainfo` returns, and it
returns NULL exactly when the free queue is empty or the bucket index of the
address is `>= NUM_STA`; otherwise it returns the first record of the free
queue, the free queue is left with the remaining records, the record has the
address, it is appended to the bucket of the address, and `asoc_sta_count`
has grown by one. -/
theorem C6_alloc_postcondition (c : Cfg) (s : sta_priv) (addr : Addr) (fl : List Nat)
    (bk : Nat → List Nat) (hs : Shape c s fl bk) (hp : Part c fl bk) :
    ∃ s' res, rtw_alloc_stainfo c s addr = some (s', res) ∧
      (res = none ↔ fl = [] ∨ c.NUM_STA ≤ c.wifi_mac_hash addr) ∧
      (∀ r rest, fl = r :: rest → c.wifi_mac_hash addr < c.NUM_STA →
        res = some r ∧
        Shape c s' rest (upd bk (c.wifi_mac_hash addr) (bk (c.wifi_mac_hash addr) ++ [r])) ∧
        (s'.sta r).hwaddr = addr ∧
        s'.asoc_sta_count = s.asoc_sta_count + 1) := by
  cases fl with
  | nil =>
    refine ⟨s, none, alloc_empty hs.links addr, by simp, ?_⟩
    intro r rest h; cases h
  | cons r rest =>
    by_cases hidx : c.wifi_mac_hash addr < c.NUM_STA
    · obtain ⟨s', h1, h2, _, h4, _, h6⟩ := alloc_ok_spec hs hp addr hidx
      refine ⟨s', some r, h1, by simp [Nat.not_le.mpr hidx], ?_⟩
      intro r' rest' h _
      injection h with e1 e2
      subst e1; subst e2
      exact ⟨rfl, h2, by rw [h4]; rfl, h6⟩
    · have hge : c.NUM_STA ≤ c.wifi_mac_hash addr := Nat.le_of_not_lt hidx
      obtain ⟨s', h1, _⟩ := alloc_fail_spec hs hp addr hge
      refine ⟨s', none, h1, by simp [hge], ?_⟩
      intro r' rest' _ h
      exact absurd h hidx

/-- Witness of C6 on the fresh 32-record pool. -/
theorem C6_alloc_postcondition_witness :
    Shape cfg32 pool32 (List.range cfg32.NUM_STA) (fun _ => []) ∧
    Part cfg32 (List.range cfg32.NUM_STA) (fun _ => []) ∧
    ∃ s' res, rtw_alloc_stainfo cfg32 pool32 addrA = some (s', res) ∧
      (res = none ↔ List.range cfg32.NUM_STA = [] ∨ cfg32.NUM_STA ≤ cfg32.wifi_mac_hash addrA) ∧
      (∀ r rest, List.range cfg32.NUM_STA = r :: rest →
        cfg32.wifi_mac_hash addrA < cfg32.NUM_STA →
        res = some r ∧
        Shape cfg32 s' rest
          (upd (fun _ => []) (cfg32.wifi_mac_hash addrA)
            ((fun _ => []) (cfg32.wifi_mac_hash addrA) ++ [r])) ∧
        (s'.sta r).hwaddr = addrA ∧
        s'.asoc_sta_count = pool32.asoc_sta_count + 1) :=
  ⟨init_shape cfg32 blank, fun _ _ _ _ h => by simp at h,
    C6_alloc_postcondition cfg32 pool32 addrA (List.range cfg32.NUM_STA) (fun _ => [])
      (init_shape cfg32 blank) (fun _ _ _ _ h => by simp at h)⟩

/-- C7 (multicast normalization): for every pool, every fuel and every
hardware address whose group bit is set, `rtw_get_stainfo` gives the result it
gives for the all-ones address, which is the result of `rtw_get_bcmc_stainfo`;
in a well-formed pool whose broadcast bucket index is in range this result is
defined as soon as the fuel exceeds the length of that bucket. -/
theorem C7_multicast_normalization (c : Cfg) (fuel : Nat) (s : sta_priv) (addr : Addr)
    (hm : IS_MCAST addr = true) :
    rtw_get_stainfo c fuel s (some addr) = rtw_get_stainfo c fuel s (some bc_addr) ∧
    rtw_get_stainfo c fuel s (some addr) = rtw_get_bcmc_stainfo c fuel s ∧
    (∀ fl bk, Shape c s fl bk → c.wifi_mac_hash bc_addr < c.NUM_STA →
      (bk (c.wifi_mac_hash bc_addr)).length < fuel →
      rtw_get_stainfo c fuel s (some addr) =
        some (first_match s bc_addr (bk (c.wifi_mac_hash bc_addr)))) := by
  have h1 : rtw_get_stainfo c fuel s (some addr) = rtw_get_stainfo c fuel s (some bc_addr) := by
    rw [get_stainfo_norm, norm_addr_mcast addr hm]
  refine ⟨h1, h1, ?_⟩
  intro fl bk hs hidx hf
  rw [h1]
  have := get_stainfo_shape hs.links bc_addr (by rw [norm_addr_bc]; exact hidx) fuel
    (by rw [norm_addr_bc]; exact hf)
  rw [norm_addr_bc] at this
  exact this

/-- Witness of C7 on the fresh 32-record pool and a group address. -/
theorem C7_multicast_normalization_witness :
    IS_MCAST addrM = true ∧
    rtw_get_stainfo cfg32 33 pool32 (some addrM) = rtw_get_stainfo cfg32 33 pool32 (some bc_addr) :=
  ⟨by decide, (C7_multicast_normalization cfg32 33 pool32 addrM (by decide)).1⟩

set_option maxRecDepth 1000000 in
/-- C8, counterexample: in the 32-record pool, after thirty-two allocations,
two calls of `rtw_free_stainfo` on record 0 and the allocation of `addrA`,
`rtw_get_stainfo(addrA)` returns record 0 although record 0 is still the first
cell of the free queue: the next `rtw_alloc_stainfo` hands out record 0
again. -/
theorem C8_counterexample :
    corrupted.bind (fun s => rtw_get_stainfo cfg32 64 s (some addrA)) = some (some 0) ∧
    corrupted.map (fun s => list_empty s.links .free_sta_queue) = some false ∧
    corrupted.bind (fun s => (rtw_alloc_stainfo cfg32 s addrB).map (·.2)) = some (some 0) := by
  decide

/-- C8, amended (lookup soundness and completeness): provided `wifi_mac_hash`
maps every address to a bucket index, in every pool reachable from
initialisation by allocations, releases of live records and bulk releases,
`rtw_get_stainfo` returns NULL for a NULL address; for an address with lookup
key `a` it returns the first record of bucket `wifi_mac_hash(a)` whose
hardware address is `a`; a record it returns is live, not on the free queue
and has the address `a`; and it returns NULL exactly when no live record has
the hardware address `a`. -/
theorem C8_lookup (c : Cfg) (hall : ∀ a, c.wifi_mac_hash a < c.NUM_STA) (s : sta_priv)
    (hr : Reach c s) (fuel : Nat) (hf : c.NUM_STA < fuel) :
    rtw_get_stainfo c fuel s none = some none ∧
    ∃ fl bk, Shape c s fl bk ∧ ∀ addr : Addr,
      rtw_get_stainfo c fuel s (some addr) =
        some (first_match s (norm_addr addr) (bk (c.wifi_mac_hash (norm_addr addr)))) ∧
      (∀ r, rtw_get_stainfo c fuel s (some addr) = some (some r) →
        Live c s r ∧ r ∉ fl ∧ (s.sta r).hwaddr = norm_addr addr) ∧
      (rtw_get_stainfo c fuel s (some addr) = some none ↔
        ∀ r, Live c s r → (s.sta r).hwaddr ≠ norm_addr addr) := by
  obtain ⟨fl, bk, hs, hp, _, hh⟩ := reach_inv hall hr
  refine ⟨rfl, fl, bk, hs, ?_⟩
  intro addr
  have hidx := hall (norm_addr addr)
  have hget := get_stainfo_shape hs.links addr hidx fuel
    (lt_of_le_of_lt (bucket_length_le hs.links hidx) hf)
  refine ⟨hget, ?_, ?_⟩
  · intro r hres
    rw [hget] at hres
    injection hres with hres
    obtain ⟨hm, ha⟩ := first_match_some hres
    exact ⟨⟨fl, bk, hs, _, hidx, hm⟩, fun h => hp r h _ hidx hm, ha⟩
  · rw [hget]
    constructor
    · intro hnone
      injection hnone with hnone
      rw [first_match_none] at hnone
      rintro r ⟨fl', bk', hs', i, hi, hri⟩ ha
      rw [← (Shape.shape_unique hs hs').2 i hi] at hri
      have := hh i hi r hri
      rw [ha] at this
      subst this
      exact hnone r hri ha
    · intro hno
      apply congrArg some
      rw [first_match_none]
      intro r hm
      exact hno r ⟨fl, bk, hs, _, hidx, hm⟩

set_option maxRecDepth 100000 in
/-- Witness of the amended C8: the pool after one allocation. -/
theorem C8_lookup_witness :
    Reach cfg32 pool32_A ∧ rtw_get_stainfo cfg32 33 pool32_A none = some none :=
  ⟨Reach.alloc addrA (some 0) (Reach.init blank) pool32_A_spec.1,
    (C8_lookup cfg32 cfg32_hash_lt pool32_A
      (Reach.alloc addrA (some 0) (Reach.init blank) pool32_A_spec.1) 33 (by decide)).1⟩

/-- The scan of the access-control list finds a match exactly when some entry
with the address has its valid flag set. -/
theorem acl_match_iff (mac_addr : Addr) (q : List rtw_wlan_acl_node) :
    acl_match mac_addr q = true ↔ ∃ e, e ∈ q ∧ e.addr = mac_addr ∧ e.valid = true := by
  induction q with
  | nil => simp [acl_match]
  | cons e q ih =>
    have hstep : (∃ x, x ∈ e :: q ∧ x.addr = mac_addr ∧ x.valid = true) ↔
        (e.addr = mac_addr ∧ e.valid = true) ∨
          ∃ x, x ∈ q ∧ x.addr = mac_addr ∧ x.valid = true := by
      constructor
      · rintro ⟨x, hx, h3, h4⟩
        rcases List.mem_cons.mp hx with rfl | hx
        · exact Or.inl ⟨h3, h4⟩
        · exact Or.inr ⟨x, hx, h3, h4⟩
      · rintro (⟨h3, h4⟩ | ⟨x, hx, h3, h4⟩)
        · exact ⟨e, List.mem_cons_self _ _, h3, h4⟩
        · exact ⟨x, List.mem_cons_of_mem _ hx, h3, h4⟩
    rw [hstep, ← ih]
    show (if e.addr = mac_addr then (if e.valid = true then true else acl_match mac_addr q)
      else acl_match mac_addr q) = true ↔ _
    by_cases h1 : e.addr = mac_addr
    · by_cases h2 : e.valid = true
      · rw [if_pos h1, if_pos h2]
        exact ⟨fun _ => Or.inl ⟨h1, h2⟩, fun _ => rfl⟩
      · rw [if_pos h1, if_neg h2]
        exact ⟨fun h => Or.inr h, fun h => h.elim (fun h => absurd h.2 h2) id⟩
    · rw [if_neg h1]
      exact ⟨fun h => Or.inr h, fun h => h.elim (fun h => absurd h.1 h1) id⟩

/-- C9 (access control decision): `rtw_access_ctrl` allows exactly when the
mode is 1 and no entry with the address is valid, or the mode is 2 and some
entry with the address is valid, or the mode is neither 1 nor 2.  In mode 2
with the single entry `⟨A, v⟩`: the check of `A` allows when `v` is set and
denies when `v` is cleared (the entry still being in the list), and the check
of any other address denies. -/
theorem C9_access_ctrl (s : sta_priv) (mac_addr : Addr) :
    (rtw_access_ctrl s mac_addr = true ↔
      (s.acl_list.mode = 1 ∧
          ¬ ∃ e, e ∈ s.acl_list.acl_node_q ∧ e.addr = mac_addr ∧ e.valid = true) ∨
      (s.acl_list.mode = 2 ∧
          ∃ e, e ∈ s.acl_list.acl_node_q ∧ e.addr = mac_addr ∧ e.valid = true) ∨
      (s.acl_list.mode ≠ 1 ∧ s.acl_list.mode ≠ 2)) ∧
    (∀ A B : Addr, ∀ v : Bool, s.acl_list.mode = 2 → s.acl_list.acl_node_q = [⟨A, v⟩] →
      (v = true → rtw_access_ctrl s A = true) ∧
      (v = false → rtw_access_ctrl s A = false) ∧
      (B ≠ A → rtw_access_ctrl s B = false)) := by
  have hiff := acl_match_iff mac_addr s.acl_list.acl_node_q
  constructor
  · unfold rtw_access_ctrl
    by_cases h1 : s.acl_list.mode = 1
    · by_cases hm : acl_match mac_addr s.acl_list.acl_node_q = true
      · simp [h1, hm, hiff.mp hm]
      · have : ¬ ∃ e, e ∈ s.acl_list.acl_node_q ∧ e.addr = mac_addr ∧ e.valid = true :=
          fun h => hm (hiff.mpr h)
        simp [h1, hm, this]
    · by_cases h2 : s.acl_list.mode = 2
      · by_cases hm : acl_match mac_addr s.acl_list.acl_node_q = true
        · simp [h2, hm, hiff.mp hm]
        · have : ¬ ∃ e, e ∈ s.acl_list.acl_node_q ∧ e.addr = mac_addr ∧ e.valid = true :=
            fun h => hm (hiff.mpr h)
          simp [h2, hm, this]
      · simp [h1, h2]
  · intro A B v hmode hq
    unfold rtw_access_ctrl
    refine ⟨?_, ?_, ?_⟩
    · intro hv
      simp [hmode, hq, acl_match, hv]
    · intro hv
      simp [hmode, hq, acl_match, hv]
    · intro hne
      simp [hmode, hq, acl_match, Ne.symm hne]

/-- Witness of C9: mode 2 with one valid entry for `addrA`. -/
theorem C9_access_ctrl_witness :
    rtw_access_ctrl { blank with acl_list := { mode := 2, acl_node_q := [⟨addrA, true⟩] } } addrA
      = true ∧
    rtw_access_ctrl { blank with acl_list := { mode := 2, acl_node_q := [⟨addrA, true⟩] } } addrB
      = false :=
  ⟨((C9_access_ctrl { blank with acl_list := { mode := 2, acl_node_q := [⟨addrA, true⟩] } }
      addrA).2 addrA addrB true rfl rfl).1 rfl,
   ((C9_access_ctrl { blank with acl_list := { mode := 2, acl_node_q := [⟨addrA, true⟩] } }
      addrA).2 addrA addrB true rfl rfl).2.2 (by decide)⟩

/-- C10 (broadcast exclusion): in a well-formed pool in which
`rtw_get_bcmc_stainfo` finds the record `b` for the all-ones address,
`rtw_free_all_stainfo` returns and does not release `b`: afterwards the pool is
well formed, `rtw_get_bcmc_stainfo` finds the same record `b`, and `b` is in the
bucket of the all-ones address and not on the free queue. -/
theorem C10_broadcast_exclusion (c : Cfg) (s : sta_priv) (fl : List Nat)
    (bk : Nat → List Nat) (fuel : Nat) (b : Nat) (hs : Shape c s fl bk) (hp : Part c fl bk)
    (hf : c.NUM_STA < fuel) (hb : rtw_get_bcmc_stainfo c fuel s = some (some b)) :
    ∃ s' fl' bk', rtw_free_all_stainfo c fuel s = some s' ∧ Shape c s' fl' bk' ∧
      rtw_get_bcmc_stainfo c fuel s' = some (some b) ∧
      b ∈ bk' (c.wifi_mac_hash bc_addr) ∧ b ∉ fl' := by
  have hidx : c.wifi_mac_hash bc_addr < c.NUM_STA := by
    by_contra hcon
    have : rtw_get_bcmc_stainfo c fuel s = none := by
      show rtw_get_stainfo c fuel s (some bc_addr) = none
      rw [rtw_get_stainfo_some, norm_addr_bc, if_neg hcon]
    rw [this] at hb
    cases hb
  have hget : ∀ (t : sta_priv) (fl' : List Nat) (bk' : Nat → List Nat), Shape c t fl' bk' →
      rtw_get_bcmc_stainfo c fuel t =
        some (first_match t bc_addr (bk' (c.wifi_mac_hash bc_addr))) := by
    intro t fl' bk' ht
    have := get_stainfo_shape ht.links bc_addr (by rw [norm_addr_bc]; exact hidx) fuel
      (by rw [norm_addr_bc]; exact lt_of_le_of_lt (bucket_length_le ht.links hidx) hf)
    rw [norm_addr_bc] at this
    exact this
  have hfm : first_match s bc_addr (bk (c.wifi_mac_hash bc_addr)) = some b := by
    have := hget s fl bk hs
    rw [hb] at this
    injection this with this
    exact this.symm
  obtain ⟨hbm, hba⟩ := first_match_some hfm
  obtain ⟨s', h1, h2, h3⟩ := free_all_spec c s fl bk fuel hs hp hf hidx
  by_cases hcnt : s.asoc_sta_count = 1
  · have e := h2 hcnt
    subst e
    exact ⟨s', fl, bk, h1, hs, hb, hbm, fun h => hp b h _ hidx hbm⟩
  · obtain ⟨g1, g2, g3, _⟩ := h3 hcnt
    rw [hfm] at g1 g2
    have hmem : b ∈ swept (some b) bk c.NUM_STA (c.wifi_mac_hash bc_addr) := by
      simp [swept, hidx, skipped, hbm]
    have hall : ∀ x, x ∈ swept (some b) bk c.NUM_STA (c.wifi_mac_hash bc_addr) → x = b := by
      intro x hx
      simp only [swept, hidx, if_true, skipped, List.mem_filter, decide_eq_true_eq] at hx
      injection hx.2 with e
      exact e.symm
    refine ⟨s', _, _, h1, g1, ?_, hmem, fun h => g2 b h _ hidx hmem⟩
    rw [hget s' _ _ g1]
    exact congrArg some (first_match_const hall hmem (by rw [g3 b]; exact hba))

set_option maxRecDepth 100000 in
/-- Witness of C10: the 32-record pool holding the broadcast pseudo-station
(record 0) and one station (record 1). -/
theorem C10_broadcast_exclusion_witness :
    rtw_get_bcmc_stainfo cfg32 33 pool32_bc_A = some (some 0) ∧
    ∃ s' fl' bk', rtw_free_all_stainfo cfg32 33 pool32_bc_A = some s' ∧
      Shape cfg32 s' fl' bk' ∧
      rtw_get_bcmc_stainfo cfg32 33 s' = some (some 0) ∧
      0 ∈ bk' (cfg32.wifi_mac_hash bc_addr) ∧ 0 ∉ fl' := by
  obtain ⟨fl, bk, hs, hp⟩ := pool32_bc_A_wf
  exact ⟨by decide,
    C10_broadcast_exclusion cfg32 pool32_bc_A fl bk 33 0 hs hp (by decide) (by decide)⟩

/-- C11 (teardown safety): in a well-formed pool (free queue `fl`, buckets
`bk`, no free record in a bucket) `rtw_free_stainfo` on a record `r` held in
a bucket returns, and afterwards each of the sixteen reorder controllers of
`r` has an initialised, empty pending queue and a cancelled timer; a following
`rtw_alloc_stainfo`, of the address of `r` or of any other address with a
bucket, hands out a record whose sixteen pending queues are empty.  In every
pool reachable from `_rtw_init_sta_priv` by allocations, releases of live
records and bulk releases, every record on the free queue holds no frame in
any of its sixteen pending queues (the queue is an initialised empty list, or
still zero-filled as the initialisation left it) and has no armed timer. -/
theorem C11_teardown_safety (c : Cfg) (s : sta_priv) (fl : List Nat) (bk : Nat → List Nat)
    (i r : Nat) (hs : Shape c s fl bk) (hp : Part c fl bk) (hi : i < c.NUM_STA)
    (hr : r ∈ bk i) :
    (∃ s', rtw_free_stainfo c s (some r) = some (s', Status._SUCCESS) ∧
      (∀ t, t < 16 →
        ((s'.sta r).recvreorder_ctrl t).pending_recvframe_queue = some [] ∧
        ((s'.sta r).recvreorder_ctrl t).reordering_ctrl_timer = false) ∧
      (∀ a, c.wifi_mac_hash a < c.NUM_STA →
        ∃ s'' r', rtw_alloc_stainfo c s' a = some (s'', some r') ∧
          ∀ t, t < 16 →
            ((s''.sta r').recvreorder_ctrl t).pending_recvframe_queue = some [])) ∧
    (∀ s0, Reach c s0 →
      ∃ fl0 bk0, Shape c s0 fl0 bk0 ∧ ∀ x, x ∈ fl0 → ∀ t, t < 16 →
        buffered ((s0.sta x).recvreorder_ctrl t) = [] ∧
        ((s0.sta x).recvreorder_ctrl t).reordering_ctrl_timer = false) := by
  constructor
  · obtain ⟨s', h1, h2, h3, _⟩ := free_live_spec hs hp hi hr
    have hf := free_fields (hs.queues i hi r hr) h1
    refine ⟨s', h1, ?_, ?_⟩
    · intro t ht
      rw [hf.2.1 t ht]
      exact ⟨rfl, rfl⟩
    · intro a ha
      cases hfl : fl ++ [r] with
      | nil => simp at hfl
      | cons q rest =>
        rw [hfl] at h2 h3
        obtain ⟨s'', g1, _, _, g4, _⟩ := alloc_ok_spec h2 h3 a ha
        refine ⟨s'', q, g1, ?_⟩
        intro t ht
        rw [g4]
        simp [fresh_sta, alloc_reorder_ctrl, ht]
  · intro s0 h0
    obtain ⟨fl0, bk0, g1, _, g3⟩ := reach_rest h0
    exact ⟨fl0, bk0, g1, g3⟩

/-- Witness of C11: releasing the live record 0 of `pool32_A`, and the free
queue of the fresh pool `pool32`. -/
theorem C11_teardown_safety_witness :
    (∃ s', rtw_free_stainfo cfg32 pool32_A (some 0) = some (s', Status._SUCCESS) ∧
      ∀ t, t < 16 →
        ((s'.sta 0).recvreorder_ctrl t).pending_recvframe_queue = some [] ∧
        ((s'.sta 0).recvreorder_ctrl t).reordering_ctrl_timer = false) ∧
    (∃ fl0 bk0, Shape cfg32 pool32 fl0 bk0 ∧ ∀ x, x ∈ fl0 → ∀ t, t < 16 →
        buffered ((pool32.sta x).recvreorder_ctrl t) = [] ∧
        ((pool32.sta x).recvreorder_ctrl t).reordering_ctrl_timer = false) := by
  have h := C11_teardown_safety cfg32 pool32_A _ _ (cfg32.wifi_mac_hash addrA) 0
    pool32_A_spec.2.1 pool32_A_spec.2.2 (by decide) (by simp [upd])
  obtain ⟨⟨s', h1, h2, _⟩, h3⟩ := h
  exact ⟨⟨s', h1, h2⟩, h3 pool32 (Reach.init blank)⟩

/-- C12 (fresh-session sentinel): whatever the pool and the record held
before, the record `r` returned by a successful `rtw_alloc_stainfo` has, for
each of the sixteen TIDs, `tid_rxseq = 0xffff` and a reorder controller with
`enable = false`, `indicate_seq = 0xffff`, `wend_b = 0xffff` and
`wsize_b = 64`, and it has `RxMgmtFrameSeqNum = 0xffff`. -/
theorem C12_fresh_sentinel (c : Cfg) (s s' : sta_priv) (a : Addr) (r : Nat)
    (h : rtw_alloc_stainfo c s a = some (s', some r)) :
    (∀ t, t < 16 →
      (s'.sta r).tid_rxseq t = 0xffff ∧
      ((s'.sta r).recvreorder_ctrl t).enable = false ∧
      ((s'.sta r).recvreorder_ctrl t).indicate_seq = 0xffff ∧
      ((s'.sta r).recvreorder_ctrl t).wend_b = 0xffff ∧
      ((s'.sta r).recvreorder_ctrl t).wsize_b = 64) ∧
    (s'.sta r).RxMgmtFrameSeqNum = 0xffff := by
  rw [alloc_some_fresh h]
  refine ⟨?_, rfl⟩
  intro t ht
  simp [fresh_sta, alloc_reorder_ctrl, ht]

/-- Witness of C12: the first allocation in the fresh pool `pool32`. -/
theorem C12_fresh_sentinel_witness :
    rtw_alloc_stainfo cfg32 pool32 addrA = some (pool32_A, some 0) ∧
    (pool32_A.sta 0).tid_rxseq 15 = 0xffff ∧
    ((pool32_A.sta 0).recvreorder_ctrl 15).wsize_b = 64 ∧
    (pool32_A.sta 0).RxMgmtFrameSeqNum = 0xffff := by
  have h := C12_fresh_sentinel cfg32 pool32 pool32_A addrA 0 pool32_A_spec.1
  exact ⟨pool32_A_spec.1, (h.1 15 (by decide)).1, (h.1 15 (by decide)).2.2.2.2, h.2⟩

set_option maxRecDepth 100000 in
/-- C13, counterexample: record 0 of `pool32_A_unlisted` is live and has the
association ID 5, and `sta_aid[4]` does not refer to it; after
`rtw_free_stainfo` its association ID is still 5. -/
theorem C13_counterexample :
    (pool32_A_unlisted.sta 0).aid = 5 ∧
    pool32_A_unlisted.sta_aid 4 = none ∧
    bucket_view 33 pool32_A_unlisted 14 = some [.hash_list 0] ∧
    (rtw_free_stainfo cfg32 pool32_A_unlisted (some 0)).map (fun x => (x.1.sta 0).aid)
      = some 5 := by
  decide

/-- C13, amended: in a well-formed pool `rtw_free_stainfo` on a record `r`
held in a bucket returns; it clears the association ID of `r` and the entry
`sta_aid[aid - 1]` exactly when `aid >= 1` and that entry refers to `r`, and
otherwise leaves the ID and the whole table as they were.  So when the table
agrees with the record (the entry `sta_aid[aid - 1]` refers to `r` if
`aid >= 1`, and no other entry does), afterwards the association ID of `r` is
0 and no entry of `sta_aid` refers to `r`. -/
theorem C13_release_clears_aid (c : Cfg) (s : sta_priv) (fl : List Nat)
    (bk : Nat → List Nat) (i r : Nat) (hs : Shape c s fl bk)
    (hi : i < c.NUM_STA) (hr : r ∈ bk i) :
    ∃ s', rtw_free_stainfo c s (some r) = some (s', Status._SUCCESS) ∧
      ((s.sta r).aid > 0 ∧ s.sta_aid ((s.sta r).aid - 1) = some r →
        (s'.sta r).aid = 0 ∧ s'.sta_aid = upd s.sta_aid ((s.sta r).aid - 1) none) ∧
      (¬ ((s.sta r).aid > 0 ∧ s.sta_aid ((s.sta r).aid - 1) = some r) →
        (s'.sta r).aid = (s.sta r).aid ∧ s'.sta_aid = s.sta_aid) ∧
      (((s.sta r).aid > 0 → s.sta_aid ((s.sta r).aid - 1) = some r) →
        (∀ k, s.sta_aid k = some r → (s.sta r).aid = k + 1) →
        (s'.sta r).aid = 0 ∧ ∀ k, s'.sta_aid k ≠ some r) := by
  have h1 := free_eq c s r (hs.queues i hi r hr)
  obtain ⟨_, _, _, _, h5, h6, _⟩ := free_fields (hs.queues i hi r hr) h1
  refine ⟨_, h1, ?_, ?_, ?_⟩
  · intro hc
    rw [h5, h6, if_pos hc, if_pos hc]
    exact ⟨rfl, rfl⟩
  · intro hc
    rw [h5, h6, if_neg hc, if_neg hc]
    exact ⟨rfl, rfl⟩
  · intro hl ha
    by_cases hc : (s.sta r).aid > 0 ∧ s.sta_aid ((s.sta r).aid - 1) = some r
    · rw [h5, h6, if_pos hc, if_pos hc]
      refine ⟨rfl, ?_⟩
      intro k hk
      by_cases e : k = (s.sta r).aid - 1
      · rw [e, upd_same] at hk
        cases hk
      · rw [upd_other _ _ _ _ e] at hk
        have := ha k hk
        omega
    · have h0 : (s.sta r).aid = 0 := by
        by_contra hne
        exact hc ⟨Nat.pos_of_ne_zero hne, hl (Nat.pos_of_ne_zero hne)⟩
      rw [h5, h6, if_neg hc, if_neg hc]
      refine ⟨h0, ?_⟩
      intro k hk
      have := ha k hk
      omega

/-- Witness of the amended C13: releasing record 0 of `pool32_A_aid1`, which
has the association ID 1 and is the record of `sta_aid[0]`. -/
theorem C13_release_clears_aid_witness :
    ∃ s', rtw_free_stainfo cfg32 pool32_A_aid1 (some 0) = some (s', Status._SUCCESS) ∧
      (s'.sta 0).aid = 0 ∧ ∀ k, s'.sta_aid k ≠ some 0 := by
  obtain ⟨s', h1, _, _, h4⟩ := C13_release_clears_aid cfg32 pool32_A_aid1 _ _
    (cfg32.wifi_mac_hash addrA) 0 pool32_A_aid1_shape (by decide)
    (by simp [upd])
  refine ⟨s', h1, h4 (fun _ => by decide) ?_⟩
  intro k hk
  have e : pool32_A_aid1.sta_aid k = upd (fun _ => none) 0 (some 0) k := rfl
  rw [e] at hk
  by_cases hk0 : k = 0
  · subst hk0; decide
  · rw [upd_other _ _ _ _ hk0] at hk
    cases hk

set_option maxRecDepth 100000 in
/-- C14, counterexample: record 0 of `pool32_A_aid1` is live and has the
association ID 1, and bit 0 is set in both bit maps; after `rtw_free_stainfo`
bit 0 is still set in both (the masks went from 3 to 1: the bit cleared is
bit 1). -/
theorem C14_counterexample :
    (pool32_A_aid1.sta 0).aid = 1 ∧
    pool32_A_aid1.sta_dz_bitmap.testBit 0 = true ∧
    pool32_A_aid1.tim_bitmap.testBit 0 = true ∧
    (rtw_free_stainfo cfg32 pool32_A_aid1 (some 0)).map
      (fun x => (x.1.sta_dz_bitmap.testBit 0, x.1.tim_bitmap.testBit 0)) = some (true, true) ∧
    (rtw_free_stainfo cfg32 pool32_A_aid1 (some 0)).map
      (fun x => (x.1.sta_dz_bitmap, x.1.tim_bitmap)) = some (1, 1) := by
  decide

/-- C14, amended: in a well-formed pool `rtw_free_stainfo` on a record `r`
held in a bucket, with association ID `a`, returns, and afterwards bit `a`
(not bit `a - 1`) is clear in `sta_dz_bitmap` and in `tim_bitmap`, whatever
it was before; every other bit of the two bit maps, bit `a - 1` among them
when `a >= 1`, is as it was before. -/
theorem C14_release_clears_bits (c : Cfg) (s : sta_priv) (fl : List Nat)
    (bk : Nat → List Nat) (i r : Nat) (hs : Shape c s fl bk)
    (hi : i < c.NUM_STA) (hr : r ∈ bk i) :
    ∃ s', rtw_free_stainfo c s (some r) = some (s', Status._SUCCESS) ∧
      s'.sta_dz_bitmap.testBit (s.sta r).aid = false ∧
      s'.tim_bitmap.testBit (s.sta r).aid = false ∧
      (∀ k, k ≠ (s.sta r).aid →
        s'.sta_dz_bitmap.testBit k = s.sta_dz_bitmap.testBit k ∧
        s'.tim_bitmap.testBit k = s.tim_bitmap.testBit k) := by
  have h1 := free_eq c s r (hs.queues i hi r hr)
  obtain ⟨_, _, h3, h4, _⟩ := free_fields (hs.queues i hi r hr) h1
  refine ⟨_, h1, ?_, ?_, ?_⟩
  · rw [h3]; exact testBit_clear_bits_self _ _
  · rw [h4]; exact testBit_clear_bits_self _ _
  · intro k hk
    rw [h3, h4]
    exact ⟨testBit_clear_bits_other _ _ _ hk, testBit_clear_bits_other _ _ _ hk⟩

/-- Witness of the amended C14: releasing record 0 of `pool32_A_aid1`, whose
association ID is 1. -/
theorem C14_release_clears_bits_witness :
    ∃ s', rtw_free_stainfo cfg32 pool32_A_aid1 (some 0) = some (s', Status._SUCCESS) ∧
      s'.sta_dz_bitmap.testBit 1 = false ∧ s'.tim_bitmap.testBit 1 = false ∧
      s'.sta_dz_bitmap.testBit 0 = true ∧ s'.tim_bitmap.testBit 0 = true := by
  obtain ⟨s', h1, h2, h3, h4⟩ := C14_release_clears_bits cfg32 pool32_A_aid1 _ _
    (cfg32.wifi_mac_hash addrA) 0 pool32_A_aid1_shape (by decide)
    (by simp [upd])
  have ha : (pool32_A_aid1.sta 0).aid = 1 := by decide
  rw [ha] at h2 h3 h4
  have h5 := h4 0 (by decide)
  refine ⟨s', h1, h2, h3, ?_, ?_⟩
  · rw [h5.1]; decide
  · rw [h5.2]; decide

set_option maxRecDepth 100000 in
/-- C15, counterexample: record 0 of `pool32_A_asoc` is live and is the one
record of the associated list; after `rtw_free_stainfo` record 0 is on the
free queue and it still is the one record of the associated list. -/
theorem C15_counterexample :
    bucket_view 33 pool32_A_asoc 14 = some [.hash_list 0] ∧
    asoc_list_view 33 pool32_A_asoc = some [.asoc_list 0] ∧
    pool32_A_asoc.asoc_list_cnt = 1 ∧
    (rtw_free_stainfo cfg32 pool32_A_asoc (some 0)).map
      (fun x => (asoc_list_view 33 x.1,
        (free_queue_view 64 x.1).map (fun l => decide (Node.list 0 ∈ l)),
        x.1.asoc_list_cnt)) = some (some [.asoc_list 0], some true, 1) := by
  decide

/-- C15, amended: in a well-formed pool whose authentication-pending list
holds the records `au` and whose associated list holds the records `asl`,
`rtw_free_stainfo` on a record `r` held in a bucket returns; afterwards the
authentication-pending list holds `au` without `r`, so `r` is not on it, and
the associated list still holds exactly `asl` and `asoc_list_cnt` is what it
was: the record is off the associated list, and `asoc_list_cnt` is the length
of that list, only if this was so before the call. -/
theorem C15_release_membership (c : Cfg) (s : sta_priv) (fl au asl : List Nat)
    (bk : Nat → List Nat) (i r : Nat) (hs : Shape c s fl bk)
    (hm : MShape c s.links au asl) (hi : i < c.NUM_STA) (hr : r ∈ bk i) :
    ∃ s', rtw_free_stainfo c s (some r) = some (s', Status._SUCCESS) ∧
      MShape c s'.links (au.erase r) asl ∧
      r ∉ au.erase r ∧
      s'.asoc_list_cnt = s.asoc_list_cnt ∧
      (s.asoc_list_cnt = (asl.length : Int) → s'.asoc_list_cnt = (asl.length : Int)) := by
  have h1 := free_eq c s r (hs.queues i hi r hr)
  refine ⟨_, h1, (hm.mshape_free_live hs hi hr).1, ?_, ?_, ?_⟩
  · exact fun h => ((auth_nodup hm).mem_erase_iff.mp h).1 rfl
  · rw [free_tail_asoc_list_cnt]; rfl
  · intro h
    rw [free_tail_asoc_list_cnt]; exact h

/-- Witness of the amended C15: releasing record 0 of `pool32_A_asoc`, which
is on the associated list. -/
theorem C15_release_membership_witness :
    ∃ s', rtw_free_stainfo cfg32 pool32_A_asoc (some 0) = some (s', Status._SUCCESS) ∧
      MShape cfg32 s'.links [] [0] ∧ s'.asoc_list_cnt = 1 := by
  obtain ⟨s', h1, h2, _, h4, _⟩ := C15_release_membership cfg32 pool32_A_asoc _ [] [0] _
    (cfg32.wifi_mac_hash addrA) 0 pool32_A_asoc_spec.1
    pool32_A_asoc_spec.2.1 (by decide) (by simp [upd])
  exact ⟨s', h1, h2, by rw [h4]; exact pool32_A_asoc_spec.2.2⟩

/-- C16 (authentication-list count on release): in a well-formed pool whose
authentication-pending list holds the records `au`, with
`auth_list_cnt = length au`, `rtw_free_stainfo` on a record `r` held in a
bucket returns; if `r` was on the list, the list afterwards holds `au`
without `r` and `auth_list_cnt` is one less; otherwise the list holds `au`
and `auth_list_cnt` is unchanged; in both cases `auth_list_cnt` is again the
length of the list. -/
theorem C16_auth_count_sync (c : Cfg) (s : sta_priv) (fl au asl : List Nat)
    (bk : Nat → List Nat) (i r : Nat) (hs : Shape c s fl bk)
    (hm : MShape c s.links au asl) (hcnt : s.auth_list_cnt = (au.length : Int))
    (hi : i < c.NUM_STA) (hr : r ∈ bk i) :
    ∃ s', rtw_free_stainfo c s (some r) = some (s', Status._SUCCESS) ∧
      (r ∈ au → MShape c s'.links (au.erase r) asl ∧ r ∉ au.erase r ∧
        s'.auth_list_cnt = s.auth_list_cnt - 1) ∧
      (r ∉ au → MShape c s'.links au asl ∧ s'.auth_list_cnt = s.auth_list_cnt) ∧
      (∃ au', MShape c s'.links au' asl ∧ s'.auth_list_cnt = (au'.length : Int)) := by
  have h1 := free_eq c s r (hs.queues i hi r hr)
  obtain ⟨g1, g2⟩ := hm.mshape_free_live hs hi hr
  refine ⟨_, h1, ?_, ?_, ?_⟩
  · intro hra
    rw [g2, if_pos hra]
    exact ⟨g1, fun h => ((auth_nodup hm).mem_erase_iff.mp h).1 rfl, rfl⟩
  · intro hra
    rw [g2, if_neg hra]
    rw [List.erase_of_not_mem hra] at g1
    exact ⟨g1, rfl⟩
  · refine ⟨au.erase r, g1, ?_⟩
    rw [g2]
    by_cases hra : r ∈ au
    · rw [if_pos hra, List.length_erase_of_mem hra, hcnt]
      have : 0 < au.length := List.length_pos_of_mem hra
      omega
    · rw [if_neg hra, List.erase_of_not_mem hra, hcnt]

/-- Witness of C16: releasing record 0 of `pool32_A_auth`, which is alone on
the authentication-pending list. -/
theorem C16_auth_count_sync_witness :
    ∃ s', rtw_free_stainfo cfg32 pool32_A_auth (some 0) = some (s', Status._SUCCESS) ∧
      MShape cfg32 s'.links [] [] ∧ s'.auth_list_cnt = 0 := by
  obtain ⟨s', h1, h2, _, _⟩ := C16_auth_count_sync cfg32 pool32_A_auth _ [0] [] _
    (cfg32.wifi_mac_hash addrA) 0 pool32_A_auth_spec.1
    pool32_A_auth_spec.2.1 (by rw [pool32_A_auth_spec.2.2]; rfl) (by decide) (by simp [upd])
  obtain ⟨g1, _, g3⟩ := h2 (by simp)
  refine ⟨s', h1, by simpa using g1, ?_⟩
  rw [g3, pool32_A_auth_spec.2.2]; rfl

/-- C17 (initialisation postcondition): when `vzalloc` returns a buffer,
`_rtw_init_sta_priv` returns `_SUCCESS` and leaves a well-formed pool whose
free queue holds the `NUM_STA` distinct records `0 .. NUM_STA - 1`, whose
`NUM_STA` buckets are all empty, whose two membership lists are empty, with
`asoc_sta_count`, `asoc_list_cnt`, `auth_list_cnt`, `sta_dz_bitmap` and
`tim_bitmap` all 0 and `max_num_sta = NUM_STA`; when `vzalloc` returns NULL,
it returns `_FAIL`. -/
theorem C17_init_postcondition (c : Cfg) (s0 : sta_priv) :
    (_rtw_init_sta_priv c true s0).2 = Status._SUCCESS ∧
    Shape c (_rtw_init_sta_priv c true s0).1 (List.range c.NUM_STA) (fun _ => []) ∧
    (List.range c.NUM_STA).Nodup ∧ (List.range c.NUM_STA).length = c.NUM_STA ∧
    MShape c (_rtw_init_sta_priv c true s0).1.links [] [] ∧
    (_rtw_init_sta_priv c true s0).1.asoc_sta_count = 0 ∧
    (_rtw_init_sta_priv c true s0).1.asoc_list_cnt = 0 ∧
    (_rtw_init_sta_priv c true s0).1.auth_list_cnt = 0 ∧
    (_rtw_init_sta_priv c true s0).1.sta_dz_bitmap = 0 ∧
    (_rtw_init_sta_priv c true s0).1.tim_bitmap = 0 ∧
    (_rtw_init_sta_priv c true s0).1.max_num_sta = c.NUM_STA ∧
    (_rtw_init_sta_priv c false s0).2 = Status._FAIL :=
  ⟨rfl, init_shape c s0, List.nodup_range _, List.length_range _, init_mshape c s0,
    init_pool_asoc_sta_count c s0, rfl, rfl, rfl, rfl, rfl, rfl⟩

/-- C18 (slot addressing round trip): when a record has a positive size, the
buffer of `NUM_STA` records lies inside the address space and `NUM_STA` fits
an `int`: `rtw_stainfo_offset(rtw_get_stainfo_by_offset(i)) = i` for every
`i` with `0 <= i < NUM_STA`; for every record `r` of the pool the offset of
its address lies in `[0, NUM_STA)` (it is `r`) and
`rtw_get_stainfo_by_offset` of that offset is its address again; and
`rtw_alloc_stainfo` and `rtw_free_stainfo` leave `pstainfo_buf`, hence the
address and the offset of every record, as they were. -/
theorem C18_slot_round_trip (c : Cfg) (s : sta_priv) (hsz : 0 < c.sizeof_sta_info)
    (hfit : s.pstainfo_buf + c.NUM_STA * c.sizeof_sta_info ≤ 2 ^ c.ptr_bits)
    (hint : c.NUM_STA ≤ 2 ^ 31) :
    (∀ i : Int, 0 ≤ i → i < c.NUM_STA →
      rtw_stainfo_offset c s (rtw_get_stainfo_by_offset c s i) = i) ∧
    (∀ r, r < c.NUM_STA →
      rtw_stainfo_offset c s (sta_ptr c s r) = (r : Int) ∧
      0 ≤ rtw_stainfo_offset c s (sta_ptr c s r) ∧
      rtw_stainfo_offset c s (sta_ptr c s r) < c.NUM_STA ∧
      rtw_get_stainfo_by_offset c s (rtw_stainfo_offset c s (sta_ptr c s r))
        = sta_ptr c s r) ∧
    (∀ a s' res, rtw_alloc_stainfo c s a = some (s', res) →
      s'.pstainfo_buf = s.pstainfo_buf ∧
      ∀ r, sta_ptr c s' r = sta_ptr c s r ∧
        rtw_stainfo_offset c s' (sta_ptr c s' r) = rtw_stainfo_offset c s (sta_ptr c s r)) ∧
    (∀ psta s' st, rtw_free_stainfo c s psta = some (s', st) →
      s'.pstainfo_buf = s.pstainfo_buf ∧
      ∀ r, sta_ptr c s' r = sta_ptr c s r ∧
        rtw_stainfo_offset c s' (sta_ptr c s' r) = rtw_stainfo_offset c s (sta_ptr c s r)) := by
  have hkeep : ∀ s' : sta_priv, s'.pstainfo_buf = s.pstainfo_buf →
      ∀ r, sta_ptr c s' r = sta_ptr c s r ∧
        rtw_stainfo_offset c s' (sta_ptr c s' r) = rtw_stainfo_offset c s (sta_ptr c s r) := by
    intro s' e r
    unfold rtw_stainfo_offset sta_ptr
    rw [e]
    exact ⟨rfl, rfl⟩
  refine ⟨?_, ?_, ?_, ?_⟩
  · intro i h0 h1
    obtain ⟨n, rfl⟩ := Int.eq_ofNat_of_zero_le h0
    have hn : n < c.NUM_STA := by exact_mod_cast h1
    rw [by_offset_eq_sta_ptr c s n hsz hfit hn]
    exact offset_sta_ptr c s n hsz hfit hint hn
  · intro r hr
    have e := offset_sta_ptr c s r hsz hfit hint hr
    rw [e]
    exact ⟨rfl, Int.natCast_nonneg r, by exact_mod_cast hr,
      by_offset_eq_sta_ptr c s r hsz hfit hr⟩
  · intro a s' res h
    exact ⟨alloc_pstainfo_buf h, hkeep s' (alloc_pstainfo_buf h)⟩
  · intro psta s' st h
    have e : s'.pstainfo_buf = s.pstainfo_buf := by
      cases psta with
      | none =>
        injection h with h
        injection h with e1 _
        rw [← e1]
      | some r =>
        unfold rtw_free_stainfo at h
        simp only at h
        split at h
        · cases h
        · injection h with h
          injection h with e1 _
          rw [← e1, free_tail_pstainfo_buf]
    exact ⟨e, hkeep s' e⟩

set_option maxRecDepth 100000 in
/-- Witness of C18: slot 5 of the pool `pool32_A`, whose buffer of 32 records
of 1024 bytes starts at address 4100. -/
theorem C18_slot_round_trip_witness :
    pool32_A.pstainfo_buf = 4100 ∧
    rtw_get_stainfo_by_offset cfg32 pool32_A 5 = 9220 ∧
    rtw_stainfo_offset cfg32 pool32_A (rtw_get_stainfo_by_offset cfg32 pool32_A 5) = 5 ∧
    rtw_stainfo_offset cfg32 pool32 (sta_ptr cfg32 pool32 0) =
      rtw_stainfo_offset cfg32 pool32_A (sta_ptr cfg32 pool32_A 0) := by
  have h := C18_slot_round_trip cfg32 pool32_A (by decide) (by decide) (by decide)
  have h' := C18_slot_round_trip cfg32 pool32 (by decide) (by decide) (by decide)
  refine ⟨by decide, by decide, h.1 5 (by decide) (by decide), ?_⟩
  exact ((h'.2.2.1 addrA pool32_A (some 0) pool32_A_spec.1).2 0).2.symm

set_option maxRecDepth 100000 in
/-- C19, counterexample: in the fresh 32-record pool `rtw_alloc_stainfo(addrA)`
hands out record 0 and leaves `asoc_sta_count = 1`; `rtw_free_all_stainfo`
then returns at once: record 0, whose address is not the all-ones address, is
still the one record of bucket 14 and is not on the free queue. -/
theorem C19_counterexample :
    (rtw_alloc_stainfo cfg32 pool32 addrA).map (·.2) = some (some 0) ∧
    pool32_A.asoc_sta_count = 1 ∧
    (rtw_free_all_stainfo cfg32 64 pool32_A).map
      (fun s => (bucket_view 33 s 14, decide ((s.sta 0).hwaddr = bc_addr),
        (free_queue_view 64 s).map (fun l => decide (Node.list 0 ∈ l)))) =
      some (some [.hash_list 0], false, some false) := by
  decide

/-- C19, amended: in a well-formed pool (free queue `fl`, buckets `bk`, no
free record in a bucket), run with more fuel than there are records and with
the all-ones address hashing to a bucket, `rtw_free_all_stainfo` returns.
When `asoc_sta_count` is 1 it leaves the pool unchanged.  Otherwise the pool
is well formed afterwards, every record then held in a bucket is the record
`pb` that `rtw_get_bcmc_stainfo` found before the sweep (and was in that
bucket before), and every record that was held in a bucket and is not `pb` is
on the free queue. -/
theorem C19_bulk_release (c : Cfg) (s : sta_priv) (fl : List Nat) (bk : Nat → List Nat)
    (fuel : Nat) (hs : Shape c s fl bk) (hp : Part c fl bk) (hf : c.NUM_STA < fuel)
    (hidx : c.wifi_mac_hash bc_addr < c.NUM_STA) :
    ∃ pb s', rtw_get_bcmc_stainfo c fuel s = some pb ∧
      rtw_free_all_stainfo c fuel s = some s' ∧
      (s.asoc_sta_count = 1 → s' = s) ∧
      (s.asoc_sta_count ≠ 1 →
        ∃ fl' bk', Shape c s' fl' bk' ∧ Part c fl' bk' ∧
          (∀ j, j < c.NUM_STA → ∀ x, x ∈ bk' j → pb = some x ∧ x ∈ bk j) ∧
          (∀ j, j < c.NUM_STA → ∀ x, x ∈ bk j → pb ≠ some x → x ∈ fl')) := by
  have hget : rtw_get_bcmc_stainfo c fuel s =
      some (first_match s bc_addr (bk (c.wifi_mac_hash bc_addr))) := by
    have := get_stainfo_shape hs.links bc_addr (by rw [norm_addr_bc]; exact hidx) fuel
      (by rw [norm_addr_bc]; exact lt_of_le_of_lt (bucket_length_le hs.links hidx) hf)
    rw [norm_addr_bc] at this
    exact this
  obtain ⟨s', h1, h2, h3⟩ := free_all_spec c s fl bk fuel hs hp hf hidx
  refine ⟨_, s', hget, h1, h2, ?_⟩
  intro hcnt
  obtain ⟨g1, g2, _⟩ := h3 hcnt
  refine ⟨_, _, g1, g2, ?_, ?_⟩
  · intro j hj x hx
    simp only [swept, hj, if_true, skipped, List.mem_filter, decide_eq_true_eq] at hx
    exact ⟨hx.2, hx.1⟩
  · intro j hj x hx hne
    apply List.mem_append_right
    rw [mem_released_upto]
    refine ⟨j, hj, ?_⟩
    simp only [released, List.mem_filter, Bool.not_eq_true', decide_eq_false_iff_not]
    exact ⟨hx, hne⟩

set_option maxRecDepth 100000 in
/-- Witness of the amended C19: the bulk release in `pool32_bc_A`, which holds
the record of the all-ones address and the record of `addrA`. -/
theorem C19_bulk_release_witness :
    pool32_bc_A.asoc_sta_count = 2 ∧
    ∃ pb s', rtw_get_bcmc_stainfo cfg32 64 pool32_bc_A = some pb ∧
      rtw_free_all_stainfo cfg32 64 pool32_bc_A = some s' ∧
      ∃ fl' bk', Shape cfg32 s' fl' bk' ∧
        ∀ j, j < cfg32.NUM_STA → ∀ x, x ∈ bk' j → pb = some x := by
  obtain ⟨fl, bk, hs, hp⟩ := pool32_bc_A_wf
  obtain ⟨pb, s', h1, h2, _, h4⟩ := C19_bulk_release cfg32 pool32_bc_A fl bk 64 hs hp
    (by decide) (cfg32_hash_lt bc_addr)
  obtain ⟨fl', bk', g1, _, g3, _⟩ := h4 (by decide)
  exact ⟨by decide, pb, s', h1, h2, fl', bk', g1, fun j hj x hx => (g3 j hj x hx).1⟩

/-- C20 (live-count invariant): when `wifi_mac_hash` maps every address to a
bucket index, every pool reachable from `_rtw_init_sta_priv` by calls of
`rtw_alloc_stainfo` and calls of `rtw_free_stainfo` on live records (and
calls of `rtw_free_all_stainfo`) is well formed, and its `asoc_sta_count` is
the number of records held in the buckets and is `NUM_STA` minus the length
of the free queue, so it lies between 0 and `NUM_STA`. -/
theorem C20_live_count (c : Cfg) (hall : ∀ a, c.wifi_mac_hash a < c.NUM_STA) (s : sta_priv)
    (hr : Reach c s) :
    ∃ fl bk, Shape c s fl bk ∧ Part c fl bk ∧
      s.asoc_sta_count = (live_count c bk : Int) ∧
      s.asoc_sta_count = (c.NUM_STA : Int) - (fl.length : Int) ∧
      0 ≤ s.asoc_sta_count ∧ s.asoc_sta_count ≤ (c.NUM_STA : Int) := by
  obtain ⟨fl, bk, hs, hp, hc, _⟩ := reach_inv hall hr
  have h1 := reach_count hall hr fl bk hs
  have h2 := partition_length hs.links hp hc
  have h3 : (live_count c bk : Int) + (fl.length : Int) = (c.NUM_STA : Int) := by
    exact_mod_cast h2
  refine ⟨fl, bk, hs, hp, ?_, ?_, ?_, ?_⟩ <;> omega

/-- Witness of C20: the pool after one allocation in the fresh 32-record
pool. -/
theorem C20_live_count_witness :
    Reach cfg32 pool32_A ∧
    ∃ fl bk, Shape cfg32 pool32_A fl bk ∧
      pool32_A.asoc_sta_count = (live_count cfg32 bk : Int) ∧
      pool32_A.asoc_sta_count = 32 - (fl.length : Int) := by
  have hr : Reach cfg32 pool32_A := Reach.alloc addrA (some 0) (Reach.init blank) pool32_A_spec.1
  obtain ⟨fl, bk, h1, _, h3, h4, _⟩ := C20_live_count cfg32 cfg32_hash_lt pool32_A hr
  exact ⟨hr, fl, bk, h1, h3, h4⟩

end RtwStaMgt
